import Mathlib

/-!
# Lonely edges: a verification development for `lonelyEdges.c`

Shallow embedding of the algorithmic core of `lonelyEdges.c` (edge numbering, exhaustive
perfect-matching enumeration, lonely-edge classification and the triangle blow-up child
generation), followed by theorems about it.

Conventions of the embedding.

* The header `bitset.h` is not part of the sources at hand. Its type `bitset` and its macros
  are modelled from the description of the set universe in the specification, as finite sets
  of natural numbers; the capacity `MAXBITSETSIZE` appears as an explicit parameter `C`
  exactly where the C code mentions it. A set of the C program holds numbers below the
  capacity only. The one place where the code can form a number that is not below it is
  `blowUpToTriangle`, which stores `n` and `n + 1` without a test: `blowUpToTriangleWithin`
  is that function under a capacity, and `blowUpToTriangle` is what it computes when
  `n + 2 ≤ C`.
* C arrays (`adjacencyList`, `edgeIndices`, `labelToEdge`) are maps from the index to the
  stored value; an assignment `a[i] = x` is `Function.update a i x`.
* The sentinel `-1` of `next` becomes `none`.
* The recursion of `generatePerfectMatchings` is driven by a fuel argument; running out of
  fuel is `none`, and the theorems show that the fuel handed over by the callers suffices.
* Diagnostics on `stderr` are left out, except that the state threaded through the
  enumeration records the matching present at each visit of the completion branch (this is
  what option `-m` prints).
-/

namespace LonelyEdges

/-! ## The set universe (`bitset.h`) -/

/-- Modelled from the spec: the type `bitset` of the absent header `bitset.h`, a set of
vertex numbers or of edge identifiers. -/
abbrev bitset := Finset Nat

/-- Modelled from the spec: the macro `EMPTY` of `bitset.h`. -/
abbrev EMPTY : bitset := ∅

/-- Modelled from the spec: the macro `singleton(el)` of `bitset.h`. -/
abbrev singleton (el : Nat) : bitset := {el}

/-- Modelled from the spec: the macro `union(a, b)` of `bitset.h`. -/
abbrev union (a b : bitset) : bitset := a ∪ b

/-- Modelled from the spec: the macro `intersection(a, b)` of `bitset.h`. -/
abbrev intersection (a b : bitset) : bitset := a ∩ b

/-- Modelled from the spec: the macro `difference(a, b)` of `bitset.h`. -/
abbrev difference (a b : bitset) : bitset := a \ b

/-- Modelled from the spec: the macro `complement(s, n)` of `bitset.h`, the complement of
`s` within the first `n` numbers. -/
abbrev complement (s : bitset) (n : Nat) : bitset := Finset.range n \ s

/-- Modelled from the spec: the macro `size(s)` of `bitset.h`. -/
abbrev size (s : bitset) : Nat := s.card

/-- Modelled from the spec: the macro `add(s, el)` of `bitset.h`, as the new value of `s`. -/
abbrev add (s : bitset) (el : Nat) : bitset := s ∪ {el}

/-- Modelled from the spec: the macro `removeElement(s, el)` of `bitset.h`, as the new value
of `s`. -/
abbrev removeElement (s : bitset) (el : Nat) : bitset := s \ {el}

/-- Modelled from the spec: the iteration `forEach(el, s)` of `bitset.h`, the elements of `s`
in ascending order. -/
def forEach (s : bitset) : List Nat :=
  (List.range (s.sup id + 1)).filter (fun i => i ∈ s)

/-- Modelled from the spec: the iteration `forEachAfterIndex(el, s, start)` of `bitset.h`,
the elements of `s` larger than `start` in ascending order. -/
def forEachAfterIndex (s : bitset) (start : Nat) : List Nat :=
  (forEach s).filter (fun i => start < i)

/-- Modelled from the spec: the macro `next(s, current)` of `bitset.h`, the least element of
`s` that is larger than `current`; `none` stands for `-1`, as argument and as result. -/
def next (s : bitset) (current : Option Nat) : Option Nat :=
  match current with
  | none => (forEach s).head?
  | some c => (forEachAfterIndex s c).head?

/-! ## Graphs -/

/-- The C `struct graph`. -/
structure graph where
  numberOfVertices : Nat
  adjacencyList : Nat → bitset
  edgeIndices : Nat → Nat
  labelToEdge : Nat → Nat

/-- The macro `getIndex(g,x,y)`. -/
def getIndex (g : graph) (x y : Nat) : Nat :=
  g.edgeIndices (g.numberOfVertices * x + y)

/-- State of the loops of `numberEdges`: the graph being written and the local `index`. -/
abbrev numState := graph × Nat

/-- Body of the inner loop of `numberEdges` for the neighbours still to visit.
`Except.error` is the early `return -1`. -/
def numberEdgesInner (C i : Nat) : List Nat → numState → Except numState numState
  | [], st => Except.ok st
  | nbr :: rest, (g, index) =>
    let g1 : graph := { g with
      edgeIndices := Function.update g.edgeIndices (g.numberOfVertices * i + nbr) index }
    let g2 : graph := { g1 with
      edgeIndices := Function.update g1.edgeIndices (g1.numberOfVertices * nbr + i) index }
    let g3 : graph :=
      if i < nbr then
        { g2 with
          labelToEdge :=
            Function.update (Function.update g2.labelToEdge (2 * index) i)
              (2 * index + 1) nbr }
      else g2
    if index + 1 > C then Except.error (g3, index + 1)
    else numberEdgesInner C i rest (g3, index + 1)

/-- Outer loop of `numberEdges` for the vertices still to visit. -/
def numberEdgesOuter (C : Nat) : List Nat → numState → Except numState numState
  | [], st => Except.ok st
  | i :: rest, st =>
    match numberEdgesInner C i (forEachAfterIndex (st.1.adjacencyList i) i) st with
    | Except.error e => Except.error e
    | Except.ok st1 => numberEdgesOuter C rest st1

/-- The C function `numberEdges`, with `C = MAXBITSETSIZE`: the return code and the graph
as it is left. -/
def numberEdges (C : Nat) (g : graph) : Int × graph :=
  match numberEdgesOuter C (List.range g.numberOfVertices) (g, 0) with
  | Except.error st => (-1, st.1)
  | Except.ok st => (0, st.1)

/-- The C function `readGraph`, with `C = MAXBITSETSIZE`. The decoders of the absent header
`readGraph6.h` are parameters: `getNumberOfVertices` (a negative result is the failure
`-1`) and `loadGraph` (`none` is the failure `-1`). The result `none` is `false`, and
`some g` is `true` with the graph written to `*g`. Freshly allocated arrays read `0`. -/
def readGraph (C : Nat) (getNumberOfVertices : String → Int)
    (loadGraph : String → Nat → Option (Nat → bitset)) (graphString : String) :
    Option graph :=
  let n := getNumberOfVertices graphString
  if n = -1 ∨ n > (C : Int) then none
  else
    match loadGraph graphString n.toNat with
    | none => none
    | some adj =>
      let g : graph :=
        { numberOfVertices := n.toNat, adjacencyList := adj,
          edgeIndices := fun _ => 0, labelToEdge := fun _ => 0 }
      let r := numberEdges C g
      if r.1 = -1 then none else some r.2

/-! ## Perfect matchings and lonely edges -/

/-- The two accumulators `*edgesHit` and `*edgesHitTwice` threaded through
`generatePerfectMatchings`, together with the record of the matchings present at the visits
of the completion branch, oldest first. -/
structure enumState where
  edgesHit : bitset
  edgesHitTwice : bitset
  completions : List bitset

/-- The completion branch of `generatePerfectMatchings` (`nextVertex == -1`). -/
def complete (matching : bitset) (st : enumState) : enumState :=
  { edgesHitTwice := union st.edgesHitTwice (intersection st.edgesHit matching)
    edgesHit := union st.edgesHit matching
    completions := st.completions ++ [matching] }

/-- The loop `forEach(neighbor, ...)` of `generatePerfectMatchings` over the neighbours still
to visit; `rec` is the recursive call. -/
def forNeighbors (rec : bitset → bitset → enumState → Option enumState) (g : graph)
    (nextVertex : Nat) (remainingVertices matching : bitset) :
    List Nat → enumState → Option enumState
  | [], st => some st
  | neighbor :: rest, st =>
    let newMatching := union matching (singleton (getIndex g nextVertex neighbor))
    let newRemainingVertices :=
      difference remainingVertices (union (singleton nextVertex) (singleton neighbor))
    match rec newRemainingVertices newMatching st with
    | none => none
    | some st1 => forNeighbors rec g nextVertex remainingVertices matching rest st1

/-- The C function `generatePerfectMatchings`. The first argument bounds the depth of the
recursion; `none` means that it was too small. -/
def generatePerfectMatchings : Nat → graph → bitset → bitset → enumState → Option enumState
  | 0, _, _, _, _ => none
  | fuel + 1, g, remainingVertices, matching, st =>
    match next remainingVertices none with
    | none => some (complete matching st)
    | some nextVertex =>
      forNeighbors (generatePerfectMatchings fuel g) g nextVertex remainingVertices matching
        (forEach (intersection (g.adjacencyList nextVertex) remainingVertices)) st

/-- The accumulators as the callers initialise them. -/
def initState : enumState := { edgesHit := EMPTY, edgesHitTwice := EMPTY, completions := [] }

/-- The C function `countLonelyEdges`: the returned count and the set stored in
`*lonelyEdges`. -/
def countLonelyEdges (g : graph) : Option (Nat × bitset) :=
  match generatePerfectMatchings (g.numberOfVertices + 1) g
      (complement EMPTY g.numberOfVertices) EMPTY initState with
  | none => none
  | some st =>
    let lonelyEdges := difference st.edgesHit st.edgesHitTwice
    some (size lonelyEdges, lonelyEdges)

/-! ## Children -/

/-- What stops a run of the model short of the behaviour of the C program: the fuel of the
enumeration is used up, `frequencies` is indexed outside its `MAXBITSETSIZE` cells, or a
number that is not below `MAXBITSETSIZE` is to be put into a `bitset`. -/
inductive fault where
  | fuel
  | frequenciesOutOfBounds (index : Nat)
  | bitsetIndexOutOfRange (index : Nat)
  deriving DecidableEq

/-- One round of the loop `forEach(nbr, g->adjacencyList[v])` of `blowUpToTriangle`, on the
adjacency array of `newG` and the counter `k`; `n` is `g->numberOfVertices`. -/
def blowUpStep (n v : Nat) (st : (Nat → bitset) × Nat) (nbr : Nat) : (Nat → bitset) × Nat :=
  if st.2 = 2 then st
  else
    let k := st.2
    let a1 := Function.update st.1 nbr (removeElement (st.1 nbr) v)
    let a2 := Function.update a1 v (removeElement (a1 v) nbr)
    let a3 := Function.update a2 nbr (add (a2 nbr) (n + k))
    let a4 := Function.update a3 (n + k) (add (a3 (n + k)) nbr)
    let a5 := Function.update a4 v (add (a4 v) (n + k))
    (a5, k + 1)

/-- The statements of the C function `blowUpToTriangle` on sets without a capacity: the
graph left in `*newG`, which is also the graph handed to `writeToG6`. Cells outside the
allocated array read `EMPTY`; the two arrays of edge numbers of `newG` are not set by the C
code and read `0`. The C code runs these statements on sets of capacity `MAXBITSETSIZE` and
never compares `n + 2` with it, so this is the C function exactly when
`g.numberOfVertices + 2 ≤ MAXBITSETSIZE` (as for every cubic graph that `readGraph`
accepts); see `blowUpToTriangleWithin` for the function under a capacity. -/
def blowUpToTriangle (g : graph) (v : Nat) : graph :=
  let n := g.numberOfVertices
  let a0 : Nat → bitset := fun j => if j < n then g.adjacencyList j else EMPTY
  let a1 := Function.update a0 (n + 1) (union (singleton v) (singleton n))
  let a2 := Function.update a1 n (union (singleton v) (singleton (n + 1)))
  let r := (forEach (g.adjacencyList v)).foldl (blowUpStep n v) (a2, 0)
  { numberOfVertices := n + 2, adjacencyList := r.1,
    edgeIndices := fun _ => 0, labelToEdge := fun _ => 0 }

/-- The C function `blowUpToTriangle` on sets of capacity `C`, for a graph whose sets hold
numbers below `C` and a vertex `v < n`. Its first two assignments evaluate `singleton(n)` and
`singleton(n + 1)` whatever the neighbours of `v` are, and no statement of the function
tests `n` against the capacity: when one of the two numbers is not below `C` the set cannot
hold it and the run is a fault at that number; otherwise every number the function stores is
below `C` and the result is that of `blowUpToTriangle`. -/
def blowUpToTriangleWithin (C : Nat) (g : graph) (v : Nat) : Except fault graph :=
  if C ≤ g.numberOfVertices then
    Except.error (fault.bitsetIndexOutOfRange g.numberOfVertices)
  else if C ≤ g.numberOfVertices + 1 then
    Except.error (fault.bitsetIndexOutOfRange (g.numberOfVertices + 1))
  else Except.ok (blowUpToTriangle g v)

/-- Loop of `generateChildrenWithSameNumberOfLonelyEdges` over the vertices still to visit:
the graphs written so far and `counter`. -/
def sameNumberLoop (g : graph) (lonelyEdgesOfg : bitset) :
    List Nat → List graph × Nat → Option (List graph × Nat)
  | [], st => some st
  | v :: rest, (out, counter) =>
    let remainingVertices :=
      difference (complement (singleton v) g.numberOfVertices) (g.adjacencyList v)
    match generatePerfectMatchings (g.numberOfVertices + 1) g remainingVertices EMPTY
        initState with
    | none => none
    | some st =>
      if size (intersection st.edgesHit lonelyEdgesOfg) = 0 then
        sameNumberLoop g lonelyEdgesOfg rest (out ++ [blowUpToTriangle g v], counter + 1)
      else sameNumberLoop g lonelyEdgesOfg rest (out, counter)

/-- The C function `generateChildrenWithSameNumberOfLonelyEdges`: the graphs written, in
order, and the returned counter. -/
def generateChildrenWithSameNumberOfLonelyEdges (g : graph) (lonelyEdgesOfg : bitset) :
    Option (List graph × Nat) :=
  sameNumberLoop g lonelyEdgesOfg (List.range g.numberOfVertices) ([], 0)

/-- Loop of `generateAllChildren` over the vertices still to visit. -/
def allChildrenLoop (g : graph) : List Nat → List graph × Nat → List graph × Nat
  | [], st => st
  | v :: rest, (out, counter) =>
    allChildrenLoop g rest (out ++ [blowUpToTriangle g v], counter + 1)

/-- The C function `generateAllChildren`: the graphs written, in order, and the returned
counter. -/
def generateAllChildren (g : graph) : List graph × Nat :=
  allChildrenLoop g (List.range g.numberOfVertices) ([], 0)

/-! ## Writing graphs -/

/-- Modelled from the spec: the macro `contains(s, el)` of `bitset.h`. -/
abbrev contains (s : bitset) (el : Nat) : Prop := el ∈ s

/-- Conversion to the C type `char`, as the byte that ends up in memory. -/
def toChar (x : Nat) : Nat := x % 256

/-- First part of `writeToG6`: the bytes written for the number of vertices, in the first
one, four or eight cells of `graphString`; `none` is the exit with "number of vertices too
large". -/
def writeHeader (numberOfVertices : Nat) : Option (List Nat) :=
  if numberOfVertices ≤ 62 then
    some [toChar (toChar numberOfVertices + 63)]
  else if numberOfVertices ≤ 258047 then
    some (toChar (63 + 63) ::
      [2, 1, 0].map (fun i => toChar (toChar (numberOfVertices >>> (i * 6)) + 63)))
  else if numberOfVertices ≤ 68719476735 then
    some (toChar (63 + 63) :: toChar (63 + 63) ::
      [5, 4, 3, 2, 1, 0].map (fun i => toChar (toChar (numberOfVertices >>> (i * 6)) + 63)))
  else none

/-- The locals `charToPrint` and `counter` of `writeToG6` and the bytes stored so far. -/
structure g6State where
  charToPrint : Nat
  counter : Nat
  out : List Nat

/-- Body of the inner loop of `writeToG6` for the pair `(i, j)`. -/
def writeBit (adjacencyList : Nat → bitset) (i : Nat) (st : g6State) (j : Nat) : g6State :=
  let c1 := toChar (st.charToPrint <<< 1)
  let c2 := if contains (adjacencyList i) j then c1 ||| 1 else c1
  if st.counter + 1 = 6 then
    { charToPrint := 0, counter := 0, out := st.out ++ [toChar (c2 + 63)] }
  else { charToPrint := c2, counter := st.counter + 1, out := st.out }

/-- The two nested loops of `writeToG6` over the pairs `j < i < numberOfVertices`. -/
def writeBody (adjacencyList : Nat → bitset) (numberOfVertices : Nat) : g6State :=
  (List.range' 1 (numberOfVertices - 1)).foldl
    (fun st i => (List.range i).foldl (writeBit adjacencyList i) st)
    { charToPrint := 0, counter := 0, out := [] }

/-- The loop `while(counter < 6)` of `writeToG6` that pads the final byte; the first
argument bounds the number of rounds (six always suffice). -/
def writePad : Nat → g6State → g6State
  | 0, st => st
  | k + 1, st =>
    if st.counter < 6 then
      let c1 := toChar (st.charToPrint <<< 1)
      if st.counter + 1 = 6 then
        writePad k { charToPrint := c1, counter := st.counter + 1,
                     out := st.out ++ [toChar (c1 + 63)] }
      else writePad k { charToPrint := c1, counter := st.counter + 1, out := st.out }
    else st

/-- The bytes that `writeToG6` stores for the adjacency matrix: the two nested loops followed
by the padding of the final byte. -/
def writeBits (adjacencyList : Nat → bitset) (numberOfVertices : Nat) : List Nat :=
  let st := writeBody adjacencyList numberOfVertices
  (if st.counter ≠ 0 then writePad 6 st else st).out

/-- The C function `writeToG6`: the bytes that `printf("%s", graphString)` sends to the
output (those before the first zero byte); `none` is the exit with "number of vertices too
large". -/
def writeToG6 (adjacencyList : Nat → bitset) (numberOfVertices : Nat) : Option (List Nat) :=
  match writeHeader numberOfVertices with
  | none => none
  | some header =>
    some ((header ++ writeBits adjacencyList numberOfVertices ++ [10, 0]).takeWhile
      (fun b => b ≠ 0))

/-! ## The driver -/

/-- The C `struct options`. -/
structure options where
  allChildrenFlag : Bool
  printMatchingsFlag : Bool
  printChildrenWithSameNumber : Bool
  verboseFlag : Bool

/-- What `getopt_long` hands to the `switch` of `main`, one value per option found on the
command line; `value` is `(int) strtol(optarg, NULL, 10)`, and `unknown` is the case `'?'`. -/
inductive cliOption where
  | a
  | d
  | h
  | m
  | o (value : Int)
  | v
  | unknown
  deriving DecidableEq

/-- The locals `options` and `output` of `main`. -/
structure parseState where
  opts : options
  output : Int

/-- The `switch(opt)` of `main`; `Except.error r` is `return r`. -/
def parseOption (st : parseState) : cliOption → Except Int parseState
  | cliOption.a => Except.ok { st with opts := { st.opts with allChildrenFlag := true } }
  | cliOption.d =>
    Except.ok { st with opts := { st.opts with printChildrenWithSameNumber := true } }
  | cliOption.h => Except.error 0
  | cliOption.m => Except.ok { st with opts := { st.opts with printMatchingsFlag := true } }
  | cliOption.o value => if value < 0 then Except.error 1 else Except.ok { st with output := value }
  | cliOption.v => Except.ok { st with opts := { st.opts with verboseFlag := true } }
  | cliOption.unknown => Except.error 1

/-- The loop `while (1)` of `main` over the options of the command line. -/
def parseOptions : List cliOption → parseState → Except Int parseState
  | [], st => Except.ok st
  | opt :: rest, st =>
    match parseOption st opt with
    | Except.error r => Except.error r
    | Except.ok st1 => parseOptions rest st1

/-- The four checks of `main` after the options are read; `some r` is `return r`. -/
def checkOptions (st : parseState) : Option Int :=
  if st.opts.printMatchingsFlag && !st.opts.verboseFlag then some 1
  else if st.output != -1 && st.opts.printChildrenWithSameNumber then some 1
  else if st.output != -1 && st.opts.allChildrenFlag then some 1
  else if st.opts.printChildrenWithSameNumber && st.opts.allChildrenFlag then some 1
  else none

/-- One item on the standard output: an input line echoed by `printf("%s", graphString)`,
or a graph handed to `writeToG6` by `blowUpToTriangle`. -/
inductive outItem where
  | echoed (graphString : String)
  | written (newG : graph)

/-- The standard output and the locals `counter`, `skippedGraphs`, `passedGraphs` and
`frequencies` of `main`. -/
structure runState where
  stdout : List outItem
  counter : Nat
  skippedGraphs : Nat
  passedGraphs : Nat
  frequencies : Nat → Nat

/-- The body of the loop of `main` over the lines of the standard input, with
`C = MAXBITSETSIZE`, the length of the array `frequencies`. -/
def processLine (C : Nat) (getNumberOfVertices : String → Int)
    (loadGraph : String → Nat → Option (Nat → bitset)) (st : parseState) (rs : runState)
    (graphString : String) : Except fault runState :=
  match readGraph C getNumberOfVertices loadGraph graphString with
  | none => Except.ok { rs with skippedGraphs := rs.skippedGraphs + 1 }
  | some g =>
    let rs1 : runState := { rs with counter := rs.counter + 1 }
    if st.opts.allChildrenFlag then
      let r := generateAllChildren g
      Except.ok { rs1 with stdout := rs1.stdout ++ r.1.map outItem.written
                           passedGraphs := rs1.passedGraphs + r.2 }
    else
      match countLonelyEdges g with
      | none => Except.error fault.fuel
      | some (numberOfLonelyEdges, lonelyEdges) =>
        if numberOfLonelyEdges < C then
          let rs2 : runState := { rs1 with
            frequencies := Function.update rs1.frequencies numberOfLonelyEdges
              (rs1.frequencies numberOfLonelyEdges + 1) }
          if st.opts.printChildrenWithSameNumber then
            match generateChildrenWithSameNumberOfLonelyEdges g lonelyEdges with
            | none => Except.error fault.fuel
            | some r =>
              Except.ok { rs2 with stdout := rs2.stdout ++ r.1.map outItem.written
                                   passedGraphs := rs2.passedGraphs + r.2 }
          else if numberOfLonelyEdges ≠ 0 then
            if st.output = -1 ∨ st.output = (numberOfLonelyEdges : Int) then
              Except.ok { rs2 with passedGraphs := rs2.passedGraphs + 1
                                   stdout := rs2.stdout ++ [outItem.echoed graphString] }
            else Except.ok rs2
          else Except.ok rs2
        else Except.error (fault.frequenciesOutOfBounds numberOfLonelyEdges)

/-- The loop of `main` over the lines of the standard input. -/
def processLines (C : Nat) (getNumberOfVertices : String → Int)
    (loadGraph : String → Nat → Option (Nat → bitset)) (st : parseState) :
    List String → runState → Except fault runState
  | [], rs => Except.ok rs
  | graphString :: rest, rs =>
    match processLine C getNumberOfVertices loadGraph st rs graphString with
    | Except.error f => Except.error f
    | Except.ok rs1 => processLines C getNumberOfVertices loadGraph st rest rs1

/-- The state of `main` before the first line is read. -/
def initRun : runState :=
  { stdout := [], counter := 0, skippedGraphs := 0, passedGraphs := 0,
    frequencies := fun _ => 0 }

/-- The C function `main`: the exit status and the final state, for the options found by
`getopt_long` and the lines of the standard input. -/
def main (C : Nat) (getNumberOfVertices : String → Int)
    (loadGraph : String → Nat → Option (Nat → bitset)) (args : List cliOption)
    (stdin : List String) : Except fault (Int × runState) :=
  match parseOptions args
      { opts := { allChildrenFlag := false, printMatchingsFlag := false,
                  printChildrenWithSameNumber := false, verboseFlag := false },
        output := -1 } with
  | Except.error r => Except.ok (r, initRun)
  | Except.ok st =>
    match checkOptions st with
    | some r => Except.ok (r, initRun)
    | none =>
      match processLines C getNumberOfVertices loadGraph st stdin initRun with
      | Except.error f => Except.error f
      | Except.ok rs => Except.ok (0, rs)

/-! ## Test graphs -/

/-- The complete graph on four vertices, before its edges are numbered. -/
def K4raw : graph :=
  { numberOfVertices := 4
    adjacencyList := fun i =>
      if i = 0 then {1, 2, 3} else if i = 1 then {0, 2, 3}
      else if i = 2 then {0, 1, 3} else if i = 3 then {0, 1, 2} else ∅
    edgeIndices := fun _ => 0
    labelToEdge := fun _ => 0 }

/-- The complete graph on four vertices with the edge numbers of `numberEdges`. -/
def K4 : graph := (numberEdges 64 K4raw).2


/-- The cycle on `k` vertices, before its edges are numbered. -/
def cycleRaw (k : Nat) : graph :=
  { numberOfVertices := k
    adjacencyList := fun i => if i < k then {(i + 1) % k, (i + (k - 1)) % k} else ∅
    edgeIndices := fun _ => 0
    labelToEdge := fun _ => 0 }

/-- The prism (two triangles `0 1 2` and `3 4 5` joined by the edges `0 3`, `1 4`, `2 5`),
before its edges are numbered. -/
def prismRaw : graph :=
  { numberOfVertices := 6
    adjacencyList := fun i =>
      if i = 0 then {1, 2, 3} else if i = 1 then {0, 2, 4}
      else if i = 2 then {0, 1, 5} else if i = 3 then {0, 4, 5}
      else if i = 4 then {1, 3, 5} else if i = 5 then {2, 3, 4} else ∅
    edgeIndices := fun _ => 0
    labelToEdge := fun _ => 0 }

/-- The prism with the edge numbers of `numberEdges`. -/
def prism : graph := (numberEdges 64 prismRaw).2

/-- The graph on 63 vertices whose only edges join vertex 0 to the vertices 1, 2 and 3,
before its edges are numbered. -/
def star63Raw : graph :=
  { numberOfVertices := 63
    adjacencyList := fun i =>
      if i = 0 then {1, 2, 3} else if i = 1 ∨ i = 2 ∨ i = 3 then {0} else ∅
    edgeIndices := fun _ => 0
    labelToEdge := fun _ => 0 }

/-- The triangle, before its edges are numbered. -/
def triangleRaw : graph :=
  { numberOfVertices := 3
    adjacencyList := fun i =>
      if i = 0 then {1, 2} else if i = 1 then {0, 2} else if i = 2 then {0, 1} else ∅
    edgeIndices := fun _ => 0
    labelToEdge := fun _ => 0 }

/-! ## Specification-level notions -/

/-- The graph is simple on its `numberOfVertices` vertices: every neighbour of a vertex is a
vertex, no vertex is its own neighbour, and adjacency is symmetric. -/
def isSimple (g : graph) : Prop :=
  ∀ u, u < g.numberOfVertices → ∀ v, v ∈ g.adjacencyList u →
    v < g.numberOfVertices ∧ v ≠ u ∧ u ∈ g.adjacencyList v

instance (g : graph) : Decidable (isSimple g) := by
  unfold isSimple; infer_instance

/-- Every vertex has exactly three neighbours. -/
def isCubic (g : graph) : Prop :=
  ∀ u, u < g.numberOfVertices → (g.adjacencyList u).card = 3

instance (g : graph) : Decidable (isCubic g) := by
  unfold isCubic; infer_instance

/-- The edges of the graph, each as the pair of its endpoints, smaller endpoint first. -/
def edgeSet (g : graph) : Finset (Nat × Nat) :=
  (Finset.range g.numberOfVertices ×ˢ Finset.range g.numberOfVertices).filter
    (fun p => p.1 < p.2 ∧ p.2 ∈ g.adjacencyList p.1)

/-- The number of edges. -/
def numberOfEdges (g : graph) : Nat := (edgeSet g).card

/-- The identifier that the graph stores for an edge. -/
def edgeId (g : graph) (e : Nat × Nat) : Nat := getIndex g e.1 e.2

/-- The set of identifiers of a set of edges. -/
def edgeIds (g : graph) (P : Finset (Nat × Nat)) : bitset := P.image (edgeId g)

/-- The edges whose identifier lies in a given set of identifiers. -/
def edgesOf (g : graph) (X : bitset) : Finset (Nat × Nat) :=
  (edgeSet g).filter (fun e => edgeId g e ∈ X)

/-- The edges of `P` that have `v` as an endpoint. -/
def coveringEdges (P : Finset (Nat × Nat)) (v : Nat) : Finset (Nat × Nat) :=
  P.filter (fun e => e.1 = v ∨ e.2 = v)

/-- A set `P` of edges of the graph is a perfect matching with respect to the vertex set
`S`: no edge of `P` has an endpoint outside `S`, and every vertex of `S` is an endpoint of
exactly one edge of `P`. -/
def isPerfectMatchingOn (g : graph) (S : Finset Nat) (P : Finset (Nat × Nat)) : Prop :=
  P ⊆ edgeSet g ∧ (∀ e ∈ P, e.1 ∈ S ∧ e.2 ∈ S) ∧ ∀ v ∈ S, (coveringEdges P v).card = 1

instance (g : graph) (S : Finset Nat) (P : Finset (Nat × Nat)) :
    Decidable (isPerfectMatchingOn g S P) := by
  unfold isPerfectMatchingOn; infer_instance

/-- All perfect matchings of the graph with respect to `S`. -/
def perfectMatchingsOn (g : graph) (S : Finset Nat) : Finset (Finset (Nat × Nat)) :=
  (edgeSet g).powerset.filter (fun P => isPerfectMatchingOn g S P)

/-- All perfect matchings of the graph. -/
def perfectMatchings (g : graph) : Finset (Finset (Nat × Nat)) :=
  perfectMatchingsOn g (Finset.range g.numberOfVertices)

/-- The edges that lie in exactly one perfect matching of the graph. -/
def lonelyEdgeSet (g : graph) : Finset (Nat × Nat) :=
  (edgeSet g).filter (fun e => ((perfectMatchings g).filter (fun P => e ∈ P)).card = 1)

/-- The vertices other than `v` and its neighbours. -/
def awayFrom (g : graph) (v : Nat) : Finset Nat :=
  (Finset.range g.numberOfVertices).filter (fun u => u ≠ v ∧ u ∉ g.adjacencyList v)

/-- The identifiers of the edges that lie in some perfect matching of the subgraph induced
on the vertices other than `v` and its neighbours: the union of these matchings. -/
def vJoinUnion (g : graph) (v : Nat) : bitset :=
  (perfectMatchingsOn g (awayFrom g v)).biUnion (edgeIds g)

/-- Two edges share no endpoint. -/
def disjointEdges (e f : Nat × Nat) : Prop :=
  e.1 ≠ f.1 ∧ e.1 ≠ f.2 ∧ e.2 ≠ f.1 ∧ e.2 ≠ f.2

/-! ## Auxiliary definitions used by the proofs -/

/-- No vertex is its own neighbour. -/
def noLoops (g : graph) : Prop :=
  ∀ u, u < g.numberOfVertices → u ∉ g.adjacencyList u

instance (g : graph) : Decidable (noLoops g) := by
  unfold noLoops; infer_instance

/-- The accumulators after the completion branch has run once for each edge set of `K`,
in order, below a partial matching `M`. -/
def foldCompletions (g : graph) (M : bitset) (K : List (Finset (Nat × Nat)))
    (st : enumState) : enumState :=
  K.foldl (fun s P => complete (union M (edgeIds g P)) s) st

/-- The accumulators after the completion branch has run once for each set of `Xs`, in
order. -/
def runCompletions (Xs : List bitset) (st : enumState) : enumState :=
  Xs.foldl (fun s X => complete X s) st

/-- The array writes of one round of the inner loop of `numberEdges`, for the vertex `p.1`
and its neighbour `p.2`. -/
def writeEdge (g : graph) (index : Nat) (p : Nat × Nat) : graph :=
  let g1 : graph := { g with
    edgeIndices := Function.update g.edgeIndices (g.numberOfVertices * p.1 + p.2) index }
  let g2 : graph := { g1 with
    edgeIndices := Function.update g1.edgeIndices (g1.numberOfVertices * p.2 + p.1) index }
  if p.1 < p.2 then
    { g2 with
      labelToEdge :=
        Function.update (Function.update g2.labelToEdge (2 * index) p.1)
          (2 * index + 1) p.2 }
  else g2

/-- The two loops of `numberEdges` as one loop over the pairs (vertex, neighbour). -/
def numberEdgesFlat (C : Nat) : List (Nat × Nat) → numState → Except numState numState
  | [], st => Except.ok st
  | p :: rest, (g, index) =>
    if index + 1 > C then Except.error (writeEdge g index p, index + 1)
    else numberEdgesFlat C rest (writeEdge g index p, index + 1)

/-- The graph after the array writes for all pairs of a list, the first with `index`. -/
def writeAll : graph → Nat → List (Nat × Nat) → graph
  | g, _, [] => g
  | g, index, p :: rest => writeAll (writeEdge g index p) (index + 1) rest

/-- The pairs (vertex, larger neighbour) in the order in which `numberEdges` visits them. -/
def edgeSeq (g : graph) : List (Nat × Nat) :=
  (List.range g.numberOfVertices).flatMap
    (fun i => (forEachAfterIndex (g.adjacencyList i) i).map (fun nbr => (i, nbr)))

/-- Lexicographic order on pairs. -/
def lexLt (p q : Nat × Nat) : Prop := p.1 < q.1 ∨ (p.1 = q.1 ∧ p.2 < q.2)

/-- Every neighbour of a vertex is a vertex. -/
def inRange (g : graph) : Prop :=
  ∀ u, u < g.numberOfVertices → ∀ v, v ∈ g.adjacencyList u → v < g.numberOfVertices

/-- The graph that `numberEdges` leaves when it succeeds. -/
def numbered (g : graph) : graph := writeAll g 0 (edgeSeq g)

/-- Adjacency of the blow-up at `v`, whose first two neighbours are `x` and `y`, spelled out
as a relation: the old adjacencies except `v`–`x` and `v`–`y`, the new edges `x`–`n` and
`y`–`n+1`, and the triangle on `v`, `n`, `n+1`. -/
def childAdjacent (g : graph) (v x y u w : Nat) : Prop :=
  (u < g.numberOfVertices ∧ w ∈ g.adjacencyList u ∧ ¬(u = v ∧ w = x) ∧ ¬(u = x ∧ w = v) ∧
    ¬(u = v ∧ w = y) ∧ ¬(u = y ∧ w = v)) ∨
  (u = x ∧ w = g.numberOfVertices) ∨ (u = g.numberOfVertices ∧ w = x) ∨
  (u = y ∧ w = g.numberOfVertices + 1) ∨ (u = g.numberOfVertices + 1 ∧ w = y) ∨
  (u = v ∧ w = g.numberOfVertices) ∨ (u = g.numberOfVertices ∧ w = v) ∨
  (u = v ∧ w = g.numberOfVertices + 1) ∨ (u = g.numberOfVertices + 1 ∧ w = v) ∨
  (u = g.numberOfVertices ∧ w = g.numberOfVertices + 1) ∨
  (u = g.numberOfVertices + 1 ∧ w = g.numberOfVertices)

/-- The fault of a run, if any. -/
def faultOf {α : Type} : Except fault α → Option fault
  | Except.error f => some f
  | Except.ok _ => none

/-- The exit status and the number of items on the standard output of a run. -/
def statusAndLines : Except fault (Int × runState) → Option (Int × Nat)
  | Except.error _ => none
  | Except.ok r => some (r.1, r.2.stdout.length)

/-- The edge between two vertices, smaller endpoint first. -/
def mkEdge (u w : Nat) : Nat × Nat := (min u w, max u w)

/-! # Theorems -/

/-! ## The set universe -/

theorem mem_forEach (s : bitset) (x : Nat) : x ∈ forEach s ↔ x ∈ s := by
  unfold forEach
  simp only [List.mem_filter, List.mem_range, decide_eq_true_eq]
  constructor
  · exact fun h => h.2
  · intro h
    exact ⟨Nat.lt_succ_of_le (Finset.le_sup (f := id) h), h⟩

theorem forEach_sorted (s : bitset) : (forEach s).Pairwise (· < ·) := by
  unfold forEach
  exact List.Pairwise.filter _ (List.pairwise_lt_range _)

theorem forEach_nodup (s : bitset) : (forEach s).Nodup :=
  (forEach_sorted s).imp (fun h => Nat.ne_of_lt h)

theorem mem_forEachAfterIndex (s : bitset) (start x : Nat) :
    x ∈ forEachAfterIndex s start ↔ x ∈ s ∧ start < x := by
  unfold forEachAfterIndex
  simp [List.mem_filter, mem_forEach]

theorem forEachAfterIndex_sorted (s : bitset) (start : Nat) :
    (forEachAfterIndex s start).Pairwise (· < ·) := by
  unfold forEachAfterIndex
  exact List.Pairwise.filter _ (forEach_sorted s)

theorem forEachAfterIndex_nodup (s : bitset) (start : Nat) :
    (forEachAfterIndex s start).Nodup :=
  (forEachAfterIndex_sorted s start).imp (fun h => Nat.ne_of_lt h)

theorem next_none_eq_none (s : bitset) : next s none = none ↔ s = ∅ := by
  unfold next
  simp only [List.head?_eq_none_iff]
  constructor
  · intro h
    ext x
    rw [← mem_forEach, h]
    simp
  · intro h
    subst h
    rfl

theorem next_none_eq_some (s : bitset) (v : Nat) (h : next s none = some v) :
    v ∈ s ∧ ∀ w ∈ s, v ≤ w := by
  unfold next at h
  simp only at h
  have hs := forEach_sorted s
  cases hl : forEach s with
  | nil => rw [hl] at h; simp at h
  | cons a t =>
    rw [hl] at h hs
    simp only [List.head?_cons, Option.some.injEq] at h
    subst h
    have hmem : ∀ x, x ∈ s ↔ x ∈ a :: t := fun x => by rw [← hl, mem_forEach]
    refine ⟨(hmem a).2 (List.mem_cons_self _ _), ?_⟩
    intro w hw
    rcases List.mem_cons.1 ((hmem w).1 hw) with h1 | h1
    · exact Nat.le_of_eq h1.symm
    · exact Nat.le_of_lt (List.rel_of_pairwise_cons hs h1)

/-! ## Perfect matchings: combinatorial facts -/

theorem mem_edgeSet (g : graph) (a b : Nat) :
    (a, b) ∈ edgeSet g ↔
      a < g.numberOfVertices ∧ b < g.numberOfVertices ∧ a < b ∧ b ∈ g.adjacencyList a := by
  unfold edgeSet
  simp only [Finset.mem_filter, Finset.mem_product, Finset.mem_range]
  tauto

theorem mem_coveringEdges (P : Finset (Nat × Nat)) (v : Nat) (e : Nat × Nat) :
    e ∈ coveringEdges P v ↔ e ∈ P ∧ (e.1 = v ∨ e.2 = v) := by
  unfold coveringEdges
  simp

theorem covering_unique {P : Finset (Nat × Nat)} {v : Nat}
    (h : (coveringEdges P v).card = 1) {e f : Nat × Nat}
    (he : e ∈ P) (hev : e.1 = v ∨ e.2 = v) (hf : f ∈ P) (hfv : f.1 = v ∨ f.2 = v) :
    e = f := by
  have h1 : (coveringEdges P v).card ≤ 1 := Nat.le_of_eq h
  exact Finset.card_le_one.1 h1 e ((mem_coveringEdges P v e).2 ⟨he, hev⟩) f
    ((mem_coveringEdges P v f).2 ⟨hf, hfv⟩)

theorem covering_exists {P : Finset (Nat × Nat)} {v : Nat}
    (h : (coveringEdges P v).card = 1) : ∃ e, e ∈ P ∧ (e.1 = v ∨ e.2 = v) := by
  obtain ⟨e, he⟩ := Finset.card_eq_one.1 h
  have : e ∈ coveringEdges P v := by rw [he]; exact Finset.mem_singleton_self e
  exact ⟨e, (mem_coveringEdges P v e).1 this⟩

theorem isPerfectMatchingOn_empty (g : graph) (P : Finset (Nat × Nat)) :
    isPerfectMatchingOn g ∅ P ↔ P = ∅ := by
  constructor
  · intro h
    apply Finset.eq_empty_of_forall_not_mem
    intro e he
    exact absurd (h.2.1 e he).1 (Finset.not_mem_empty _)
  · intro h
    subst h
    refine ⟨Finset.empty_subset _, ?_, ?_⟩
    · intro e he; exact absurd he (Finset.not_mem_empty _)
    · intro v hv; exact absurd hv (Finset.not_mem_empty _)

/-- Adding an edge `(v, w)` to a perfect matching of the rest. -/
theorem isPerfectMatchingOn_insert (g : graph) (R : Finset Nat) (v w : Nat)
    (P : Finset (Nat × Nat)) (he : (v, w) ∈ edgeSet g) (hv : v ∈ R) (hw : w ∈ R)
    (hP : isPerfectMatchingOn g (R \ ({v} ∪ {w})) P) :
    (v, w) ∉ P ∧ isPerfectMatchingOn g R (insert (v, w) P) := by
  obtain ⟨h1, h2, h3⟩ := hP
  have havoid : ∀ e ∈ P, e.1 ≠ v ∧ e.1 ≠ w ∧ e.2 ≠ v ∧ e.2 ≠ w := by
    intro e heP
    have := h2 e heP
    simp only [Finset.mem_sdiff, Finset.mem_union, Finset.mem_singleton, not_or] at this
    tauto
  have hnot : (v, w) ∉ P := fun hin => (havoid _ hin).1 rfl
  refine ⟨hnot, ?_, ?_, ?_⟩
  · intro e heI
    rcases Finset.mem_insert.1 heI with h | h
    · rw [h]; exact he
    · exact h1 h
  · intro e heI
    rcases Finset.mem_insert.1 heI with h | h
    · rw [h]; exact ⟨hv, hw⟩
    · have := h2 e h
      simp only [Finset.mem_sdiff] at this
      exact ⟨this.1.1, this.2.1⟩
  · intro u hu
    by_cases huvw : u = v ∨ u = w
    · have : coveringEdges (insert (v, w) P) u = {(v, w)} := by
        ext e
        rw [mem_coveringEdges, Finset.mem_insert, Finset.mem_singleton]
        constructor
        · rintro ⟨h | h, hc⟩
          · exact h
          · have := havoid e h
            rcases huvw with rfl | rfl <;> rcases hc with hc | hc <;> tauto
        · intro h
          subst h
          refine ⟨Or.inl rfl, ?_⟩
          rcases huvw with rfl | rfl
          · exact Or.inl rfl
          · exact Or.inr rfl
      rw [this]; rfl
    · have hu' : u ∈ R \ ({v} ∪ {w}) := by
        simp only [Finset.mem_sdiff, Finset.mem_union, Finset.mem_singleton]
        exact ⟨hu, huvw⟩
      have : coveringEdges (insert (v, w) P) u = coveringEdges P u := by
        ext e
        rw [mem_coveringEdges, mem_coveringEdges, Finset.mem_insert]
        constructor
        · rintro ⟨h | h, hc⟩
          · subst h
            simp only at hc
            rcases hc with hc | hc
            · exact absurd (Or.inl hc.symm) huvw
            · exact absurd (Or.inr hc.symm) huvw
          · exact ⟨h, hc⟩
        · rintro ⟨h, hc⟩
          exact ⟨Or.inr h, hc⟩
      rw [this]; exact h3 u hu'

/-- Removing an edge `(v, w)` from a perfect matching. -/
theorem isPerfectMatchingOn_erase (g : graph) (R : Finset Nat) (v w : Nat)
    (P : Finset (Nat × Nat)) (hP : isPerfectMatchingOn g R P) (hin : (v, w) ∈ P) :
    isPerfectMatchingOn g (R \ ({v} ∪ {w})) (P.erase (v, w)) := by
  obtain ⟨h1, h2, h3⟩ := hP
  have hvR := (h2 _ hin).1
  have hwR := (h2 _ hin).2
  simp only at hvR hwR
  have havoid : ∀ e ∈ P, e ≠ (v, w) → e.1 ≠ v ∧ e.1 ≠ w ∧ e.2 ≠ v ∧ e.2 ≠ w := by
    intro e heP hne
    refine ⟨?_, ?_, ?_, ?_⟩
    · intro h
      exact hne (covering_unique (h3 v hvR) heP (Or.inl h) hin (Or.inl rfl))
    · intro h
      exact hne (covering_unique (h3 w hwR) heP (Or.inl h) hin (Or.inr rfl))
    · intro h
      exact hne (covering_unique (h3 v hvR) heP (Or.inr h) hin (Or.inl rfl))
    · intro h
      exact hne (covering_unique (h3 w hwR) heP (Or.inr h) hin (Or.inr rfl))
  refine ⟨?_, ?_, ?_⟩
  · intro e he
    exact h1 (Finset.mem_of_mem_erase he)
  · intro e he
    have heP := Finset.mem_of_mem_erase he
    have hne := Finset.ne_of_mem_erase he
    have := havoid e heP hne
    have hR := h2 e heP
    simp only [Finset.mem_sdiff, Finset.mem_union, Finset.mem_singleton, not_or]
    tauto
  · intro u hu
    simp only [Finset.mem_sdiff, Finset.mem_union, Finset.mem_singleton, not_or] at hu
    have : coveringEdges (P.erase (v, w)) u = coveringEdges P u := by
      ext e
      rw [mem_coveringEdges, mem_coveringEdges, Finset.mem_erase]
      constructor
      · rintro ⟨⟨_, h⟩, hc⟩
        exact ⟨h, hc⟩
      · rintro ⟨h, hc⟩
        refine ⟨⟨?_, h⟩, hc⟩
        intro heq
        subst heq
        simp only at hc
        rcases hc with hc | hc
        · exact hu.2.1 hc.symm
        · exact hu.2.2 hc.symm
    rw [this]; exact h3 u hu.1

/-- In a perfect matching the least vertex is matched along one of its own edges. -/
theorem isPerfectMatchingOn_least (g : graph) (R : Finset Nat) (v : Nat)
    (P : Finset (Nat × Nat)) (hP : isPerfectMatchingOn g R P) (hv : v ∈ R)
    (hmin : ∀ w ∈ R, v ≤ w) :
    ∃ w, (v, w) ∈ P ∧ w ∈ R ∧ w ∈ g.adjacencyList v := by
  obtain ⟨h1, h2, h3⟩ := hP
  obtain ⟨e, heP, hc⟩ := covering_exists (h3 v hv)
  obtain ⟨a, b⟩ := e
  have hedge := (mem_edgeSet g a b).1 (h1 heP)
  have hR := h2 _ heP
  simp only at hc hR
  rcases hc with hc | hc
  · subst hc
    exact ⟨b, heP, hR.2, hedge.2.2.2⟩
  · subst hc
    have := hmin a hR.1
    omega

/-! ## The enumeration -/

theorem foldCompletions_append (g : graph) (M : bitset) (K L : List (Finset (Nat × Nat)))
    (st : enumState) :
    foldCompletions g M (K ++ L) st = foldCompletions g M L (foldCompletions g M K st) := by
  unfold foldCompletions
  rw [List.foldl_append]

theorem edgeIds_insert (g : graph) (M : bitset) (v w : Nat) (P : Finset (Nat × Nat)) :
    union (union M (singleton (getIndex g v w))) (edgeIds g P)
      = union M (edgeIds g (insert (v, w) P)) := by
  unfold edgeIds
  rw [Finset.image_insert]
  ext x
  simp only [Finset.mem_union, Finset.mem_singleton, Finset.mem_insert, edgeId]
  tauto

theorem foldCompletions_map_insert (g : graph) (M : bitset) (v w : Nat)
    (K : List (Finset (Nat × Nat))) (st : enumState) :
    foldCompletions g (union M (singleton (getIndex g v w))) K st
      = foldCompletions g M (K.map (fun P => insert (v, w) P)) st := by
  unfold foldCompletions
  rw [List.foldl_map]
  congr 1
  funext s P
  rw [edgeIds_insert]

/-- The loop over the neighbours of the least remaining vertex `v`, given what the recursive
calls do. -/
theorem forNeighbors_spec (g : graph) (v : Nat) (R M : bitset)
    (rec : bitset → bitset → enumState → Option enumState)
    (hv : v ∈ R)
    (ws : List Nat) (hnd : ws.Nodup)
    (hws : ∀ w ∈ ws, (v, w) ∈ edgeSet g ∧ w ∈ R)
    (hrec : ∀ w ∈ ws, ∀ st, ∃ K : List (Finset (Nat × Nat)), K.Nodup ∧
      (∀ P, P ∈ K ↔ isPerfectMatchingOn g (R \ ({v} ∪ {w})) P) ∧
      rec (R \ ({v} ∪ {w})) (union M (singleton (getIndex g v w))) st
        = some (foldCompletions g (union M (singleton (getIndex g v w))) K st)) :
    ∀ st, ∃ K : List (Finset (Nat × Nat)), K.Nodup ∧
      (∀ P, P ∈ K ↔ isPerfectMatchingOn g R P ∧ ∃ w ∈ ws, (v, w) ∈ P) ∧
      forNeighbors rec g v R M ws st = some (foldCompletions g M K st) := by
  induction ws with
  | nil =>
    intro st
    refine ⟨[], List.nodup_nil, ?_, rfl⟩
    intro P
    simp
  | cons w rest ih =>
    intro st
    have hnd' := List.nodup_cons.1 hnd
    obtain ⟨Kw, hKwnd, hKw, hrecw⟩ := hrec w (List.mem_cons_self _ _) st
    obtain ⟨Kr, hKrnd, hKr, hrest⟩ :=
      ih hnd'.2 (fun x hx => hws x (List.mem_cons_of_mem _ hx))
        (fun x hx => hrec x (List.mem_cons_of_mem _ hx))
        (foldCompletions g (union M (singleton (getIndex g v w))) Kw st)
    have hedge := (hws w (List.mem_cons_self _ _)).1
    have hwR := (hws w (List.mem_cons_self _ _)).2
    refine ⟨Kw.map (fun P => insert (v, w) P) ++ Kr, ?_, ?_, ?_⟩
    · rw [List.nodup_append]
      refine ⟨?_, hKrnd, ?_⟩
      · refine List.Nodup.map_on ?_ hKwnd
        intro P hP Q hQ hPQ
        have hP' := (isPerfectMatchingOn_insert g R v w P hedge hv hwR ((hKw P).1 hP)).1
        have hQ' := (isPerfectMatchingOn_insert g R v w Q hedge hv hwR ((hKw Q).1 hQ)).1
        have := congrArg (fun S => Finset.erase S (v, w)) hPQ
        simpa [Finset.erase_insert hP', Finset.erase_insert hQ'] using this
      · intro X hX1 hX2
        obtain ⟨P, hP, rfl⟩ := List.mem_map.1 hX1
        obtain ⟨hPM, w', hw', hin'⟩ := (hKr _).1 hX2
        have hvw : (v, w) ∈ insert (v, w) P := Finset.mem_insert_self _ _
        have heq := covering_unique (hPM.2.2 v hv) hvw (Or.inl rfl) hin' (Or.inl rfl)
        have : w = w' := by simpa using heq
        subst this
        exact hnd'.1 hw'
    · intro P
      rw [List.mem_append, List.mem_map]
      constructor
      · rintro (⟨Q, hQ, rfl⟩ | h)
        · refine ⟨(isPerfectMatchingOn_insert g R v w Q hedge hv hwR ((hKw Q).1 hQ)).2,
            w, List.mem_cons_self _ _, Finset.mem_insert_self _ _⟩
        · obtain ⟨hPM, w', hw', hin'⟩ := (hKr P).1 h
          exact ⟨hPM, w', List.mem_cons_of_mem _ hw', hin'⟩
      · rintro ⟨hPM, w', hw', hin'⟩
        rcases List.mem_cons.1 hw' with h | h
        · subst h
          left
          refine ⟨P.erase (v, w'), (hKw _).2 (isPerfectMatchingOn_erase g R v w' P hPM hin'),
            Finset.insert_erase hin'⟩
        · right
          exact (hKr P).2 ⟨hPM, w', h, hin'⟩
    · simp only [forNeighbors]
      rw [hrecw]
      simp only
      rw [hrest, foldCompletions_append, foldCompletions_map_insert]

/-- What `generatePerfectMatchings` does on a graph without loops: it runs the completion
branch once for each perfect matching with respect to the remaining vertices. -/
theorem generatePerfectMatchings_spec (g : graph) (hl : noLoops g) :
    ∀ (fuel : Nat) (R M : bitset) (st : enumState),
      R ⊆ Finset.range g.numberOfVertices → R.card < fuel →
      ∃ K : List (Finset (Nat × Nat)), K.Nodup ∧
        (∀ P, P ∈ K ↔ isPerfectMatchingOn g R P) ∧
        generatePerfectMatchings fuel g R M st = some (foldCompletions g M K st) := by
  intro fuel
  induction fuel with
  | zero => intro R M st _ h; exact absurd h (Nat.not_lt_zero _)
  | succ fuel ih =>
    intro R M st hsub hcard
    cases hnext : next R none with
    | none =>
      have hRe := (next_none_eq_none R).1 hnext
      subst hRe
      refine ⟨[∅], List.nodup_singleton _, ?_, ?_⟩
      · intro P
        rw [isPerfectMatchingOn_empty, List.mem_singleton]
      · simp only [generatePerfectMatchings, hnext, foldCompletions, List.foldl, edgeIds,
          Finset.image_empty, Finset.union_empty]
    | some v =>
      obtain ⟨hv, hmin⟩ := next_none_eq_some R v hnext
      have hvn : v < g.numberOfVertices := Finset.mem_range.1 (hsub hv)
      have hws : ∀ w ∈ forEach (intersection (g.adjacencyList v) R),
          (v, w) ∈ edgeSet g ∧ w ∈ R := by
        intro w hw
        rw [mem_forEach, Finset.mem_inter] at hw
        have hwn : w < g.numberOfVertices := Finset.mem_range.1 (hsub hw.2)
        have hne : v ≠ w := fun h => hl v hvn (h ▸ hw.1)
        refine ⟨(mem_edgeSet g v w).2 ⟨hvn, hwn, ?_, hw.1⟩, hw.2⟩
        exact lt_of_le_of_ne (hmin w hw.2) hne
      have hrec : ∀ w ∈ forEach (intersection (g.adjacencyList v) R), ∀ st,
          ∃ K : List (Finset (Nat × Nat)), K.Nodup ∧
          (∀ P, P ∈ K ↔ isPerfectMatchingOn g (R \ ({v} ∪ {w})) P) ∧
          generatePerfectMatchings fuel g (R \ ({v} ∪ {w}))
              (union M (singleton (getIndex g v w))) st
            = some (foldCompletions g (union M (singleton (getIndex g v w))) K st) := by
        intro w _ st'
        apply ih
        · exact fun x hx => hsub (Finset.mem_sdiff.1 hx).1
        · have : (R \ ({v} ∪ {w})).card < R.card := by
            apply Finset.card_lt_card
            refine ⟨Finset.sdiff_subset, fun h => ?_⟩
            have := h hv
            simp at this
          omega
      obtain ⟨K, hKnd, hK, hrun⟩ :=
        forNeighbors_spec g v R M (generatePerfectMatchings fuel g) hv
          _ (forEach_nodup _) hws hrec st
      refine ⟨K, hKnd, ?_, ?_⟩
      · intro P
        rw [hK]
        constructor
        · exact fun h => h.1
        · intro hPM
          refine ⟨hPM, ?_⟩
          obtain ⟨w, hin, hwR, hadj⟩ := isPerfectMatchingOn_least g R v P hPM hv hmin
          refine ⟨w, ?_, hin⟩
          rw [mem_forEach, Finset.mem_inter]
          exact ⟨hadj, hwR⟩
      · simp only [generatePerfectMatchings, hnext]
        exact hrun

/-! ## The coverage accumulators -/

theorem runCompletions_cons (X : bitset) (Xs : List bitset) (st : enumState) :
    runCompletions (X :: Xs) st = runCompletions Xs (complete X st) := rfl

theorem foldCompletions_eq_run (g : graph) (M : bitset) (K : List (Finset (Nat × Nat)))
    (st : enumState) :
    foldCompletions g M K st = runCompletions (K.map (fun P => union M (edgeIds g P))) st := by
  unfold foldCompletions runCompletions
  rw [List.foldl_map]

theorem runCompletions_completions (Xs : List bitset) (st : enumState) :
    (runCompletions Xs st).completions = st.completions ++ Xs := by
  induction Xs generalizing st with
  | nil => simp [runCompletions]
  | cons X Xs ih =>
    rw [runCompletions_cons, ih]
    simp [complete]

theorem runCompletions_edgesHit (Xs : List bitset) (st : enumState) (e : Nat) :
    e ∈ (runCompletions Xs st).edgesHit ↔
      e ∈ st.edgesHit ∨ 0 < Xs.countP (fun X => decide (e ∈ X)) := by
  induction Xs generalizing st with
  | nil => simp [runCompletions]
  | cons X Xs ih =>
    rw [runCompletions_cons, ih, List.countP_cons]
    simp only [complete, Finset.mem_union]
    by_cases h : e ∈ X
    · simp [h]
    · simp [h]

theorem runCompletions_edgesHitTwice (Xs : List bitset) (st : enumState) (e : Nat) :
    e ∈ (runCompletions Xs st).edgesHitTwice ↔
      e ∈ st.edgesHitTwice ∨ (e ∈ st.edgesHit ∧ 0 < Xs.countP (fun X => decide (e ∈ X)))
        ∨ 2 ≤ Xs.countP (fun X => decide (e ∈ X)) := by
  induction Xs generalizing st with
  | nil => simp [runCompletions]
  | cons X Xs ih =>
    rw [runCompletions_cons, ih, List.countP_cons]
    simp only [complete, Finset.mem_union, Finset.mem_inter]
    by_cases h : e ∈ X
    · simp only [h, decide_True, if_true]
      constructor
      · rintro ((h1 | h1) | h1 | h1)
        · exact Or.inl h1
        · exact Or.inr (Or.inl ⟨h1.1, by omega⟩)
        · rcases h1 with ⟨_, h2⟩
          exact Or.inr (Or.inr (by omega))
        · exact Or.inr (Or.inr (by omega))
      · rintro (h1 | h1 | h1)
        · exact Or.inl (Or.inl h1)
        · exact Or.inl (Or.inr ⟨h1.1, trivial⟩)
        · exact Or.inr (Or.inl ⟨Or.inr trivial, by omega⟩)
    · simp only [h, decide_False, if_false, Nat.add_zero, and_false, or_false]
      simp

/-- Started on empty accumulators, the difference of the two accumulators holds what lies
in exactly one of the sets. -/
theorem runCompletions_lonely (Xs : List bitset) (e : Nat) :
    e ∈ difference (runCompletions Xs initState).edgesHit
        (runCompletions Xs initState).edgesHitTwice ↔
      Xs.countP (fun X => decide (e ∈ X)) = 1 := by
  rw [Finset.mem_sdiff, runCompletions_edgesHit, runCompletions_edgesHitTwice]
  simp only [initState, Finset.not_mem_empty, false_or, false_and]
  omega

/-! ## Termination of the enumeration -/

theorem forNeighbors_isSome (g : graph) (v : Nat) (R M : bitset)
    (rec : bitset → bitset → enumState → Option enumState)
    (hrec : ∀ w R1 M1 st, R1 = R \ ({v} ∪ {w}) → (rec R1 M1 st).isSome) :
    ∀ (ws : List Nat) (st : enumState), (forNeighbors rec g v R M ws st).isSome := by
  intro ws
  induction ws with
  | nil => intro st; rfl
  | cons w rest ih =>
    intro st
    simp only [forNeighbors]
    have h := hrec w (R \ ({v} ∪ {w})) (union M (singleton (getIndex g v w))) st rfl
    obtain ⟨st1, hst1⟩ := Option.isSome_iff_exists.1 h
    rw [hst1]
    exact ih st1

/-- On every graph, `generatePerfectMatchings` returns when its fuel exceeds the number of
remaining vertices. -/
theorem generatePerfectMatchings_isSome (g : graph) :
    ∀ (fuel : Nat) (R M : bitset) (st : enumState), R.card < fuel →
      (generatePerfectMatchings fuel g R M st).isSome := by
  intro fuel
  induction fuel with
  | zero => intro R M st h; exact absurd h (Nat.not_lt_zero _)
  | succ fuel ih =>
    intro R M st hcard
    cases hnext : next R none with
    | none => simp [generatePerfectMatchings, hnext]
    | some v =>
      obtain ⟨hv, _⟩ := next_none_eq_some R v hnext
      simp only [generatePerfectMatchings, hnext]
      apply forNeighbors_isSome
      intro w R1 M1 st1 hR1
      apply ih
      subst hR1
      have : (R \ ({v} ∪ {w})).card < R.card := by
        apply Finset.card_lt_card
        refine ⟨Finset.sdiff_subset, fun h => ?_⟩
        have := h hv
        simp at this
      omega

/-! ## The edge numbering -/

theorem writeEdge_numberOfVertices (g : graph) (index : Nat) (p : Nat × Nat) :
    (writeEdge g index p).numberOfVertices = g.numberOfVertices := by
  unfold writeEdge
  simp only
  split <;> rfl

theorem writeEdge_adjacencyList (g : graph) (index : Nat) (p : Nat × Nat) :
    (writeEdge g index p).adjacencyList = g.adjacencyList := by
  unfold writeEdge
  simp only
  split <;> rfl

theorem writeAll_numberOfVertices (L : List (Nat × Nat)) :
    ∀ (g : graph) (index : Nat), (writeAll g index L).numberOfVertices = g.numberOfVertices := by
  induction L with
  | nil => intro g index; rfl
  | cons p rest ih =>
    intro g index
    simp only [writeAll]
    rw [ih, writeEdge_numberOfVertices]

theorem writeAll_adjacencyList (L : List (Nat × Nat)) :
    ∀ (g : graph) (index : Nat), (writeAll g index L).adjacencyList = g.adjacencyList := by
  induction L with
  | nil => intro g index; rfl
  | cons p rest ih =>
    intro g index
    simp only [writeAll]
    rw [ih, writeEdge_adjacencyList]

theorem numberEdgesInner_eq_flat (C i : Nat) (nbrs : List Nat) :
    ∀ st : numState, numberEdgesInner C i nbrs st
      = numberEdgesFlat C (nbrs.map (fun nbr => (i, nbr))) st := by
  induction nbrs with
  | nil => intro st; rfl
  | cons nbr rest ih =>
    rintro ⟨g, index⟩
    simp only [numberEdgesInner, List.map_cons, numberEdgesFlat, writeEdge]
    split
    · rfl
    · exact ih _

theorem numberEdgesFlat_ok (C : Nat) (L : List (Nat × Nat)) :
    ∀ (g : graph) (index : Nat), index + L.length ≤ C →
      numberEdgesFlat C L (g, index) = Except.ok (writeAll g index L, index + L.length) := by
  induction L with
  | nil => intro g index _; rfl
  | cons p rest ih =>
    intro g index h
    simp only [List.length_cons] at h
    have h1 : ¬ (index + 1 > C) := by omega
    simp only [numberEdgesFlat, h1, if_false, writeAll]
    rw [ih _ _ (by omega)]
    simp only [List.length_cons]
    congr 2
    omega

theorem numberEdgesFlat_error (C : Nat) (L : List (Nat × Nat)) :
    ∀ (g : graph) (index : Nat), C < index + L.length → L ≠ [] →
      ∃ e, numberEdgesFlat C L (g, index) = Except.error e := by
  induction L with
  | nil => intro g index _ h; exact absurd rfl h
  | cons p rest ih =>
    intro g index h _
    simp only [List.length_cons] at h
    by_cases h1 : index + 1 > C
    · exact ⟨(writeEdge g index p, index + 1), by simp only [numberEdgesFlat, h1, if_true]⟩
    · simp only [numberEdgesFlat, h1, if_false]
      apply ih
      · omega
      · intro hnil
        subst hnil
        simp only [List.length_nil] at h
        omega

theorem numberEdgesFlat_append (C : Nat) (L1 L2 : List (Nat × Nat)) :
    ∀ st : numState, numberEdgesFlat C (L1 ++ L2) st =
      match numberEdgesFlat C L1 st with
      | Except.error e => Except.error e
      | Except.ok st1 => numberEdgesFlat C L2 st1 := by
  induction L1 with
  | nil => intro st; rfl
  | cons p rest ih =>
    rintro ⟨g, index⟩
    simp only [List.cons_append, numberEdgesFlat]
    split
    · rfl
    · exact ih _

theorem numberEdgesFlat_ok_adjacencyList (C : Nat) (L : List (Nat × Nat)) :
    ∀ st st1 : numState, numberEdgesFlat C L st = Except.ok st1 →
      st1.1.adjacencyList = st.1.adjacencyList := by
  induction L with
  | nil =>
    intro st st1 h
    simp only [numberEdgesFlat, Except.ok.injEq] at h
    rw [h]
  | cons p rest ih =>
    rintro ⟨g, index⟩ st1 h
    simp only [numberEdgesFlat] at h
    split at h
    · exact absurd h (by simp)
    · rw [ih _ _ h]
      exact writeEdge_adjacencyList g index p

theorem numberEdgesOuter_eq_flat (C : Nat) (is : List Nat) :
    ∀ st : numState, numberEdgesOuter C is st =
      numberEdgesFlat C
        (is.flatMap (fun i =>
          (forEachAfterIndex (st.1.adjacencyList i) i).map (fun nbr => (i, nbr)))) st := by
  induction is with
  | nil => intro st; rfl
  | cons i rest ih =>
    intro st
    simp only [numberEdgesOuter, List.flatMap_cons]
    rw [numberEdgesFlat_append, numberEdgesInner_eq_flat]
    cases h : numberEdgesFlat C
        ((forEachAfterIndex (st.1.adjacencyList i) i).map (fun nbr => (i, nbr))) st with
    | error e => rfl
    | ok st1 =>
      simp only
      rw [ih st1, numberEdgesFlat_ok_adjacencyList C _ st st1 h]

theorem numberEdges_eq_flat (C : Nat) (g : graph) :
    numberEdges C g =
      match numberEdgesFlat C (edgeSeq g) (g, 0) with
      | Except.error st => (-1, st.1)
      | Except.ok st => (0, st.1) := by
  unfold numberEdges edgeSeq
  rw [numberEdgesOuter_eq_flat]

theorem numberEdges_ok (C : Nat) (g : graph) (h : (edgeSeq g).length ≤ C) :
    numberEdges C g = (0, writeAll g 0 (edgeSeq g)) := by
  rw [numberEdges_eq_flat, numberEdgesFlat_ok C _ g 0 (by omega)]

theorem numberEdges_error (C : Nat) (g : graph) (h : C < (edgeSeq g).length) :
    (numberEdges C g).1 = -1 := by
  rw [numberEdges_eq_flat]
  have hne : edgeSeq g ≠ [] := by
    intro hnil
    rw [hnil] at h
    exact absurd h (Nat.not_lt_zero _)
  obtain ⟨e, he⟩ := numberEdgesFlat_error C (edgeSeq g) g 0 (by omega) hne
  rw [he]

theorem cell_inj (n a b c d : Nat) (hb : b < n) (hd : d < n) (h : n * a + b = n * c + d) :
    a = c ∧ b = d := by
  rcases lt_trichotomy a c with hlt | heq | hgt
  · have := Nat.mul_le_mul_left n (Nat.succ_le_of_lt hlt)
    rw [Nat.mul_succ] at this
    omega
  · subst heq
    exact ⟨rfl, by omega⟩
  · have := Nat.mul_le_mul_left n (Nat.succ_le_of_lt hgt)
    rw [Nat.mul_succ] at this
    omega

theorem writeEdge_edgeIndices (g : graph) (index : Nat) (p : Nat × Nat) :
    (writeEdge g index p).edgeIndices =
      Function.update (Function.update g.edgeIndices (g.numberOfVertices * p.1 + p.2) index)
        (g.numberOfVertices * p.2 + p.1) index := by
  unfold writeEdge
  simp only
  split <;> rfl

theorem writeEdge_labelToEdge (g : graph) (index : Nat) (p : Nat × Nat) (h : p.1 < p.2) :
    (writeEdge g index p).labelToEdge =
      Function.update (Function.update g.labelToEdge (2 * index) p.1) (2 * index + 1) p.2 := by
  unfold writeEdge
  simp only [h, if_true]

theorem writeEdge_labelToEdge_frame (g : graph) (index : Nat) (p : Nat × Nat) (c : Nat)
    (hc : c < 2 * index) : (writeEdge g index p).labelToEdge c = g.labelToEdge c := by
  unfold writeEdge
  simp only
  split
  · simp only
    rw [Function.update_noteq (by omega), Function.update_noteq (by omega)]
  · rfl

theorem writeAll_edgeIndices_frame (L : List (Nat × Nat)) :
    ∀ (g : graph) (index c : Nat),
      (∀ q ∈ L, c ≠ g.numberOfVertices * q.1 + q.2 ∧ c ≠ g.numberOfVertices * q.2 + q.1) →
      (writeAll g index L).edgeIndices c = g.edgeIndices c := by
  induction L with
  | nil => intro g index c _; rfl
  | cons p rest ih =>
    intro g index c h
    simp only [writeAll]
    rw [ih _ _ _ (by
      intro q hq
      rw [writeEdge_numberOfVertices]
      exact h q (List.mem_cons_of_mem _ hq))]
    rw [writeEdge_edgeIndices]
    have hp := h p (List.mem_cons_self _ _)
    rw [Function.update_noteq hp.2, Function.update_noteq hp.1]

theorem writeAll_labelToEdge_frame (L : List (Nat × Nat)) :
    ∀ (g : graph) (index c : Nat), c < 2 * index →
      (writeAll g index L).labelToEdge c = g.labelToEdge c := by
  induction L with
  | nil => intro g index c _; rfl
  | cons p rest ih =>
    intro g index c h
    simp only [writeAll]
    rw [ih _ _ _ (by omega), writeEdge_labelToEdge_frame _ _ _ _ h]

/-- The contents of the two arrays after the numbering loop: the `k`-th visited pair has
identifier `index + k`, in both orders of its endpoints, and `labelToEdge` holds its
endpoints. -/
theorem writeAll_getElem (L : List (Nat × Nat)) :
    ∀ (g : graph) (index : Nat),
      (∀ q ∈ L, q.1 < q.2 ∧ q.2 < g.numberOfVertices) → L.Nodup →
      ∀ (k : Nat) (hk : k < L.length),
        (writeAll g index L).edgeIndices (g.numberOfVertices * L[k].1 + L[k].2) = index + k ∧
        (writeAll g index L).edgeIndices (g.numberOfVertices * L[k].2 + L[k].1) = index + k ∧
        (writeAll g index L).labelToEdge (2 * (index + k)) = L[k].1 ∧
        (writeAll g index L).labelToEdge (2 * (index + k) + 1) = L[k].2 := by
  induction L with
  | nil => intro g index _ _ k hk; exact absurd hk (Nat.not_lt_zero _)
  | cons p rest ih =>
    intro g index hgood hnd k hk
    have hnd' := List.nodup_cons.1 hnd
    have hp := hgood p (List.mem_cons_self _ _)
    cases k with
    | zero =>
      simp only [List.getElem_cons_zero, writeAll, Nat.add_zero]
      have hframe : ∀ q ∈ rest, ∀ c,
          (c = g.numberOfVertices * p.1 + p.2 ∨ c = g.numberOfVertices * p.2 + p.1) →
          c ≠ (writeEdge g index p).numberOfVertices * q.1 + q.2 ∧
          c ≠ (writeEdge g index p).numberOfVertices * q.2 + q.1 := by
        intro q hq c hc
        have hqg := hgood q (List.mem_cons_of_mem _ hq)
        have hne : p ≠ q := fun h => hnd'.1 (h ▸ hq)
        rw [writeEdge_numberOfVertices]
        rcases hc with hc | hc <;> subst hc <;> constructor <;> intro heq
        · have := cell_inj _ _ _ _ _ hp.2 hqg.2 heq
          exact hne (Prod.ext this.1 this.2)
        · have := cell_inj _ _ _ _ _ hp.2 (by omega) heq
          omega
        · have := cell_inj _ _ _ _ _ (by omega) hqg.2 heq
          omega
        · have := cell_inj _ _ _ _ _ (by omega) (by omega) heq
          exact hne (Prod.ext this.2 this.1)
      refine ⟨?_, ?_, ?_, ?_⟩
      · rw [writeAll_edgeIndices_frame rest _ _ _ (fun q hq => hframe q hq _ (Or.inl rfl)),
          writeEdge_edgeIndices]
        simp [Function.update]
      · rw [writeAll_edgeIndices_frame rest _ _ _ (fun q hq => hframe q hq _ (Or.inr rfl)),
          writeEdge_edgeIndices]
        simp [Function.update]
      · rw [writeAll_labelToEdge_frame rest _ _ _ (by omega), writeEdge_labelToEdge _ _ _ hp.1]
        simp [Function.update]
      · rw [writeAll_labelToEdge_frame rest _ _ _ (by omega), writeEdge_labelToEdge _ _ _ hp.1]
        simp [Function.update]
    | succ k =>
      simp only [List.getElem_cons_succ, writeAll]
      have hk' : k < rest.length := by
        simp only [List.length_cons] at hk
        omega
      have := ih (writeEdge g index p) (index + 1)
        (by
          intro q hq
          rw [writeEdge_numberOfVertices]
          exact hgood q (List.mem_cons_of_mem _ hq))
        hnd'.2 k hk'
      rw [writeEdge_numberOfVertices] at this
      have e1 : index + 1 + k = index + (k + 1) := by omega
      rw [e1] at this
      exact this

/-! ### The order of the visits -/

theorem mem_edgeSeq (g : graph) (a b : Nat) :
    (a, b) ∈ edgeSeq g ↔ a < g.numberOfVertices ∧ b ∈ g.adjacencyList a ∧ a < b := by
  unfold edgeSeq
  simp only [List.mem_flatMap, List.mem_range, List.mem_map, mem_forEachAfterIndex,
    Prod.mk.injEq]
  constructor
  · rintro ⟨i, hi, nbr, ⟨h1, h2⟩, rfl, rfl⟩
    exact ⟨hi, h1, h2⟩
  · rintro ⟨h1, h2, h3⟩
    exact ⟨a, h1, b, ⟨h2, h3⟩, rfl, rfl⟩

theorem edgeSeq_sorted (g : graph) : (edgeSeq g).Pairwise lexLt := by
  unfold edgeSeq
  rw [List.pairwise_flatMap]
  constructor
  · intro i _
    rw [List.pairwise_map]
    exact (forEachAfterIndex_sorted _ _).imp (fun h => Or.inr ⟨rfl, h⟩)
  · refine (List.pairwise_lt_range _).imp ?_
    intro i j hij x hx y hy
    obtain ⟨_, _, rfl⟩ := List.mem_map.1 hx
    obtain ⟨_, _, rfl⟩ := List.mem_map.1 hy
    exact Or.inl hij

theorem lexLt_irrefl (p : Nat × Nat) : ¬ lexLt p p := by
  unfold lexLt
  omega

theorem lexLt_asymm (p q : Nat × Nat) (h : lexLt p q) : ¬ lexLt q p := by
  unfold lexLt at *
  omega

theorem edgeSeq_nodup (g : graph) : (edgeSeq g).Nodup := by
  unfold List.Nodup
  refine (edgeSeq_sorted g).imp ?_
  intro p q h heq
  subst heq
  exact lexLt_irrefl p h

theorem isSimple_inRange (g : graph) (h : isSimple g) : inRange g :=
  fun u hu v hv => (h u hu v hv).1

theorem isSimple_noLoops (g : graph) (h : isSimple g) : noLoops g :=
  fun u hu hmem => (h u hu u hmem).2.1 rfl

theorem mem_edgeSeq_iff_edgeSet (g : graph) (h : inRange g) (p : Nat × Nat) :
    p ∈ edgeSeq g ↔ p ∈ edgeSet g := by
  obtain ⟨a, b⟩ := p
  rw [mem_edgeSeq, mem_edgeSet]
  constructor
  · rintro ⟨h1, h2, h3⟩
    exact ⟨h1, h a h1 b h2, h3, h2⟩
  · rintro ⟨h1, _, h3, h4⟩
    exact ⟨h1, h4, h3⟩

theorem edgeSeq_toFinset (g : graph) (h : inRange g) : (edgeSeq g).toFinset = edgeSet g := by
  ext p
  rw [List.mem_toFinset, mem_edgeSeq_iff_edgeSet g h]

theorem edgeSeq_length (g : graph) (h : inRange g) : (edgeSeq g).length = numberOfEdges g := by
  unfold numberOfEdges
  rw [← edgeSeq_toFinset g h, List.toFinset_card_of_nodup (edgeSeq_nodup g)]

theorem edgeSeq_good (g : graph) (h : inRange g) :
    ∀ q ∈ edgeSeq g, q.1 < q.2 ∧ q.2 < g.numberOfVertices := by
  rintro ⟨a, b⟩ hq
  have := (mem_edgeSet g a b).1 ((mem_edgeSeq_iff_edgeSet g h _).1 hq)
  exact ⟨this.2.2.1, this.2.1⟩

/-! ### The numbered graph -/

theorem numbered_numberOfVertices (g : graph) :
    (numbered g).numberOfVertices = g.numberOfVertices :=
  writeAll_numberOfVertices _ _ _

theorem numbered_adjacencyList (g : graph) :
    (numbered g).adjacencyList = g.adjacencyList :=
  writeAll_adjacencyList _ _ _

theorem edgeSet_congr (g h : graph) (hn : h.numberOfVertices = g.numberOfVertices)
    (ha : h.adjacencyList = g.adjacencyList) : edgeSet h = edgeSet g := by
  unfold edgeSet
  rw [hn, ha]

theorem edgeSeq_congr (g h : graph) (hn : h.numberOfVertices = g.numberOfVertices)
    (ha : h.adjacencyList = g.adjacencyList) : edgeSeq h = edgeSeq g := by
  unfold edgeSeq
  rw [hn, ha]

theorem numbered_getElem (g : graph) (hr : inRange g) (k : Nat)
    (hk : k < (edgeSeq g).length) :
    edgeId (numbered g) (edgeSeq g)[k] = k ∧
    getIndex (numbered g) (edgeSeq g)[k].2 (edgeSeq g)[k].1 = k ∧
    (numbered g).labelToEdge (2 * k) = (edgeSeq g)[k].1 ∧
    (numbered g).labelToEdge (2 * k + 1) = (edgeSeq g)[k].2 := by
  have := writeAll_getElem (edgeSeq g) g 0 (edgeSeq_good g hr) (edgeSeq_nodup g) k hk
  simp only [Nat.zero_add] at this
  unfold edgeId getIndex
  rw [numbered_numberOfVertices]
  exact this

theorem edgeSet_getElem (g : graph) (hr : inRange g) (e : Nat × Nat) (he : e ∈ edgeSet g) :
    ∃ (k : Nat) (hk : k < (edgeSeq g).length), (edgeSeq g)[k] = e := by
  have := (mem_edgeSeq_iff_edgeSet g hr e).2 he
  obtain ⟨k, hk, h⟩ := List.getElem_of_mem this
  exact ⟨k, hk, h⟩

theorem numbered_edgeId_lt (g : graph) (hr : inRange g) (e : Nat × Nat) (he : e ∈ edgeSet g) :
    edgeId (numbered g) e < numberOfEdges g := by
  obtain ⟨k, hk, rfl⟩ := edgeSet_getElem g hr e he
  rw [(numbered_getElem g hr k hk).1, ← edgeSeq_length g hr]
  exact hk

theorem numbered_injOn (g : graph) (hr : inRange g) :
    Set.InjOn (edgeId (numbered g)) (edgeSet g : Set (Nat × Nat)) := by
  intro e he f hf heq
  obtain ⟨k, hk, rfl⟩ := edgeSet_getElem g hr e (Finset.mem_coe.1 he)
  obtain ⟨j, hj, rfl⟩ := edgeSet_getElem g hr f (Finset.mem_coe.1 hf)
  rw [(numbered_getElem g hr k hk).1, (numbered_getElem g hr j hj).1] at heq
  subst heq
  rfl

theorem numbered_bijOn (g : graph) (hr : inRange g) :
    Set.BijOn (edgeId (numbered g)) (edgeSet g : Set (Nat × Nat))
      (Finset.range (numberOfEdges g) : Set Nat) := by
  refine ⟨?_, numbered_injOn g hr, ?_⟩
  · intro e he
    exact Finset.mem_coe.2 (Finset.mem_range.2 (numbered_edgeId_lt g hr e (Finset.mem_coe.1 he)))
  · intro k hk
    have hk' : k < (edgeSeq g).length := by
      rw [edgeSeq_length g hr]
      exact Finset.mem_range.1 (Finset.mem_coe.1 hk)
    refine ⟨(edgeSeq g)[k], ?_, (numbered_getElem g hr k hk').1⟩
    exact Finset.mem_coe.2 ((mem_edgeSeq_iff_edgeSet g hr _).1 (List.getElem_mem _))

theorem numbered_mono (g : graph) (hr : inRange g) (e f : Nat × Nat)
    (he : e ∈ edgeSet g) (hf : f ∈ edgeSet g) (hlt : lexLt e f) :
    edgeId (numbered g) e < edgeId (numbered g) f := by
  obtain ⟨k, hk, rfl⟩ := edgeSet_getElem g hr e he
  obtain ⟨j, hj, rfl⟩ := edgeSet_getElem g hr f hf
  rw [(numbered_getElem g hr k hk).1, (numbered_getElem g hr j hj).1]
  rcases lt_trichotomy k j with h | h | h
  · exact h
  · subst h
    exact absurd hlt (lexLt_irrefl _)
  · have := List.pairwise_iff_getElem.1 (edgeSeq_sorted g) j k hj hk h
    exact absurd hlt (lexLt_asymm _ _ this)

theorem numbered_labelToEdge (g : graph) (hr : inRange g) (e : Nat × Nat)
    (he : e ∈ edgeSet g) :
    (numbered g).labelToEdge (2 * edgeId (numbered g) e) = e.1 ∧
    (numbered g).labelToEdge (2 * edgeId (numbered g) e + 1) = e.2 := by
  obtain ⟨k, hk, rfl⟩ := edgeSet_getElem g hr e he
  have := numbered_getElem g hr k hk
  rw [this.1]
  exact ⟨this.2.2.1, this.2.2.2⟩

theorem numbered_symm (g : graph) (hs : isSimple g) (u v : Nat)
    (hu : u < g.numberOfVertices) (hv : v ∈ g.adjacencyList u) :
    getIndex (numbered g) u v = getIndex (numbered g) v u := by
  have hr := isSimple_inRange g hs
  obtain ⟨hvn, hne, hvu⟩ := hs u hu v hv
  rcases lt_trichotomy u v with h | h | h
  · have he : (u, v) ∈ edgeSet g := (mem_edgeSet g u v).2 ⟨hu, hvn, h, hv⟩
    obtain ⟨k, hk, hke⟩ := edgeSet_getElem g hr _ he
    have := numbered_getElem g hr k hk
    rw [hke] at this
    unfold edgeId at this
    simp only at this
    rw [this.1, this.2.1]
  · exact absurd h.symm hne
  · have he : (v, u) ∈ edgeSet g := (mem_edgeSet g v u).2 ⟨hvn, hu, h, hvu⟩
    obtain ⟨k, hk, hke⟩ := edgeSet_getElem g hr _ he
    have := numbered_getElem g hr k hk
    rw [hke] at this
    unfold edgeId at this
    simp only at this
    rw [this.1, this.2.1]

theorem numberEdges_of_le (C : Nat) (g : graph) (hr : inRange g)
    (hm : numberOfEdges g ≤ C) : numberEdges C g = (0, numbered g) := by
  rw [← edgeSeq_length g hr] at hm
  exact numberEdges_ok C g hm

theorem numberEdges_of_gt (C : Nat) (g : graph) (hr : inRange g)
    (hm : C < numberOfEdges g) : (numberEdges C g).1 = -1 := by
  rw [← edgeSeq_length g hr] at hm
  exact numberEdges_error C g hm

theorem numberEdges_fst_eq_zero_iff (C : Nat) (g : graph) (hr : inRange g) :
    (numberEdges C g).1 = 0 ↔ numberOfEdges g ≤ C := by
  constructor
  · intro h
    by_contra hc
    rw [numberEdges_of_gt C g hr (by omega)] at h
    simp at h
  · intro h
    rw [numberEdges_of_le C g hr h]

theorem numberEdges_fst_eq_neg_iff (C : Nat) (g : graph) (hr : inRange g) :
    (numberEdges C g).1 = -1 ↔ C < numberOfEdges g := by
  constructor
  · intro h
    by_contra hc
    rw [numberEdges_of_le C g hr (by omega)] at h
    simp at h
  · exact numberEdges_of_gt C g hr

theorem numberEdges_fst (C : Nat) (g : graph) :
    (numberEdges C g).1 = 0 ∨ (numberEdges C g).1 = -1 := by
  rw [numberEdges_eq_flat]
  cases numberEdgesFlat C (edgeSeq g) (g, 0) with
  | error e => exact Or.inr rfl
  | ok st => exact Or.inl rfl

/-- What an accepted input looks like: the result of `readGraph` is the numbered version
of the decoded graph, which has at most `C` vertices and at most `C` edges. -/
theorem readGraph_some (C : Nat) (getNumberOfVertices : String → Int)
    (loadGraph : String → Nat → Option (Nat → bitset)) (graphString : String) (g : graph)
    (h : readGraph C getNumberOfVertices loadGraph graphString = some g) :
    ∃ g0 : graph, (g0.numberOfVertices : Int) ≤ C ∧
      g0.numberOfVertices = (getNumberOfVertices graphString).toNat ∧
      loadGraph graphString g0.numberOfVertices = some g0.adjacencyList ∧
      (numberEdges C g0).1 = 0 ∧ g = (numberEdges C g0).2 := by
  unfold readGraph at h
  simp only at h
  split at h
  · exact absurd h (by simp)
  · rename_i hn
    split at h
    · exact absurd h (by simp)
    · rename_i adj hadj
      split at h
      · exact absurd h (by simp)
      · rename_i hcode
        simp only [Option.some.injEq] at h
        refine ⟨{ numberOfVertices := (getNumberOfVertices graphString).toNat,
                  adjacencyList := adj, edgeIndices := fun _ => 0,
                  labelToEdge := fun _ => 0 }, ?_, rfl, hadj, ?_, h.symm⟩
        · simp only [not_or, not_lt] at hn
          have := hn.2
          show ((getNumberOfVertices graphString).toNat : Int) ≤ C
          omega
        · rcases numberEdges_fst C _ with h0 | h1
          · exact h0
          · exact absurd h1 hcode

/-! ## Identifier sets of matchings -/

theorem edgeIds_injOn (g : graph) (hinj : Set.InjOn (edgeId g) (edgeSet g : Set (Nat × Nat)))
    (P Q : Finset (Nat × Nat)) (hP : P ⊆ edgeSet g) (hQ : Q ⊆ edgeSet g)
    (h : edgeIds g P = edgeIds g Q) : P = Q := by
  unfold edgeIds at h
  apply Finset.Subset.antisymm
  · intro e he
    have : edgeId g e ∈ Finset.image (edgeId g) Q := h ▸ Finset.mem_image_of_mem _ he
    obtain ⟨f, hf, hfe⟩ := Finset.mem_image.1 this
    have := hinj (Finset.mem_coe.2 (hQ hf)) (Finset.mem_coe.2 (hP he)) hfe
    exact this ▸ hf
  · intro e he
    have : edgeId g e ∈ Finset.image (edgeId g) P := h.symm ▸ Finset.mem_image_of_mem _ he
    obtain ⟨f, hf, hfe⟩ := Finset.mem_image.1 this
    have := hinj (Finset.mem_coe.2 (hP hf)) (Finset.mem_coe.2 (hQ he)) hfe
    exact this ▸ hf

theorem mem_edgeIds_iff (g : graph)
    (hinj : Set.InjOn (edgeId g) (edgeSet g : Set (Nat × Nat)))
    (P : Finset (Nat × Nat)) (hP : P ⊆ edgeSet g) (e : Nat × Nat) (he : e ∈ edgeSet g) :
    edgeId g e ∈ edgeIds g P ↔ e ∈ P := by
  unfold edgeIds
  constructor
  · intro h
    obtain ⟨f, hf, hfe⟩ := Finset.mem_image.1 h
    have := hinj (Finset.mem_coe.2 (hP hf)) (Finset.mem_coe.2 he) hfe
    exact this ▸ hf
  · exact fun h => Finset.mem_image_of_mem _ h

theorem edgesOf_edgeIds (g : graph)
    (hinj : Set.InjOn (edgeId g) (edgeSet g : Set (Nat × Nat)))
    (P : Finset (Nat × Nat)) (hP : P ⊆ edgeSet g) : edgesOf g (edgeIds g P) = P := by
  unfold edgesOf
  ext e
  rw [Finset.mem_filter]
  constructor
  · rintro ⟨he, hid⟩
    exact (mem_edgeIds_iff g hinj P hP e he).1 hid
  · intro h
    exact ⟨hP h, (mem_edgeIds_iff g hinj P hP e (hP h)).2 h⟩

theorem isPerfectMatchingOn_disjoint (g : graph) (S : Finset Nat) (P : Finset (Nat × Nat))
    (hP : isPerfectMatchingOn g S P) (e f : Nat × Nat) (he : e ∈ P) (hf : f ∈ P)
    (hne : e ≠ f) : disjointEdges e f := by
  obtain ⟨_, h2, h3⟩ := hP
  refine ⟨?_, ?_, ?_, ?_⟩
  · intro h
    exact hne (covering_unique (h3 e.1 (h2 e he).1) he (Or.inl rfl) hf (Or.inl h.symm))
  · intro h
    exact hne (covering_unique (h3 e.1 (h2 e he).1) he (Or.inl rfl) hf (Or.inr h.symm))
  · intro h
    exact hne (covering_unique (h3 e.2 (h2 e he).2) he (Or.inr rfl) hf (Or.inl h.symm))
  · intro h
    exact hne (covering_unique (h3 e.2 (h2 e he).2) he (Or.inr rfl) hf (Or.inr h.symm))

theorem mem_perfectMatchingsOn (g : graph) (S : Finset Nat) (P : Finset (Nat × Nat)) :
    P ∈ perfectMatchingsOn g S ↔ isPerfectMatchingOn g S P := by
  unfold perfectMatchingsOn
  rw [Finset.mem_filter, Finset.mem_powerset]
  exact ⟨fun h => h.2, fun h => ⟨h.1, h⟩⟩

/-- The graph that a successful `numberEdges` leaves: same vertices and adjacency, and
distinct edges carry distinct identifiers. -/
theorem numberEdges_success (C : Nat) (g0 g : graph) (hs : isSimple g0)
    (h : numberEdges C g0 = (0, g)) :
    g = numbered g0 ∧ g.numberOfVertices = g0.numberOfVertices ∧
      g.adjacencyList = g0.adjacencyList ∧ edgeSet g = edgeSet g0 ∧ isSimple g ∧
      Set.InjOn (edgeId g) (edgeSet g : Set (Nat × Nat)) := by
  have hr := isSimple_inRange g0 hs
  have hle : numberOfEdges g0 ≤ C :=
    (numberEdges_fst_eq_zero_iff C g0 hr).1 (by rw [h])
  have hg : g = numbered g0 := by
    have := numberEdges_of_le C g0 hr hle
    rw [h] at this
    exact (Prod.mk.inj this).2
  subst hg
  have hn := numbered_numberOfVertices g0
  have ha := numbered_adjacencyList g0
  have he := edgeSet_congr g0 (numbered g0) hn ha
  refine ⟨rfl, hn, ha, he, ?_, ?_⟩
  · unfold isSimple
    rw [hn, ha]
    exact hs
  · rw [he]
    exact numbered_injOn g0 hr

/-- The enumeration on a numbered simple graph, started on empty accumulators and an empty
partial matching: the record of completions lists the identifier sets of the perfect
matchings, each once. -/
theorem enumeration_completions (g : graph) (hl : noLoops g)
    (hinj : Set.InjOn (edgeId g) (edgeSet g : Set (Nat × Nat)))
    (S : bitset) (hS : S ⊆ Finset.range g.numberOfVertices) (fuel : Nat)
    (hfuel : S.card < fuel) :
    ∃ K : List (Finset (Nat × Nat)), K.Nodup ∧
      (∀ P, P ∈ K ↔ isPerfectMatchingOn g S P) ∧
      (K.map (edgeIds g)).Nodup ∧
      generatePerfectMatchings fuel g S EMPTY initState
        = some (runCompletions (K.map (edgeIds g)) initState) := by
  obtain ⟨K, hnd, hK, hrun⟩ := generatePerfectMatchings_spec g hl fuel S EMPTY initState hS hfuel
  refine ⟨K, hnd, hK, ?_, ?_⟩
  · refine List.Nodup.map_on ?_ hnd
    intro P hP Q hQ hPQ
    exact edgeIds_injOn g hinj P Q ((hK P).1 hP).1 ((hK Q).1 hQ).1 hPQ
  · rw [hrun, foldCompletions_eq_run]
    congr 2
    apply List.map_congr_left
    intro P _
    exact Finset.empty_union _

theorem nodup_length_eq_card (g : graph) (S : Finset Nat) (K : List (Finset (Nat × Nat)))
    (hnd : K.Nodup) (hK : ∀ P, P ∈ K ↔ isPerfectMatchingOn g S P) :
    K.toFinset = perfectMatchingsOn g S ∧ K.length = (perfectMatchingsOn g S).card := by
  have h1 : K.toFinset = perfectMatchingsOn g S := by
    ext P
    rw [List.mem_toFinset, hK, mem_perfectMatchingsOn]
  exact ⟨h1, by rw [← h1, List.toFinset_card_of_nodup hnd]⟩

theorem numberEdgesFlat_ok_numberOfVertices (C : Nat) (L : List (Nat × Nat)) :
    ∀ st st1 : numState, numberEdgesFlat C L st = Except.ok st1 →
      st1.1.numberOfVertices = st.1.numberOfVertices := by
  induction L with
  | nil =>
    intro st st1 h
    simp only [numberEdgesFlat, Except.ok.injEq] at h
    rw [h]
  | cons p rest ih =>
    rintro ⟨g, index⟩ st1 h
    simp only [numberEdgesFlat] at h
    split at h
    · exact absurd h (by simp)
    · rw [ih _ _ h]
      exact writeEdge_numberOfVertices g index p

/-- A successful `numberEdges` changes neither the vertex count nor the adjacency. -/
theorem numberEdges_preserves (C : Nat) (g : graph) (h : (numberEdges C g).1 = 0) :
    (numberEdges C g).2.numberOfVertices = g.numberOfVertices ∧
    (numberEdges C g).2.adjacencyList = g.adjacencyList := by
  rw [numberEdges_eq_flat] at h ⊢
  cases hflat : numberEdgesFlat C (edgeSeq g) (g, 0) with
  | error e => rw [hflat] at h; simp at h
  | ok st =>
    exact ⟨numberEdgesFlat_ok_numberOfVertices C _ _ _ hflat,
      numberEdgesFlat_ok_adjacencyList C _ _ _ hflat⟩

/-- An accepted simple graph is the numbered version of a simple graph within capacity. -/
theorem readGraph_accepts (C : Nat) (getNumberOfVertices : String → Int)
    (loadGraph : String → Nat → Option (Nat → bitset)) (graphString : String) (g : graph)
    (h : readGraph C getNumberOfVertices loadGraph graphString = some g) (hs : isSimple g) :
    g.numberOfVertices ≤ C ∧ numberOfEdges g ≤ C ∧
      Set.InjOn (edgeId g) (edgeSet g : Set (Nat × Nat)) := by
  obtain ⟨g0, hn, _, _, hcode, hg⟩ := readGraph_some C _ _ _ g h
  have hpres := numberEdges_preserves C g0 hcode
  rw [← hg] at hpres
  have hs0 : isSimple g0 := by
    unfold isSimple at hs ⊢
    rw [hpres.1, hpres.2] at hs
    exact hs
  have hnum : numberEdges C g0 = (0, g) := Prod.ext hcode hg.symm
  obtain ⟨_, hn', _, he, _, hinj⟩ := numberEdges_success C g0 g hs0 hnum
  refine ⟨?_, ?_, hinj⟩
  · rw [hn']
    exact Int.ofNat_le.1 hn
  · unfold numberOfEdges
    rw [he]
    exact (numberEdges_fst_eq_zero_iff C g0 (isSimple_inRange g0 hs0)).1 hcode

theorem countP_mem_eq_card (g : graph) (S : Finset Nat) (K : List (Finset (Nat × Nat)))
    (hnd : K.Nodup) (hK : ∀ P, P ∈ K ↔ isPerfectMatchingOn g S P) (e : Nat × Nat) :
    K.countP (fun P => decide (e ∈ P))
      = ((perfectMatchingsOn g S).filter (fun P => e ∈ P)).card := by
  have h1 : (K.filter (fun P => decide (e ∈ P))).toFinset
      = (perfectMatchingsOn g S).filter (fun P => e ∈ P) := by
    ext P
    simp only [List.mem_toFinset, List.mem_filter, decide_eq_true_eq, Finset.mem_filter,
      hK, mem_perfectMatchingsOn]
  rw [List.countP_eq_length_filter, ← h1, List.toFinset_card_of_nodup (hnd.filter _)]

/-- An identifier lies in exactly one of the identifier sets of the perfect matchings iff it
is the identifier of an edge that lies in exactly one perfect matching. -/
theorem countP_edgeIds_eq_one_iff (g : graph)
    (hinj : Set.InjOn (edgeId g) (edgeSet g : Set (Nat × Nat)))
    (K : List (Finset (Nat × Nat))) (hnd : K.Nodup)
    (hK : ∀ P, P ∈ K ↔ isPerfectMatchingOn g (Finset.range g.numberOfVertices) P)
    (x : Nat) :
    (K.map (edgeIds g)).countP (fun X => decide (x ∈ X)) = 1 ↔
      x ∈ edgeIds g (lonelyEdgeSet g) := by
  have hcount : ∀ e ∈ edgeSet g, (K.map (edgeIds g)).countP (fun X => decide (edgeId g e ∈ X))
      = ((perfectMatchings g).filter (fun P => e ∈ P)).card := by
    intro e he
    rw [List.countP_map]
    unfold perfectMatchings
    rw [← countP_mem_eq_card g _ K hnd hK e]
    apply List.countP_congr
    intro P hP
    simp only [Function.comp, decide_eq_true_eq]
    exact mem_edgeIds_iff g hinj P ((hK P).1 hP).1 e he
  have hmem : x ∈ edgeIds g (lonelyEdgeSet g) ↔
      ∃ e, (e ∈ edgeSet g ∧ ((perfectMatchings g).filter (fun P => e ∈ P)).card = 1) ∧
        edgeId g e = x := by
    unfold edgeIds lonelyEdgeSet
    simp only [Finset.mem_image, Finset.mem_filter]
  rw [hmem]
  constructor
  · intro h
    have hpos : 0 < (K.map (edgeIds g)).countP (fun X => decide (x ∈ X)) := by omega
    obtain ⟨X, hX, hx⟩ := List.countP_pos_iff.1 hpos
    obtain ⟨P, hP, rfl⟩ := List.mem_map.1 hX
    simp only [decide_eq_true_eq] at hx
    obtain ⟨e, he, rfl⟩ := Finset.mem_image.1 hx
    have heE := ((hK P).1 hP).1 he
    exact ⟨e, ⟨heE, by rw [← hcount e heE]; exact h⟩, rfl⟩
  · rintro ⟨e, he, rfl⟩
    rw [hcount e he.1]
    exact he.2

/-! ## Odd targets -/

theorem forNeighbors_unchanged (g : graph) (v : Nat) (R M : bitset)
    (rec : bitset → bitset → enumState → Option enumState) (ws : List Nat)
    (hrec : ∀ w ∈ ws, ∀ M1 st, rec (R \ ({v} ∪ {w})) M1 st = some st) :
    ∀ st, forNeighbors rec g v R M ws st = some st := by
  induction ws with
  | nil => intro st; rfl
  | cons w rest ih =>
    intro st
    simp only [forNeighbors]
    rw [hrec w (List.mem_cons_self _ _)]
    exact ih (fun x hx => hrec x (List.mem_cons_of_mem _ hx)) st

/-- On a graph without loops, an odd target is never completed: the enumeration returns
its accumulators and its record of completions as it received them. -/
theorem generatePerfectMatchings_odd (g : graph) (hl : noLoops g) :
    ∀ (fuel : Nat) (S M : bitset) (st : enumState),
      S ⊆ Finset.range g.numberOfVertices → S.card < fuel → Odd S.card →
      generatePerfectMatchings fuel g S M st = some st := by
  intro fuel
  induction fuel with
  | zero => intro S M st _ h; exact absurd h (Nat.not_lt_zero _)
  | succ fuel ih =>
    intro S M st hsub hcard hodd
    cases hnext : next S none with
    | none =>
      have hSe := (next_none_eq_none S).1 hnext
      subst hSe
      simp at hodd
    | some v =>
      obtain ⟨hv, _⟩ := next_none_eq_some S v hnext
      simp only [generatePerfectMatchings, hnext]
      apply forNeighbors_unchanged
      intro w hw M1 st1
      rw [mem_forEach, Finset.mem_inter] at hw
      have hvn : v < g.numberOfVertices := Finset.mem_range.1 (hsub hv)
      have hne : v ≠ w := fun h => hl v hvn (h ▸ hw.1)
      have hsubset : ({v} ∪ {w} : Finset Nat) ⊆ S := by
        intro x hx
        rcases Finset.mem_union.1 hx with h | h
        · rw [Finset.mem_singleton.1 h]; exact hv
        · rw [Finset.mem_singleton.1 h]; exact hw.2
      have hc2 : ({v} ∪ {w} : Finset Nat).card = 2 := by
        rw [Finset.card_union_of_disjoint (Finset.disjoint_singleton.2 hne)]
        simp
      have hle := Finset.card_le_card hsubset
      have hcs : (S \ ({v} ∪ {w})).card = S.card - 2 := by
        rw [Finset.card_sdiff hsubset, hc2]
      apply ih
      · exact fun x hx => hsub (Finset.mem_sdiff.1 hx).1
      · omega
      · rw [hcs]
        rw [Nat.odd_iff] at hodd ⊢
        omega

/-! ## Children -/

theorem forEach_toFinset (s : bitset) : (forEach s).toFinset = s := by
  ext x
  rw [List.mem_toFinset, mem_forEach]

theorem forEach_length (s : bitset) : (forEach s).length = s.card := by
  rw [← List.toFinset_card_of_nodup (forEach_nodup s), forEach_toFinset]

/-- The iteration over a set of three elements. -/
theorem forEach_of_card_three (s : bitset) (h : s.card = 3) :
    ∃ x y z, x < y ∧ y < z ∧ forEach s = [x, y, z] ∧ s = {x, y, z} := by
  have hlen := forEach_length s
  rw [h] at hlen
  have hsorted := forEach_sorted s
  have hfin := forEach_toFinset s
  match hl : forEach s, hlen with
  | [x, y, z], _ =>
    rw [hl] at hsorted hfin
    simp only [List.pairwise_cons, List.mem_cons, List.mem_singleton, forall_eq_or_imp,
      forall_eq] at hsorted
    refine ⟨x, y, z, hsorted.1.1, hsorted.2.1.1, rfl, ?_⟩
    rw [← hfin]
    ext a
    simp

/-- The adjacency that `blowUpToTriangle` builds at a vertex whose neighbours are visited
in the order `x`, `y`, `z`. -/
theorem blowUpToTriangle_adjacencyList (g : graph) (v x y z : Nat)
    (hf : forEach (g.adjacencyList v) = [x, y, z])
    (hv : v < g.numberOfVertices) (hx : x < g.numberOfVertices) (hy : y < g.numberOfVertices)
    (hxv : x ≠ v) (hyv : y ≠ v) (hxy : x ≠ y) (u : Nat) :
    (blowUpToTriangle g v).adjacencyList u =
      if u = v then
        (((g.adjacencyList v \ {x}) ∪ {g.numberOfVertices}) \ {y}) ∪ {g.numberOfVertices + 1}
      else if u = x then (g.adjacencyList x \ {v}) ∪ {g.numberOfVertices}
      else if u = y then (g.adjacencyList y \ {v}) ∪ {g.numberOfVertices + 1}
      else if u = g.numberOfVertices then ({v} ∪ {g.numberOfVertices + 1}) ∪ {x}
      else if u = g.numberOfVertices + 1 then ({v} ∪ {g.numberOfVertices}) ∪ {y}
      else if u < g.numberOfVertices then g.adjacencyList u else ∅ := by
  have hvn : v ≠ g.numberOfVertices := by omega
  have hvn1 : v ≠ g.numberOfVertices + 1 := by omega
  have hxn : x ≠ g.numberOfVertices := by omega
  have hxn1 : x ≠ g.numberOfVertices + 1 := by omega
  have hyn : y ≠ g.numberOfVertices := by omega
  have hyn1 : y ≠ g.numberOfVertices + 1 := by omega
  simp only [blowUpToTriangle, hf, List.foldl, blowUpStep, Function.update_apply]
  simp only [Nat.zero_add, Nat.add_zero, OfNat.ofNat_ne_zero, OfNat.zero_ne_ofNat,
    OfNat.one_ne_ofNat, OfNat.ofNat_ne_one, if_false, if_true, ne_eq, not_false_eq_true,
    zero_ne_one, one_ne_zero, Nat.reduceEqDiff, Nat.reduceAdd]
  by_cases h1 : u = v
  · subst h1
    simp [hxv, hyv, hxv.symm, hyv.symm, hv, hvn, hvn1]
  · by_cases h2 : u = x
    · subst h2
      simp [hxv, hxy, hx, hxn, hxn1]
    · by_cases h3 : u = y
      · subst h3
        simp [hyv, hxy, Ne.symm hxy, hy, hyn, hyn1]
      · by_cases h4 : u = g.numberOfVertices
        · subst h4
          simp [hvn, hxn, hyn, Ne.symm hvn, Ne.symm hxn, Ne.symm hyn]
        · by_cases h5 : u = g.numberOfVertices + 1
          · subst h5
            simp [hvn1, hxn1, hyn1, Ne.symm hvn1, Ne.symm hxn1, Ne.symm hyn1]
          · simp [h1, h2, h3, h4, h5]

theorem mem_blowUpToTriangle (g : graph) (v x y z : Nat)
    (hf : forEach (g.adjacencyList v) = [x, y, z])
    (hv : v < g.numberOfVertices) (hx : x < g.numberOfVertices) (hy : y < g.numberOfVertices)
    (hxv : x ≠ v) (hyv : y ≠ v) (hxy : x ≠ y) (u w : Nat) :
    w ∈ (blowUpToTriangle g v).adjacencyList u ↔ childAdjacent g v x y u w := by
  rw [blowUpToTriangle_adjacencyList g v x y z hf hv hx hy hxv hyv hxy]
  unfold childAdjacent
  have hvn : v ≠ g.numberOfVertices := by omega
  have hvn1 : v ≠ g.numberOfVertices + 1 := by omega
  have hxn : x ≠ g.numberOfVertices := by omega
  have hxn1 : x ≠ g.numberOfVertices + 1 := by omega
  have hyn : y ≠ g.numberOfVertices := by omega
  have hyn1 : y ≠ g.numberOfVertices + 1 := by omega
  by_cases h1 : u = v
  · subst h1
    simp only [if_true, Finset.mem_union, Finset.mem_sdiff, Finset.mem_singleton]
    constructor
    · rintro ((⟨⟨hw, hwx⟩ | hw, hwy⟩) | hw)
      · exact Or.inl ⟨hv, hw, fun h => hwx h.2, fun h => hxv h.1.symm, fun h => hwy h.2,
          fun h => hyv h.1.symm⟩
      · exact Or.inr (Or.inr (Or.inr (Or.inr (Or.inr (Or.inl ⟨trivial, hw⟩)))))
      · exact Or.inr (Or.inr (Or.inr (Or.inr (Or.inr (Or.inr (Or.inr (Or.inl ⟨trivial, hw⟩)))))))
    · rintro (c0 | c1 | c2 | c3 | c4 | c5 | c6 | c7 | c8 | c9 | c10)
      · exact Or.inl ⟨Or.inl ⟨c0.2.1, fun h => c0.2.2.1 ⟨trivial, h⟩⟩, fun h => c0.2.2.2.2.1 ⟨trivial, h⟩⟩
      · exact absurd c1.1.symm hxv
      · exact absurd c2.1 hvn
      · exact absurd c3.1.symm hyv
      · exact absurd c4.1 hvn1
      · exact Or.inl ⟨Or.inr c5.2, fun h => hyn (c5.2 ▸ h).symm⟩
      · exact absurd c6.1 hvn
      · exact Or.inr c7.2
      · exact absurd c8.1 hvn1
      · exact absurd c9.1 hvn
      · exact absurd c10.1 hvn1
  · by_cases h2 : u = x
    · subst h2
      simp only [if_neg h1, if_true, Finset.mem_union, Finset.mem_sdiff, Finset.mem_singleton]
      constructor
      · rintro (⟨hw, hwv⟩ | hw)
        · exact Or.inl ⟨hx, hw, fun h => h1 h.1, fun h => hwv h.2, fun h => h1 h.1,
            fun h => hxy h.1⟩
        · exact Or.inr (Or.inl ⟨trivial, hw⟩)
      · rintro (c0 | c1 | c2 | c3 | c4 | c5 | c6 | c7 | c8 | c9 | c10)
        · exact Or.inl ⟨c0.2.1, fun h => c0.2.2.2.1 ⟨trivial, h⟩⟩
        · exact Or.inr c1.2
        · exact absurd c2.1 hxn
        · exact absurd c3.1 hxy
        · exact absurd c4.1 hxn1
        · exact absurd c5.1 hxv
        · exact absurd c6.1 hxn
        · exact absurd c7.1 hxv
        · exact absurd c8.1 hxn1
        · exact absurd c9.1 hxn
        · exact absurd c10.1 hxn1
    · by_cases h3 : u = y
      · subst h3
        simp only [if_neg h1, if_neg h2, if_true, Finset.mem_union, Finset.mem_sdiff,
          Finset.mem_singleton]
        constructor
        · rintro (⟨hw, hwv⟩ | hw)
          · exact Or.inl ⟨hy, hw, fun h => h1 h.1, fun h => h2 h.1, fun h => h1 h.1,
              fun h => hwv h.2⟩
          · exact Or.inr (Or.inr (Or.inr (Or.inl ⟨trivial, hw⟩)))
        · rintro (c0 | c1 | c2 | c3 | c4 | c5 | c6 | c7 | c8 | c9 | c10)
          · exact Or.inl ⟨c0.2.1, fun h => c0.2.2.2.2.2 ⟨trivial, h⟩⟩
          · exact absurd c1.1 h2
          · exact absurd c2.1 hyn
          · exact Or.inr c3.2
          · exact absurd c4.1 hyn1
          · exact absurd c5.1 hyv
          · exact absurd c6.1 hyn
          · exact absurd c7.1 hyv
          · exact absurd c8.1 hyn1
          · exact absurd c9.1 hyn
          · exact absurd c10.1 hyn1
      · by_cases h4 : u = g.numberOfVertices
        · subst h4
          simp only [if_neg h1, if_neg h2, if_neg h3, if_true, Finset.mem_union,
            Finset.mem_singleton]
          constructor
          · rintro ((hw | hw) | hw)
            · exact Or.inr (Or.inr (Or.inr (Or.inr (Or.inr (Or.inr (Or.inl ⟨trivial, hw⟩))))))
            · exact Or.inr (Or.inr (Or.inr (Or.inr (Or.inr (Or.inr (Or.inr (Or.inr
                (Or.inr (Or.inl ⟨trivial, hw⟩)))))))))
            · exact Or.inr (Or.inr (Or.inl ⟨trivial, hw⟩))
          · rintro (c0 | c1 | c2 | c3 | c4 | c5 | c6 | c7 | c8 | c9 | c10)
            · exact absurd c0.1 (Nat.lt_irrefl _)
            · exact absurd c1.1 h2
            · exact Or.inr c2.2
            · exact absurd c3.1 h3
            · omega
            · exact absurd c5.1 h1
            · exact Or.inl (Or.inl c6.2)
            · exact absurd c7.1 h1
            · omega
            · exact Or.inl (Or.inr c9.2)
            · omega
        · by_cases h5 : u = g.numberOfVertices + 1
          · subst h5
            simp only [if_neg h1, if_neg h2, if_neg h3, if_neg h4, if_true, Finset.mem_union,
              Finset.mem_singleton]
            constructor
            · rintro ((hw | hw) | hw)
              · exact Or.inr (Or.inr (Or.inr (Or.inr (Or.inr (Or.inr (Or.inr (Or.inr
                  (Or.inl ⟨trivial, hw⟩))))))))
              · exact Or.inr (Or.inr (Or.inr (Or.inr (Or.inr (Or.inr (Or.inr (Or.inr
                  (Or.inr (Or.inr ⟨trivial, hw⟩)))))))))
              · exact Or.inr (Or.inr (Or.inr (Or.inr (Or.inl ⟨trivial, hw⟩))))
            · rintro (c0 | c1 | c2 | c3 | c4 | c5 | c6 | c7 | c8 | c9 | c10)
              · omega
              · exact absurd c1.1 h2
              · omega
              · exact absurd c3.1 h3
              · exact Or.inr c4.2
              · exact absurd c5.1 h1
              · omega
              · exact absurd c7.1 h1
              · exact Or.inl (Or.inl c8.2)
              · omega
              · exact Or.inl (Or.inr c10.2)
          · simp only [if_neg h1, if_neg h2, if_neg h3, if_neg h4, if_neg h5]
            constructor
            · intro hw
              split at hw
              · rename_i hu
                exact Or.inl ⟨hu, hw, fun h => h1 h.1, fun h => h2 h.1, fun h => h1 h.1,
                  fun h => h3 h.1⟩
              · exact absurd hw (Finset.not_mem_empty _)
            · rintro (c0 | c1 | c2 | c3 | c4 | c5 | c6 | c7 | c8 | c9 | c10)
              · rw [if_pos c0.1]; exact c0.2.1
              all_goals omega

/-- The neighbours of a vertex of degree three in a simple graph, in the order of the
iteration. -/
theorem neighbours_of_cubic_vertex (g : graph) (hs : isSimple g) (v : Nat)
    (hv : v < g.numberOfVertices) (hc : (g.adjacencyList v).card = 3) :
    ∃ x y z, x < y ∧ y < z ∧ forEach (g.adjacencyList v) = [x, y, z] ∧
      g.adjacencyList v = {x, y, z} ∧
      x < g.numberOfVertices ∧ y < g.numberOfVertices ∧ z < g.numberOfVertices ∧
      x ≠ v ∧ y ≠ v ∧ z ≠ v := by
  obtain ⟨x, y, z, hxy, hyz, hf, hset⟩ := forEach_of_card_three _ hc
  have hx : x ∈ g.adjacencyList v := by rw [hset]; simp
  have hy : y ∈ g.adjacencyList v := by rw [hset]; simp
  have hz : z ∈ g.adjacencyList v := by rw [hset]; simp
  exact ⟨x, y, z, hxy, hyz, hf, hset, (hs v hv x hx).1, (hs v hv y hy).1, (hs v hv z hz).1,
    (hs v hv x hx).2.1, (hs v hv y hy).2.1, (hs v hv z hz).2.1⟩

theorem childAdjacent_simple (g : graph) (hs : isSimple g) (v x y : Nat)
    (hv : v < g.numberOfVertices) (hx : x < g.numberOfVertices) (hy : y < g.numberOfVertices)
    (u w : Nat) (h : childAdjacent g v x y u w) :
    w < g.numberOfVertices + 2 ∧ w ≠ u ∧ childAdjacent g v x y w u := by
  unfold childAdjacent at h ⊢
  rcases h with ⟨hu, hw, h1, h2, h3, h4⟩ | c1 | c2 | c3 | c4 | c5 | c6 | c7 | c8 | c9 | c10
  · obtain ⟨hwn, hne, hback⟩ := hs u hu w hw
    refine ⟨by omega, hne, Or.inl ⟨hwn, hback, ?_, ?_, ?_, ?_⟩⟩
    · exact fun h => h2 ⟨h.2, h.1⟩
    · exact fun h => h1 ⟨h.2, h.1⟩
    · exact fun h => h4 ⟨h.2, h.1⟩
    · exact fun h => h3 ⟨h.2, h.1⟩
  · exact ⟨by omega, by omega, Or.inr (Or.inr (Or.inl ⟨c1.2, c1.1⟩))⟩
  · exact ⟨by omega, by omega, Or.inr (Or.inl ⟨c2.2, c2.1⟩)⟩
  · exact ⟨by omega, by omega, Or.inr (Or.inr (Or.inr (Or.inr (Or.inl ⟨c3.2, c3.1⟩))))⟩
  · exact ⟨by omega, by omega, Or.inr (Or.inr (Or.inr (Or.inl ⟨c4.2, c4.1⟩)))⟩
  · exact ⟨by omega, by omega,
      Or.inr (Or.inr (Or.inr (Or.inr (Or.inr (Or.inr (Or.inl ⟨c5.2, c5.1⟩))))))⟩
  · exact ⟨by omega, by omega, Or.inr (Or.inr (Or.inr (Or.inr (Or.inr (Or.inl ⟨c6.2, c6.1⟩)))))⟩
  · exact ⟨by omega, by omega,
      Or.inr (Or.inr (Or.inr (Or.inr (Or.inr (Or.inr (Or.inr (Or.inr (Or.inl ⟨c7.2, c7.1⟩))))))))⟩
  · exact ⟨by omega, by omega,
      Or.inr (Or.inr (Or.inr (Or.inr (Or.inr (Or.inr (Or.inr (Or.inl ⟨c8.2, c8.1⟩)))))))⟩
  · exact ⟨by omega, by omega,
      Or.inr (Or.inr (Or.inr (Or.inr (Or.inr (Or.inr (Or.inr (Or.inr (Or.inr
        (Or.inr ⟨c9.2, c9.1⟩)))))))))⟩
  · exact ⟨by omega, by omega,
      Or.inr (Or.inr (Or.inr (Or.inr (Or.inr (Or.inr (Or.inr (Or.inr (Or.inr
        (Or.inl ⟨c10.2, c10.1⟩)))))))))⟩

/-- The blow-up of a simple graph at a vertex of degree three is simple. -/
theorem blowUpToTriangle_simple (g : graph) (hs : isSimple g) (v : Nat)
    (hv : v < g.numberOfVertices) (hc : (g.adjacencyList v).card = 3) :
    isSimple (blowUpToTriangle g v) := by
  obtain ⟨x, y, z, hxy, _, hf, _, hx, hy, _, hxv, hyv, _⟩ :=
    neighbours_of_cubic_vertex g hs v hv hc
  intro u _ w hw
  rw [mem_blowUpToTriangle g v x y z hf hv hx hy hxv hyv (Nat.ne_of_lt hxy)] at hw ⊢
  have := childAdjacent_simple g hs v x y hv hx hy u w hw
  exact ⟨this.1, this.2.1, this.2.2⟩

/-- Degrees in the blow-up of a simple graph at a vertex of degree three: the vertex
itself and the two new vertices have degree three, and every other vertex keeps its
degree. -/
theorem blowUpToTriangle_degree (g : graph) (hs : isSimple g) (v : Nat)
    (hv : v < g.numberOfVertices) (hc : (g.adjacencyList v).card = 3) (u : Nat)
    (hu : u < g.numberOfVertices + 2) :
    ((blowUpToTriangle g v).adjacencyList u).card =
      if u < g.numberOfVertices then (g.adjacencyList u).card else 3 := by
  obtain ⟨x, y, z, hxy, hyz, hf, hset, hx, hy, hz, hxv, hyv, hzv⟩ :=
    neighbours_of_cubic_vertex g hs v hv hc
  have hxmem : x ∈ g.adjacencyList v := by rw [hset]; simp
  have hymem : y ∈ g.adjacencyList v := by rw [hset]; simp
  have hvx := (hs v hv x hxmem).2.2
  have hvy := (hs v hv y hymem).2.2
  rw [blowUpToTriangle_adjacencyList g v x y z hf hv hx hy hxv hyv (Nat.ne_of_lt hxy)]
  by_cases h1 : u = v
  · subst h1
    rw [if_pos rfl, if_pos hv, hc]
    have : (((g.adjacencyList u \ {x}) ∪ {g.numberOfVertices}) \ {y}) ∪
        {g.numberOfVertices + 1} = {z, g.numberOfVertices, g.numberOfVertices + 1} := by
      rw [hset]
      ext a
      simp only [Finset.mem_union, Finset.mem_sdiff, Finset.mem_insert, Finset.mem_singleton]
      constructor
      · rintro ((⟨⟨h | h | h, h'⟩ | h, h''⟩) | h) <;> omega
      · rintro (h | h | h)
        · exact Or.inl ⟨Or.inl ⟨Or.inr (Or.inr h), by omega⟩, by omega⟩
        · exact Or.inl ⟨Or.inr h, by omega⟩
        · exact Or.inr h
    rw [this]
    exact Finset.card_eq_three.2 ⟨_, _, _, by omega, by omega, by omega, rfl⟩
  · rw [if_neg h1]
    by_cases h2 : u = x
    · subst h2
      rw [if_pos rfl, if_pos hx]
      have hnot : g.numberOfVertices ∉ g.adjacencyList u \ {v} := by
        intro h
        have := (hs u hx _ (Finset.mem_sdiff.1 h).1).1
        omega
      rw [Finset.union_comm, ← Finset.insert_eq, Finset.card_insert_of_not_mem hnot,
        Finset.sdiff_singleton_eq_erase, Finset.card_erase_of_mem hvx]
      have := Finset.card_pos.2 ⟨v, hvx⟩
      omega
    · rw [if_neg h2]
      by_cases h3 : u = y
      · subst h3
        rw [if_pos rfl, if_pos hy]
        have hnot : g.numberOfVertices + 1 ∉ g.adjacencyList u \ {v} := by
          intro h
          have := (hs u hy _ (Finset.mem_sdiff.1 h).1).1
          omega
        rw [Finset.union_comm, ← Finset.insert_eq, Finset.card_insert_of_not_mem hnot,
          Finset.sdiff_singleton_eq_erase, Finset.card_erase_of_mem hvy]
        have := Finset.card_pos.2 ⟨v, hvy⟩
        omega
      · rw [if_neg h3]
        by_cases h4 : u = g.numberOfVertices
        · subst h4
          rw [if_pos rfl, if_neg (Nat.lt_irrefl _)]
          refine Finset.card_eq_three.2 ⟨v, g.numberOfVertices + 1, x, by omega, by omega,
            by omega, ?_⟩
          ext a
          simp only [Finset.mem_union, Finset.mem_insert, Finset.mem_singleton]
          tauto
        · rw [if_neg h4]
          by_cases h5 : u = g.numberOfVertices + 1
          · subst h5
            rw [if_pos rfl, if_neg (by omega)]
            refine Finset.card_eq_three.2 ⟨v, g.numberOfVertices, y, by omega, by omega,
              by omega, ?_⟩
            ext a
            simp only [Finset.mem_union, Finset.mem_insert, Finset.mem_singleton]
            tauto
          · rw [if_neg h5]
            have : u < g.numberOfVertices := by omega
            rw [if_pos this, if_pos this]

/-- Handshake: in a simple graph the degrees add up to twice the number of edges. -/
theorem sum_degrees (g : graph) (hs : isSimple g) :
    ∑ u in Finset.range g.numberOfVertices, (g.adjacencyList u).card
      = 2 * numberOfEdges g := by
  rw [← Finset.card_sigma]
  rw [← Finset.filter_card_add_filter_neg_card_eq_card
    (fun p : (_ : Nat) × Nat => p.1 < p.2)]
  have h1 : (((Finset.range g.numberOfVertices).sigma g.adjacencyList).filter
      (fun p => p.1 < p.2)).card = numberOfEdges g := by
    unfold numberOfEdges
    apply Finset.card_bij (fun p _ => (p.1, p.2))
    · rintro ⟨a, b⟩ h
      simp only [Finset.mem_filter, Finset.mem_sigma, Finset.mem_range] at h
      exact (mem_edgeSet g a b).2 ⟨h.1.1, (hs a h.1.1 b h.1.2).1, h.2, h.1.2⟩
    · rintro ⟨a, b⟩ _ ⟨c, d⟩ _ h
      simp only [Prod.mk.injEq] at h
      obtain ⟨rfl, rfl⟩ := h
      rfl
    · rintro ⟨a, b⟩ h
      have := (mem_edgeSet g a b).1 h
      refine ⟨⟨a, b⟩, ?_, rfl⟩
      simp only [Finset.mem_filter, Finset.mem_sigma, Finset.mem_range]
      exact ⟨⟨this.1, this.2.2.2⟩, this.2.2.1⟩
  have h2 : (((Finset.range g.numberOfVertices).sigma g.adjacencyList).filter
      (fun p => ¬ p.1 < p.2)).card = numberOfEdges g := by
    unfold numberOfEdges
    apply Finset.card_bij (fun p _ => (p.2, p.1))
    · rintro ⟨a, b⟩ h
      simp only [Finset.mem_filter, Finset.mem_sigma, Finset.mem_range] at h
      obtain ⟨hbn, hne, hback⟩ := hs a h.1.1 b h.1.2
      exact (mem_edgeSet g b a).2 ⟨hbn, h.1.1, by omega, hback⟩
    · rintro ⟨a, b⟩ _ ⟨c, d⟩ _ h
      simp only [Prod.mk.injEq] at h
      obtain ⟨rfl, rfl⟩ := h
      rfl
    · rintro ⟨a, b⟩ h
      have := (mem_edgeSet g a b).1 h
      refine ⟨⟨b, a⟩, ?_, rfl⟩
      simp only [Finset.mem_filter, Finset.mem_sigma, Finset.mem_range]
      exact ⟨⟨this.2.1, (hs a this.1 b this.2.2.2).2.2⟩, by omega⟩
  rw [h1, h2]
  omega

theorem blowUpToTriangle_numberOfVertices (g : graph) (v : Nat) :
    (blowUpToTriangle g v).numberOfVertices = g.numberOfVertices + 2 := rfl

/-! ## Positions in a sequence of sets -/

theorem countP_pos_iff_getElem? (p : bitset → Bool) (l : List bitset) :
    0 < l.countP p ↔ ∃ (i : Nat) (X : bitset), l[i]? = some X ∧ p X = true := by
  rw [List.countP_pos_iff]
  constructor
  · rintro ⟨X, hX, hp⟩
    obtain ⟨i, hi, rfl⟩ := List.getElem_of_mem hX
    exact ⟨i, _, List.getElem?_eq_getElem hi, hp⟩
  · rintro ⟨i, X, hi, hp⟩
    exact ⟨X, List.getElem?_mem hi, hp⟩

theorem two_le_countP_iff (p : bitset → Bool) (l : List bitset) :
    2 ≤ l.countP p ↔
      ∃ (i j : Nat) (X Y : bitset), i ≠ j ∧ l[i]? = some X ∧ l[j]? = some Y ∧ p X = true ∧ p Y = true := by
  induction l with
  | nil => simp
  | cons a l ih =>
    rw [List.countP_cons]
    constructor
    · intro h
      by_cases ha : p a = true
      · have hpos : 0 < l.countP p := by
          simp only [ha, if_true] at h
          omega
        obtain ⟨j, Y, hj, hY⟩ := (countP_pos_iff_getElem? p l).1 hpos
        exact ⟨0, j + 1, a, Y, by omega, by simp, by simpa using hj, ha, hY⟩
      · have h2 : 2 ≤ l.countP p := by
          simp only [ha] at h
          simpa using h
        obtain ⟨i, j, X, Y, hij, hi, hj, hX, hY⟩ := ih.1 h2
        exact ⟨i + 1, j + 1, X, Y, by omega, by simpa using hi, by simpa using hj, hX, hY⟩
    · rintro ⟨i, j, X, Y, hij, hi, hj, hX, hY⟩
      cases i with
      | zero =>
        cases j with
        | zero => exact absurd rfl hij
        | succ j =>
          simp only [List.getElem?_cons_zero, Option.some.injEq] at hi
          simp only [List.getElem?_cons_succ] at hj
          subst hi
          have := (countP_pos_iff_getElem? p l).2 ⟨j, Y, hj, hY⟩
          simp only [hX, if_true]
          omega
      | succ i =>
        cases j with
        | zero =>
          simp only [List.getElem?_cons_zero, Option.some.injEq] at hj
          simp only [List.getElem?_cons_succ] at hi
          subst hj
          have := (countP_pos_iff_getElem? p l).2 ⟨i, X, hi, hX⟩
          simp only [hY, if_true]
          omega
        | succ j =>
          simp only [List.getElem?_cons_succ] at hi hj
          have := ih.2 ⟨i, j, X, Y, by omega, hi, hj, hX, hY⟩
          omega

theorem countP_eq_one_iff_unique (p : bitset → Bool) (l : List bitset) :
    l.countP p = 1 ↔ ∃! (i : Nat), ∃ (X : bitset), l[i]? = some X ∧ p X = true := by
  constructor
  · intro h
    obtain ⟨i, X, hi, hX⟩ := (countP_pos_iff_getElem? p l).1 (by omega)
    refine ⟨i, ⟨X, hi, hX⟩, ?_⟩
    rintro j ⟨Y, hj, hY⟩
    by_contra hne
    have := (two_le_countP_iff p l).2 ⟨j, i, Y, X, hne, hj, hi, hY, hX⟩
    omega
  · rintro ⟨i, ⟨X, hi, hX⟩, huniq⟩
    have h1 := (countP_pos_iff_getElem? p l).2 ⟨i, X, hi, hX⟩
    have h2 : ¬ 2 ≤ l.countP p := by
      intro h
      obtain ⟨a, b, A, B, hab, ha, hb, hA, hB⟩ := (two_le_countP_iff p l).1 h
      have e1 := huniq a ⟨A, ha, hA⟩
      have e2 := huniq b ⟨B, hb, hB⟩
      omega
    omega

/-! ## More on the iteration and on the recursion depth -/

/-- The iteration over a set given by its elements in increasing order. -/
theorem forEach_triple (s : bitset) (x y z : Nat) (hxy : x < y) (hyz : y < z)
    (hs : s = {x, y, z}) : forEach s = [x, y, z] := by
  have hcard : s.card = 3 :=
    Finset.card_eq_three.2 ⟨x, y, z, by omega, by omega, by omega, hs⟩
  obtain ⟨a, b, c, hab, hbc, hf, hset⟩ := forEach_of_card_three s hcard
  have hx : x ∈ ({a, b, c} : Finset Nat) := by rw [← hset, hs]; simp
  have hy : y ∈ ({a, b, c} : Finset Nat) := by rw [← hset, hs]; simp
  have hz : z ∈ ({a, b, c} : Finset Nat) := by rw [← hset, hs]; simp
  have ha : a ∈ ({x, y, z} : Finset Nat) := by rw [← hs, hset]; simp
  have hb : b ∈ ({x, y, z} : Finset Nat) := by rw [← hs, hset]; simp
  have hc : c ∈ ({x, y, z} : Finset Nat) := by rw [← hs, hset]; simp
  simp only [Finset.mem_insert, Finset.mem_singleton] at hx hy hz ha hb hc
  have e1 : a = x := by omega
  have e2 : b = y := by omega
  have e3 : c = z := by omega
  rw [hf, e1, e2, e3]

/-- Every recursive call of `generatePerfectMatchings` is made on a strict subset of the
remaining vertices. -/
theorem newRemainingVertices_ssubset (S : bitset) (v w : Nat) (hv : v ∈ S) :
    difference S (union (singleton v) (singleton w)) ⊂ S := by
  refine ⟨Finset.sdiff_subset, fun h => ?_⟩
  have := h hv
  simp at this

/-- On a graph without loops every level of the recursion removes two vertices, so a fuel
above half the number of remaining vertices is enough. -/
theorem generatePerfectMatchings_isSome_half (g : graph) (hl : noLoops g) :
    ∀ (fuel : Nat) (S M : bitset) (st : enumState),
      S ⊆ Finset.range g.numberOfVertices → S.card / 2 < fuel →
      (generatePerfectMatchings fuel g S M st).isSome := by
  intro fuel
  induction fuel with
  | zero => intro S M st _ h; exact absurd h (Nat.not_lt_zero _)
  | succ fuel ih =>
    intro S M st hsub hcard
    cases hnext : next S none with
    | none => simp [generatePerfectMatchings, hnext]
    | some v =>
      obtain ⟨hv, _⟩ := next_none_eq_some S v hnext
      simp only [generatePerfectMatchings, hnext]
      have hvn : v < g.numberOfVertices := Finset.mem_range.1 (hsub hv)
      have key : ∀ (ws : List Nat) (st1 : enumState),
          (∀ w ∈ ws, w ∈ g.adjacencyList v ∧ w ∈ S) →
          (forNeighbors (generatePerfectMatchings fuel g) g v S M ws st1).isSome := by
        intro ws
        induction ws with
        | nil => intro st1 _; rfl
        | cons w rest ihw =>
          intro st1 hws
          simp only [forNeighbors]
          have hw := hws w (List.mem_cons_self _ _)
          have hne : v ≠ w := fun h => hl v hvn (h ▸ hw.1)
          have hsubset : ({v} ∪ {w} : Finset Nat) ⊆ S := by
            intro a ha
            rcases Finset.mem_union.1 ha with h | h
            · rw [Finset.mem_singleton.1 h]; exact hv
            · rw [Finset.mem_singleton.1 h]; exact hw.2
          have hc2 : ({v} ∪ {w} : Finset Nat).card = 2 := by
            rw [Finset.card_union_of_disjoint (Finset.disjoint_singleton.2 hne)]
            simp
          have hle := Finset.card_le_card hsubset
          have hcs : (S \ ({v} ∪ {w})).card = S.card - 2 := by
            rw [Finset.card_sdiff hsubset, hc2]
          have hrec := ih (S \ ({v} ∪ {w})) (union M (singleton (getIndex g v w))) st1
            (fun a ha => hsub (Finset.mem_sdiff.1 ha).1) (by rw [hcs]; omega)
          obtain ⟨st2, hst2⟩ := Option.isSome_iff_exists.1 hrec
          rw [hst2]
          exact ihw st2 (fun a ha => hws a (List.mem_cons_of_mem _ ha))
      apply key
      intro w hw
      rw [mem_forEach, Finset.mem_inter] at hw
      exact hw

/-- The neighbourhoods in the blow-up at a vertex with neighbours `x < y < z`. -/
theorem blowUpToTriangle_neighbours (g : graph) (hs : isSimple g) (v x y z : Nat)
    (hv : v < g.numberOfVertices) (hxy : x < y) (hyz : y < z)
    (hN : g.adjacencyList v = {x, y, z}) :
    (blowUpToTriangle g v).numberOfVertices = g.numberOfVertices + 2 ∧
    (blowUpToTriangle g v).adjacencyList v
      = {z, g.numberOfVertices, g.numberOfVertices + 1} ∧
    (blowUpToTriangle g v).adjacencyList g.numberOfVertices
      = {v, g.numberOfVertices + 1, x} ∧
    (blowUpToTriangle g v).adjacencyList (g.numberOfVertices + 1)
      = {v, g.numberOfVertices, y} ∧
    (blowUpToTriangle g v).adjacencyList x
      = insert g.numberOfVertices ((g.adjacencyList x).erase v) ∧
    (blowUpToTriangle g v).adjacencyList y
      = insert (g.numberOfVertices + 1) ((g.adjacencyList y).erase v) ∧
    (∀ u, u < g.numberOfVertices → u ≠ v → u ≠ x → u ≠ y →
      (blowUpToTriangle g v).adjacencyList u = g.adjacencyList u) := by
  have hf := forEach_triple _ x y z hxy hyz hN
  have hxm : x ∈ g.adjacencyList v := by rw [hN]; simp
  have hym : y ∈ g.adjacencyList v := by rw [hN]; simp
  have hx := (hs v hv x hxm).1
  have hy := (hs v hv y hym).1
  have hxv := (hs v hv x hxm).2.1
  have hyv := (hs v hv y hym).2.1
  have hadj := blowUpToTriangle_adjacencyList g v x y z hf hv hx hy hxv hyv (Nat.ne_of_lt hxy)
  refine ⟨rfl, ?_, ?_, ?_, ?_, ?_, ?_⟩
  · rw [hadj, if_pos rfl, hN]
    ext w
    simp only [Finset.mem_union, Finset.mem_sdiff, Finset.mem_insert, Finset.mem_singleton]
    constructor
    · rintro ((⟨⟨h | h | h, h'⟩ | h, h''⟩) | h) <;> omega
    · rintro (h | h | h)
      · exact Or.inl ⟨Or.inl ⟨Or.inr (Or.inr h), by omega⟩, by omega⟩
      · exact Or.inl ⟨Or.inr h, by omega⟩
      · exact Or.inr h
  · rw [hadj, if_neg (by omega), if_neg (by omega), if_neg (by omega), if_pos rfl]
    ext w
    simp only [Finset.mem_union, Finset.mem_insert, Finset.mem_singleton]
    tauto
  · rw [hadj, if_neg (by omega), if_neg (by omega), if_neg (by omega), if_neg (by omega),
      if_pos rfl]
    ext w
    simp only [Finset.mem_union, Finset.mem_insert, Finset.mem_singleton]
    tauto
  · rw [hadj, if_neg hxv, if_pos rfl]
    ext w
    simp only [Finset.mem_union, Finset.mem_sdiff, Finset.mem_insert, Finset.mem_singleton,
      Finset.mem_erase]
    tauto
  · rw [hadj, if_neg hyv, if_neg (Ne.symm (Nat.ne_of_lt hxy)), if_pos rfl]
    ext w
    simp only [Finset.mem_union, Finset.mem_sdiff, Finset.mem_insert, Finset.mem_singleton,
      Finset.mem_erase]
    tauto
  · intro u hu h1 h2 h3
    rw [hadj, if_neg h1, if_neg h2, if_neg h3, if_neg (by omega), if_neg (by omega),
      if_pos hu]

/-! ## The driver -/

/-- What the loop over the options keeps: flags once set stay set, `output` never drops
below `-1` and is at least `0` after an option `-o`, and a `return 0` needs an option
`-h`. -/
theorem parseOptions_spec (args : List cliOption) :
    ∀ st : parseState,
      match parseOptions args st with
      | Except.error r => (r = 0 ∨ r = 1) ∧ (r = 0 → cliOption.h ∈ args)
      | Except.ok st1 =>
        (st.opts.allChildrenFlag = true ∨ cliOption.a ∈ args →
          st1.opts.allChildrenFlag = true) ∧
        (st.opts.printChildrenWithSameNumber = true ∨ cliOption.d ∈ args →
          st1.opts.printChildrenWithSameNumber = true) ∧
        (0 ≤ st.output ∨ (∃ value, cliOption.o value ∈ args) → 0 ≤ st1.output) := by
  induction args with
  | nil =>
    intro st
    simp [parseOptions]
  | cons opt rest ih =>
    intro st
    simp only [parseOptions]
    cases opt with
    | a =>
      simp only [parseOption]
      have := ih { st with opts := { st.opts with allChildrenFlag := true } }
      split at this
      · rename_i r hr
        rw [hr]
        exact ⟨this.1, fun h => List.mem_cons_of_mem _ (this.2 h)⟩
      · rename_i st1 hst1
        rw [hst1]
        refine ⟨fun _ => this.1 (Or.inl rfl), fun h => this.2.1 ?_, fun h => this.2.2 ?_⟩
        · rcases h with h | h
          · exact Or.inl h
          · simp only [List.mem_cons] at h
            rcases h with h | h
            · exact absurd h (by decide)
            · exact Or.inr h
        · rcases h with h | ⟨value, h⟩
          · exact Or.inl h
          · simp only [List.mem_cons] at h
            rcases h with h | h
            · exact absurd h (by simp)
            · exact Or.inr ⟨value, h⟩
    | d =>
      simp only [parseOption]
      have := ih { st with opts := { st.opts with printChildrenWithSameNumber := true } }
      split at this
      · rename_i r hr
        rw [hr]
        exact ⟨this.1, fun h => List.mem_cons_of_mem _ (this.2 h)⟩
      · rename_i st1 hst1
        rw [hst1]
        refine ⟨fun h => this.1 ?_, fun _ => this.2.1 (Or.inl rfl), fun h => this.2.2 ?_⟩
        · rcases h with h | h
          · exact Or.inl h
          · simp only [List.mem_cons] at h
            rcases h with h | h
            · exact absurd h (by decide)
            · exact Or.inr h
        · rcases h with h | ⟨value, h⟩
          · exact Or.inl h
          · simp only [List.mem_cons] at h
            rcases h with h | h
            · exact absurd h (by simp)
            · exact Or.inr ⟨value, h⟩
    | h =>
      simp [parseOption]
    | m =>
      simp only [parseOption]
      have := ih { st with opts := { st.opts with printMatchingsFlag := true } }
      split at this
      · rename_i r hr
        rw [hr]
        exact ⟨this.1, fun h => List.mem_cons_of_mem _ (this.2 h)⟩
      · rename_i st1 hst1
        rw [hst1]
        refine ⟨fun h => this.1 ?_, fun h => this.2.1 ?_, fun h => this.2.2 ?_⟩
        · rcases h with h | h
          · exact Or.inl h
          · simp only [List.mem_cons] at h
            rcases h with h | h
            · exact absurd h (by decide)
            · exact Or.inr h
        · rcases h with h | h
          · exact Or.inl h
          · simp only [List.mem_cons] at h
            rcases h with h | h
            · exact absurd h (by decide)
            · exact Or.inr h
        · rcases h with h | ⟨value, h⟩
          · exact Or.inl h
          · simp only [List.mem_cons] at h
            rcases h with h | h
            · exact absurd h (by simp)
            · exact Or.inr ⟨value, h⟩
    | o value =>
      simp only [parseOption]
      by_cases hneg : value < 0
      · simp [hneg]
      · simp only [hneg, if_false]
        have := ih { st with output := value }
        split at this
        · rename_i r hr
          exact ⟨this.1, fun h => List.mem_cons_of_mem _ (this.2 h)⟩
        · rename_i st1 hst1
          refine ⟨fun h => this.1 ?_, fun h => this.2.1 ?_, fun _ => this.2.2 (Or.inl ?_)⟩
          · rcases h with h | h
            · exact Or.inl h
            · simp only [List.mem_cons] at h
              rcases h with h | h
              · exact absurd h (by simp)
              · exact Or.inr h
          · rcases h with h | h
            · exact Or.inl h
            · simp only [List.mem_cons] at h
              rcases h with h | h
              · exact absurd h (by simp)
              · exact Or.inr h
          · show 0 ≤ value
            omega
    | v =>
      simp only [parseOption]
      have := ih { st with opts := { st.opts with verboseFlag := true } }
      split at this
      · rename_i r hr
        rw [hr]
        exact ⟨this.1, fun h => List.mem_cons_of_mem _ (this.2 h)⟩
      · rename_i st1 hst1
        rw [hst1]
        refine ⟨fun h => this.1 ?_, fun h => this.2.1 ?_, fun h => this.2.2 ?_⟩
        · rcases h with h | h
          · exact Or.inl h
          · simp only [List.mem_cons] at h
            rcases h with h | h
            · exact absurd h (by decide)
            · exact Or.inr h
        · rcases h with h | h
          · exact Or.inl h
          · simp only [List.mem_cons] at h
            rcases h with h | h
            · exact absurd h (by decide)
            · exact Or.inr h
        · rcases h with h | ⟨value, h⟩
          · exact Or.inl h
          · simp only [List.mem_cons] at h
            rcases h with h | h
            · exact absurd h (by simp)
            · exact Or.inr ⟨value, h⟩
    | unknown =>
      simp [parseOption]

/-- The checks after the options reject every state in which two modes are set. -/
theorem checkOptions_conflict (st : parseState)
    (h : (0 ≤ st.output ∧ st.opts.allChildrenFlag = true) ∨
      (0 ≤ st.output ∧ st.opts.printChildrenWithSameNumber = true) ∨
      (st.opts.allChildrenFlag = true ∧ st.opts.printChildrenWithSameNumber = true)) :
    checkOptions st = some 1 := by
  unfold checkOptions
  have hout : 0 ≤ st.output → (st.output != -1) = true := by
    intro h0
    simp only [bne_iff_ne, ne_eq]
    omega
  split_ifs with h1 h2 h3 h4
  · rfl
  · rfl
  · rfl
  · rfl
  · exfalso
    simp only [Bool.and_eq_true, not_and, Bool.not_eq_true] at h2 h3 h4
    rcases h with ⟨ha, hb⟩ | ⟨ha, hb⟩ | ⟨ha, hb⟩
    · have := h3 (hout ha)
      rw [hb] at this
      exact absurd this (by decide)
    · have := h2 (hout ha)
      rw [hb] at this
      exact absurd this (by decide)
    · have := h4 hb
      rw [ha] at this
      exact absurd this (by decide)

theorem takeWhile_four (p : Nat → Bool) (a b c d : Nat) (l m : List Nat)
    (ha : p a = true) (hb : p b = true) (hc : p c = true) (hd : p d = true) :
    List.takeWhile p ([a, b, c, d] ++ l ++ m)
      = a :: b :: c :: d :: List.takeWhile p (l ++ m) := by
  simp [List.takeWhile_cons, ha, hb, hc, hd]

/-! ## Counting perfect matchings -/

theorem mkEdge_mem_edgeSet (h : graph) (hs : isSimple h) (u w : Nat)
    (hu : u < h.numberOfVertices) (hw : w ∈ h.adjacencyList u) :
    mkEdge u w ∈ edgeSet h := by
  obtain ⟨hwn, hne, hback⟩ := hs u hu w hw
  unfold mkEdge
  rcases Nat.lt_or_gt_of_ne hne with hlt | hgt
  · rw [min_eq_right (Nat.le_of_lt hlt), max_eq_left (Nat.le_of_lt hlt)]
    exact (mem_edgeSet h w u).2 ⟨hwn, hu, hlt, hback⟩
  · rw [min_eq_left (Nat.le_of_lt hgt), max_eq_right (Nat.le_of_lt hgt)]
    exact (mem_edgeSet h u w).2 ⟨hu, hwn, hgt, hw⟩

theorem sdiff_mkEdge (S : Finset Nat) (u w : Nat) :
    S \ ({(mkEdge u w).1} ∪ {(mkEdge u w).2}) = S \ ({u} ∪ {w}) := by
  unfold mkEdge
  ext a
  simp only [Finset.mem_sdiff, Finset.mem_union, Finset.mem_singleton]
  rcases Nat.le_total u w with hle | hle
  · rw [min_eq_left hle, max_eq_right hle]
  · rw [min_eq_right hle, max_eq_left hle]
    tauto

/-- The perfect matchings through a given edge correspond to the perfect matchings of the
rest. -/
theorem card_matchings_through (h : graph) (S : Finset Nat) (e : Nat × Nat)
    (he : e ∈ edgeSet h) (h1 : e.1 ∈ S) (h2 : e.2 ∈ S) :
    ((perfectMatchingsOn h S).filter (fun P => e ∈ P)).card
      = (perfectMatchingsOn h (S \ ({e.1} ∪ {e.2}))).card := by
  apply Finset.card_bij (fun P _ => P.erase e)
  · intro P hP
    rw [Finset.mem_filter, mem_perfectMatchingsOn] at hP
    rw [mem_perfectMatchingsOn]
    exact isPerfectMatchingOn_erase h S e.1 e.2 P hP.1 hP.2
  · intro P hP Q hQ hPQ
    rw [Finset.mem_filter] at hP hQ
    rw [← Finset.insert_erase hP.2, ← Finset.insert_erase hQ.2, hPQ]
  · intro Q hQ
    rw [mem_perfectMatchingsOn] at hQ
    obtain ⟨hnot, hins⟩ := isPerfectMatchingOn_insert h S e.1 e.2 Q he h1 h2 hQ
    refine ⟨insert e Q, ?_, Finset.erase_insert hnot⟩
    rw [Finset.mem_filter, mem_perfectMatchingsOn]
    exact ⟨hins, Finset.mem_insert_self _ _⟩

/-- In a perfect matching every vertex of the target has exactly one partner. -/
theorem partner_unique (h : graph) (hs : isSimple h) (S : Finset Nat) (u : Nat) (hu : u ∈ S)
    (hS : S ⊆ Finset.range h.numberOfVertices) (P : Finset (Nat × Nat))
    (hP : isPerfectMatchingOn h S P) :
    (((h.adjacencyList u) ∩ S).filter (fun w => mkEdge u w ∈ P)).card = 1 := by
  have hun : u < h.numberOfVertices := Finset.mem_range.1 (hS hu)
  obtain ⟨e, heP, hc⟩ := covering_exists (hP.2.2 u hu)
  obtain ⟨a, b⟩ := e
  have hedge := (mem_edgeSet h a b).1 (hP.1 heP)
  have hends := hP.2.1 _ heP
  simp only at hc hends
  rw [Finset.card_eq_one]
  rcases hc with hc | hc
  · subst hc
    refine ⟨b, ?_⟩
    ext w
    simp only [Finset.mem_filter, Finset.mem_inter, Finset.mem_singleton]
    constructor
    · rintro ⟨⟨hw, _⟩, hin⟩
      have := covering_unique (hP.2.2 a hu) hin
        (by unfold mkEdge; simp only; rcases Nat.le_total a w with h1 | h1
            · left; exact min_eq_left h1
            · right; exact max_eq_left h1) heP (Or.inl rfl)
      unfold mkEdge at this
      have h3 := (Prod.mk.inj this)
      have hne := (hs a hun w hw).2.1
      rcases Nat.le_total a w with h1 | h1
      · rw [min_eq_left h1, max_eq_right h1] at h3
        exact h3.2
      · rw [min_eq_right h1, max_eq_left h1] at h3
        omega
    · intro hw
      subst hw
      refine ⟨⟨hedge.2.2.2, hends.2⟩, ?_⟩
      unfold mkEdge
      rw [min_eq_left (Nat.le_of_lt hedge.2.2.1), max_eq_right (Nat.le_of_lt hedge.2.2.1)]
      exact heP
  · subst hc
    refine ⟨a, ?_⟩
    ext w
    simp only [Finset.mem_filter, Finset.mem_inter, Finset.mem_singleton]
    constructor
    · rintro ⟨⟨hw, _⟩, hin⟩
      have := covering_unique (hP.2.2 b hu) hin
        (by unfold mkEdge; simp only; rcases Nat.le_total b w with h1 | h1
            · left; exact min_eq_left h1
            · right; exact max_eq_left h1) heP (Or.inr rfl)
      unfold mkEdge at this
      have h3 := (Prod.mk.inj this)
      rcases Nat.le_total b w with h1 | h1
      · rw [min_eq_left h1, max_eq_right h1] at h3
        omega
      · rw [min_eq_right h1, max_eq_left h1] at h3
        exact h3.1
    · intro hw
      subst hw
      refine ⟨⟨(hs w hedge.1 b hedge.2.2.2).2.2, hends.1⟩, ?_⟩
      unfold mkEdge
      rw [min_eq_right (Nat.le_of_lt hedge.2.2.1), max_eq_left (Nat.le_of_lt hedge.2.2.1)]
      exact heP

/-- Expansion at a vertex: the perfect matchings split according to the partner of a chosen
vertex of the target. -/
theorem card_matchings_expand (h : graph) (hs : isSimple h) (S : Finset Nat) (u : Nat)
    (hu : u ∈ S) (hS : S ⊆ Finset.range h.numberOfVertices) :
    (perfectMatchingsOn h S).card
      = ∑ w in (h.adjacencyList u) ∩ S, (perfectMatchingsOn h (S \ ({u} ∪ {w}))).card := by
  have hun : u < h.numberOfVertices := Finset.mem_range.1 (hS hu)
  have step : ∀ w ∈ (h.adjacencyList u) ∩ S,
      (perfectMatchingsOn h (S \ ({u} ∪ {w}))).card
        = ∑ P in perfectMatchingsOn h S, (if mkEdge u w ∈ P then 1 else 0) := by
    intro w hw
    rw [Finset.mem_inter] at hw
    have he := mkEdge_mem_edgeSet h hs u w hun hw.1
    have h1 : (mkEdge u w).1 ∈ S := by
      unfold mkEdge
      simp only
      rcases Nat.le_total u w with h1 | h1
      · rw [min_eq_left h1]; exact hu
      · rw [min_eq_right h1]; exact hw.2
    have h2 : (mkEdge u w).2 ∈ S := by
      unfold mkEdge
      simp only
      rcases Nat.le_total u w with h1 | h1
      · rw [max_eq_right h1]; exact hw.2
      · rw [max_eq_left h1]; exact hu
    rw [← sdiff_mkEdge S u w, ← card_matchings_through h S _ he h1 h2, Finset.card_filter]
  rw [Finset.sum_congr rfl step, Finset.sum_comm, Finset.card_eq_sum_ones]
  apply Finset.sum_congr rfl
  intro P hP
  rw [← Finset.card_filter]
  exact (partner_unique h hs S u hu hS P ((mem_perfectMatchingsOn h S P).1 hP)).symm

/-- The perfect matchings with respect to a target depend only on the adjacency inside the
target. -/
theorem card_matchings_congr (h1 h2 : graph) (S1 S2 : Finset Nat)
    (hS : ∀ a, a ∈ S1 ↔ a ∈ S2)
    (hin1 : S1 ⊆ Finset.range h1.numberOfVertices)
    (hin2 : S2 ⊆ Finset.range h2.numberOfVertices)
    (hadj : ∀ a ∈ S1, ∀ b ∈ S1, b ∈ h1.adjacencyList a ↔ b ∈ h2.adjacencyList a) :
    (perfectMatchingsOn h1 S1).card = (perfectMatchingsOn h2 S2).card := by
  have hSeq : S1 = S2 := Finset.ext hS
  subst hSeq
  congr 1
  ext P
  rw [mem_perfectMatchingsOn, mem_perfectMatchingsOn]
  unfold isPerfectMatchingOn
  constructor
  · rintro ⟨hsub, hends, hcov⟩
    refine ⟨?_, hends, hcov⟩
    intro e he
    obtain ⟨a, b⟩ := e
    have hm := (mem_edgeSet h1 a b).1 (hsub he)
    have hab := hends _ he
    exact (mem_edgeSet h2 a b).2 ⟨Finset.mem_range.1 (hin2 hab.1),
      Finset.mem_range.1 (hin2 hab.2), hm.2.2.1, (hadj a hab.1 b hab.2).1 hm.2.2.2⟩
  · rintro ⟨hsub, hends, hcov⟩
    refine ⟨?_, hends, hcov⟩
    intro e he
    obtain ⟨a, b⟩ := e
    have hm := (mem_edgeSet h2 a b).1 (hsub he)
    have hab := hends _ he
    exact (mem_edgeSet h1 a b).2 ⟨Finset.mem_range.1 (hin1 hab.1),
      Finset.mem_range.1 (hin1 hab.2), hm.2.2.1, (hadj a hab.1 b hab.2).2 hm.2.2.2⟩

theorem sum_three (f : Nat → Nat) (p q r : Nat) (hpq : p ≠ q) (hpr : p ≠ r) (hqr : q ≠ r) :
    ∑ w in ({p, q, r} : Finset Nat), f w = f p + f q + f r := by
  rw [Finset.sum_insert (by simp [hpq, hpr]), Finset.sum_insert (by simp [hqr]),
    Finset.sum_singleton]
  omega

/-- Away from the blown-up vertex the old vertices keep their adjacencies among each
other. -/
theorem blowUpToTriangle_agree (g : graph) (hs : isSimple g) (v : Nat)
    (hv : v < g.numberOfVertices) (hc : (g.adjacencyList v).card = 3) (a b : Nat)
    (ha : a < g.numberOfVertices) (hb : b < g.numberOfVertices) (hav : a ≠ v) (hbv : b ≠ v) :
    b ∈ (blowUpToTriangle g v).adjacencyList a ↔ b ∈ g.adjacencyList a := by
  obtain ⟨x, y, z, hxy, _, hf, _, hx, hy, _, hxv, hyv, _⟩ :=
    neighbours_of_cubic_vertex g hs v hv hc
  rw [mem_blowUpToTriangle g v x y z hf hv hx hy hxv hyv (Nat.ne_of_lt hxy)]
  unfold childAdjacent
  constructor
  · rintro (c0 | c1 | c2 | c3 | c4 | c5 | c6 | c7 | c8 | c9 | c10)
    · exact c0.2.1
    all_goals omega
  · intro h
    exact Or.inl ⟨ha, h, fun k => hav k.1, fun k => hbv k.2, fun k => hav k.1,
      fun k => hbv k.2⟩

/-- The perfect matchings of the blow-up at a vertex of degree three correspond to the
perfect matchings of the parent together with its `v`-joins. -/
theorem card_matchings_blowUp (g : graph) (hs : isSimple g) (v : Nat)
    (hv : v < g.numberOfVertices) (hc : (g.adjacencyList v).card = 3) :
    (perfectMatchingsOn (blowUpToTriangle g v)
        (Finset.range (g.numberOfVertices + 2))).card
      = (perfectMatchingsOn g (Finset.range g.numberOfVertices)).card
        + (perfectMatchingsOn g
            ((Finset.range g.numberOfVertices \ {v}) \ g.adjacencyList v)).card := by
  obtain ⟨x, y, z, hxy, hyz, hf, hset, hx, hy, hz, hxv, hyv, hzv⟩ :=
    neighbours_of_cubic_vertex g hs v hv hc
  have hsc := blowUpToTriangle_simple g hs v hv hc
  obtain ⟨hcn, hcv, hca, hcb, _, _, _⟩ :=
    blowUpToTriangle_neighbours g hs v x y z hv hxy hyz hset
  have hagree := blowUpToTriangle_agree g hs v hv hc
  -- the terms of the parent
  have parent := card_matchings_expand g hs (Finset.range g.numberOfVertices) v
    (Finset.mem_range.2 hv) (Finset.Subset.refl _)
  have hpi : g.adjacencyList v ∩ Finset.range g.numberOfVertices = {x, y, z} := by
    rw [hset]
    ext a
    simp only [Finset.mem_inter, Finset.mem_insert, Finset.mem_singleton, Finset.mem_range]
    omega
  rw [hpi, sum_three _ x y z (by omega) (by omega) (by omega)] at parent
  -- a term of the child equals a term of the parent
  have toParent : ∀ (S : Finset Nat) (T : Finset Nat), (∀ a, a ∈ S ↔ a ∈ T) →
      (∀ a ∈ T, a < g.numberOfVertices ∧ a ≠ v) →
      (perfectMatchingsOn (blowUpToTriangle g v) S).card = (perfectMatchingsOn g T).card := by
    intro S T hST hT
    apply card_matchings_congr _ _ S T hST
    · intro a ha
      rw [hcn, Finset.mem_range]
      have := (hT a ((hST a).1 ha)).1
      omega
    · intro a ha
      exact Finset.mem_range.2 (hT a ha).1
    · intro a ha b hb
      have h1 := hT a ((hST a).1 ha)
      have h2 := hT b ((hST b).1 hb)
      exact hagree a b h1.1 h2.1 h1.2 h2.2
  -- expansion of the child at the new vertex `n`
  have child := card_matchings_expand (blowUpToTriangle g v) hsc
    (Finset.range (g.numberOfVertices + 2)) g.numberOfVertices
    (Finset.mem_range.2 (by omega)) (by rw [hcn])
  have hci : (blowUpToTriangle g v).adjacencyList g.numberOfVertices
      ∩ Finset.range (g.numberOfVertices + 2) = {v, g.numberOfVertices + 1, x} := by
    rw [hca]
    ext a
    simp only [Finset.mem_inter, Finset.mem_insert, Finset.mem_singleton, Finset.mem_range]
    omega
  rw [hci, sum_three _ v (g.numberOfVertices + 1) x (by omega) (by omega) (by omega)] at child
  -- first term: `n` matched with `v`, then `n + 1` with `y`
  have t1 := card_matchings_expand (blowUpToTriangle g v) hsc
    (Finset.range (g.numberOfVertices + 2) \ ({g.numberOfVertices} ∪ {v}))
    (g.numberOfVertices + 1)
    (by simp only [Finset.mem_sdiff, Finset.mem_range, Finset.mem_union,
          Finset.mem_singleton]; omega)
    (by rw [hcn]; exact Finset.sdiff_subset)
  have ht1 : (blowUpToTriangle g v).adjacencyList (g.numberOfVertices + 1)
      ∩ (Finset.range (g.numberOfVertices + 2) \ ({g.numberOfVertices} ∪ {v})) = {y} := by
    rw [hcb]
    ext a
    simp only [Finset.mem_inter, Finset.mem_insert, Finset.mem_singleton, Finset.mem_range,
      Finset.mem_sdiff, Finset.mem_union]
    omega
  rw [ht1, Finset.sum_singleton] at t1
  have t1' := toParent
    ((Finset.range (g.numberOfVertices + 2) \ ({g.numberOfVertices} ∪ {v}))
      \ ({g.numberOfVertices + 1} ∪ {y}))
    (Finset.range g.numberOfVertices \ ({v} ∪ {y}))
    (by intro a
        simp only [Finset.mem_sdiff, Finset.mem_range, Finset.mem_union,
          Finset.mem_singleton]
        omega)
    (by intro a ha
        simp only [Finset.mem_sdiff, Finset.mem_range, Finset.mem_union,
          Finset.mem_singleton] at ha
        omega)
  -- second term: `n` matched with `n + 1`, then `v` with `z`
  have t2 := card_matchings_expand (blowUpToTriangle g v) hsc
    (Finset.range (g.numberOfVertices + 2) \ ({g.numberOfVertices} ∪ {g.numberOfVertices + 1}))
    v
    (by simp only [Finset.mem_sdiff, Finset.mem_range, Finset.mem_union,
          Finset.mem_singleton]; omega)
    (by rw [hcn]; exact Finset.sdiff_subset)
  have ht2 : (blowUpToTriangle g v).adjacencyList v
      ∩ (Finset.range (g.numberOfVertices + 2)
          \ ({g.numberOfVertices} ∪ {g.numberOfVertices + 1})) = {z} := by
    rw [hcv]
    ext a
    simp only [Finset.mem_inter, Finset.mem_insert, Finset.mem_singleton, Finset.mem_range,
      Finset.mem_sdiff, Finset.mem_union]
    omega
  rw [ht2, Finset.sum_singleton] at t2
  have t2' := toParent
    ((Finset.range (g.numberOfVertices + 2)
        \ ({g.numberOfVertices} ∪ {g.numberOfVertices + 1})) \ ({v} ∪ {z}))
    (Finset.range g.numberOfVertices \ ({v} ∪ {z}))
    (by intro a
        simp only [Finset.mem_sdiff, Finset.mem_range, Finset.mem_union,
          Finset.mem_singleton]
        omega)
    (by intro a ha
        simp only [Finset.mem_sdiff, Finset.mem_range, Finset.mem_union,
          Finset.mem_singleton] at ha
        omega)
  -- third term: `n` matched with `x`, then `n + 1` with `v` or with `y`
  have t3 := card_matchings_expand (blowUpToTriangle g v) hsc
    (Finset.range (g.numberOfVertices + 2) \ ({g.numberOfVertices} ∪ {x}))
    (g.numberOfVertices + 1)
    (by simp only [Finset.mem_sdiff, Finset.mem_range, Finset.mem_union,
          Finset.mem_singleton]; omega)
    (by rw [hcn]; exact Finset.sdiff_subset)
  have ht3 : (blowUpToTriangle g v).adjacencyList (g.numberOfVertices + 1)
      ∩ (Finset.range (g.numberOfVertices + 2) \ ({g.numberOfVertices} ∪ {x})) = {v, y} := by
    rw [hcb]
    ext a
    simp only [Finset.mem_inter, Finset.mem_insert, Finset.mem_singleton, Finset.mem_range,
      Finset.mem_sdiff, Finset.mem_union]
    omega
  rw [ht3, Finset.sum_pair (Ne.symm hyv)] at t3
  have t3a := toParent
    ((Finset.range (g.numberOfVertices + 2) \ ({g.numberOfVertices} ∪ {x}))
      \ ({g.numberOfVertices + 1} ∪ {v}))
    (Finset.range g.numberOfVertices \ ({v} ∪ {x}))
    (by intro a
        simp only [Finset.mem_sdiff, Finset.mem_range, Finset.mem_union,
          Finset.mem_singleton]
        omega)
    (by intro a ha
        simp only [Finset.mem_sdiff, Finset.mem_range, Finset.mem_union,
          Finset.mem_singleton] at ha
        omega)
  have t3b := card_matchings_expand (blowUpToTriangle g v) hsc
    ((Finset.range (g.numberOfVertices + 2) \ ({g.numberOfVertices} ∪ {x}))
      \ ({g.numberOfVertices + 1} ∪ {y}))
    v
    (by simp only [Finset.mem_sdiff, Finset.mem_range, Finset.mem_union,
          Finset.mem_singleton]; omega)
    (by rw [hcn]; exact fun a ha => (Finset.mem_sdiff.1 (Finset.mem_sdiff.1 ha).1).1)
  have ht3b : (blowUpToTriangle g v).adjacencyList v
      ∩ ((Finset.range (g.numberOfVertices + 2) \ ({g.numberOfVertices} ∪ {x}))
          \ ({g.numberOfVertices + 1} ∪ {y})) = {z} := by
    rw [hcv]
    ext a
    simp only [Finset.mem_inter, Finset.mem_insert, Finset.mem_singleton, Finset.mem_range,
      Finset.mem_sdiff, Finset.mem_union]
    omega
  rw [ht3b, Finset.sum_singleton] at t3b
  have t3b' := toParent
    (((Finset.range (g.numberOfVertices + 2) \ ({g.numberOfVertices} ∪ {x}))
      \ ({g.numberOfVertices + 1} ∪ {y})) \ ({v} ∪ {z}))
    ((Finset.range g.numberOfVertices \ {v}) \ g.adjacencyList v)
    (by intro a
        rw [hset]
        simp only [Finset.mem_sdiff, Finset.mem_range, Finset.mem_union,
          Finset.mem_singleton, Finset.mem_insert]
        omega)
    (by intro a ha
        simp only [Finset.mem_sdiff, Finset.mem_range, Finset.mem_singleton] at ha
        omega)
  omega

/-- On a graph without loops the number of completions is the number of perfect matchings
with respect to the target. -/
theorem completions_count (g : graph) (hl : noLoops g) (S : bitset)
    (hS : S ⊆ Finset.range g.numberOfVertices) (fuel : Nat) (hfuel : S.card < fuel) :
    ∃ st, generatePerfectMatchings fuel g S EMPTY initState = some st ∧
      st.completions.length = (perfectMatchingsOn g S).card := by
  obtain ⟨K, hnd, hK, hrun⟩ := generatePerfectMatchings_spec g hl fuel S EMPTY initState hS hfuel
  refine ⟨_, hrun, ?_⟩
  rw [foldCompletions_eq_run, runCompletions_completions, ← (nodup_length_eq_card g S K hnd hK).2]
  simp [initState]

/-! ## The v-join test and the blow-up under a capacity -/

/-- The target that `generateChildrenWithSameNumberOfLonelyEdges` builds for `v` holds the
vertices other than `v` and its neighbours. -/
theorem vJoinTarget_eq (g : graph) (v : Nat) :
    difference (complement (singleton v) g.numberOfVertices) (g.adjacencyList v)
      = awayFrom g v := by
  ext u
  simp only [awayFrom, Finset.mem_sdiff, Finset.mem_range, Finset.mem_singleton,
    Finset.mem_filter]
  tauto

/-- On a numbered simple graph the enumeration with the vertices away from `v` as target
returns, and its `edgesHit` is the union of the perfect matchings of that target. -/
theorem vJoin_edgesHit (C : Nat) (g0 g : graph) (hs : isSimple g0)
    (hnum : numberEdges C g0 = (0, g)) (v : Nat) :
    ∃ st, generatePerfectMatchings (g.numberOfVertices + 1) g
        (difference (complement (singleton v) g.numberOfVertices) (g.adjacencyList v))
        EMPTY initState = some st ∧
      st.edgesHit = vJoinUnion g v := by
  obtain ⟨_, _, _, _, hsg, hinj⟩ := numberEdges_success C g0 g hs hnum
  have hsub : awayFrom g v ⊆ Finset.range g.numberOfVertices := Finset.filter_subset _ _
  obtain ⟨K, _, hK, _, hrun⟩ :=
    enumeration_completions g (isSimple_noLoops g hsg) hinj _ hsub (g.numberOfVertices + 1)
      (Nat.lt_succ_of_le (by
        have hle := Finset.card_le_card hsub
        rw [Finset.card_range] at hle
        exact hle))
  rw [vJoinTarget_eq]
  refine ⟨_, hrun, ?_⟩
  ext x
  rw [runCompletions_edgesHit, List.countP_pos_iff]
  simp only [initState, Finset.not_mem_empty, false_or, List.mem_map, decide_eq_true_eq,
    vJoinUnion, Finset.mem_biUnion, mem_perfectMatchingsOn]
  constructor
  · rintro ⟨X, ⟨P, hP, rfl⟩, hx⟩
    exact ⟨P, (hK P).1 hP, hx⟩
  · rintro ⟨P, hP, hx⟩
    exact ⟨_, ⟨P, (hK P).2 hP, rfl⟩, hx⟩

/-- One round of the loop of `generateChildrenWithSameNumberOfLonelyEdges`, with the set
that the enumeration leaves in `edgesHitByvJoin` named. -/
theorem sameNumberLoop_cons (g : graph) (lonelyEdgesOfg : bitset) (U : bitset) (v : Nat)
    (hU : ∃ st, generatePerfectMatchings (g.numberOfVertices + 1) g
        (difference (complement (singleton v) g.numberOfVertices) (g.adjacencyList v))
        EMPTY initState = some st ∧ st.edgesHit = U)
    (rest : List Nat) (out : List graph) (counter : Nat) :
    sameNumberLoop g lonelyEdgesOfg (v :: rest) (out, counter)
      = if size (intersection U lonelyEdgesOfg) = 0 then
          sameNumberLoop g lonelyEdgesOfg rest (out ++ [blowUpToTriangle g v], counter + 1)
        else sameNumberLoop g lonelyEdgesOfg rest (out, counter) := by
  obtain ⟨st, hst, hhit⟩ := hU
  simp only [sameNumberLoop, hst, hhit]

/-- The loop of `generateChildrenWithSameNumberOfLonelyEdges` keeps exactly the vertices
whose set `edgesHitByvJoin` misses `lonelyEdgesOfg`. -/
theorem sameNumberLoop_filter (g : graph) (lonelyEdgesOfg : bitset) (U : Nat → bitset)
    (hU : ∀ v, ∃ st, generatePerfectMatchings (g.numberOfVertices + 1) g
        (difference (complement (singleton v) g.numberOfVertices) (g.adjacencyList v))
        EMPTY initState = some st ∧ st.edgesHit = U v)
    (vs : List Nat) :
    ∀ (out : List graph) (counter : Nat),
      sameNumberLoop g lonelyEdgesOfg vs (out, counter)
        = some (out ++ (vs.filter
              (fun v => decide (size (intersection (U v) lonelyEdgesOfg) = 0))).map
              (blowUpToTriangle g),
            counter + (vs.filter
              (fun v => decide (size (intersection (U v) lonelyEdgesOfg) = 0))).length) := by
  induction vs with
  | nil =>
    intro out counter
    simp [sameNumberLoop]
  | cons v rest ih =>
    intro out counter
    rw [sameNumberLoop_cons g lonelyEdgesOfg (U v) v (hU v)]
    by_cases hz : size (intersection (U v) lonelyEdgesOfg) = 0
    · rw [if_pos hz, ih, List.filter_cons_of_pos (by simpa using hz)]
      simp only [List.map_cons, List.length_cons, List.append_assoc, List.singleton_append]
      congr 2
      omega
    · rw [if_neg hz, ih, List.filter_cons_of_neg (by simpa using hz)]

/-- Under a capacity that has room for two more vertices, the blow-up of a simple graph at a
vertex with neighbours `x < y < z` stores only numbers below the capacity. -/
theorem blowUpToTriangle_below_capacity (C : Nat) (g : graph) (hs : isSimple g)
    (v x y z : Nat) (hv : v < g.numberOfVertices) (hxy : x < y) (hyz : y < z)
    (hN : g.adjacencyList v = {x, y, z}) (hcap : g.numberOfVertices + 2 ≤ C) (u w : Nat)
    (hw : w ∈ (blowUpToTriangle g v).adjacencyList u) : u < C ∧ w < C := by
  have hf := forEach_triple _ x y z hxy hyz hN
  have hxm : x ∈ g.adjacencyList v := by rw [hN]; simp
  have hym : y ∈ g.adjacencyList v := by rw [hN]; simp
  have hx := (hs v hv x hxm).1
  have hy := (hs v hv y hym).1
  have hxv := (hs v hv x hxm).2.1
  have hyv := (hs v hv y hym).2.1
  rw [mem_blowUpToTriangle g v x y z hf hv hx hy hxv hyv (Nat.ne_of_lt hxy)] at hw
  have h1 := childAdjacent_simple g hs v x y hv hx hy u w hw
  have h2 := childAdjacent_simple g hs v x y hv hx hy w u h1.2.2
  omega

/-- Under a capacity that has room for two more vertices, `blowUpToTriangleWithin` is
`blowUpToTriangle`. -/
theorem blowUpToTriangleWithin_ok (C : Nat) (g : graph) (v : Nat)
    (hcap : g.numberOfVertices + 2 ≤ C) :
    blowUpToTriangleWithin C g v = Except.ok (blowUpToTriangle g v) := by
  unfold blowUpToTriangleWithin
  rw [if_neg (by omega), if_neg (by omega)]

/-! # The claims -/

/-- C7: on the complete graph on four vertices, with the edge numbers of `numberEdges`,
`generatePerfectMatchings` over the whole vertex set visits its completion branch exactly
three times, each of the six edge identifiers lies in exactly one of the three matchings
produced, and `countLonelyEdges` returns 6 with all six identifiers in the lonely-edge set. -/
theorem K4_three_matchings_six_lonely_edges :
    (numberEdges 64 K4raw).1 = 0 ∧ numberOfEdges K4 = 6 ∧
    (∃ st, generatePerfectMatchings (K4.numberOfVertices + 1) K4
        (complement EMPTY K4.numberOfVertices) EMPTY initState = some st ∧
      st.completions.length = 3 ∧
      ∀ e ∈ Finset.range 6, st.completions.countP (fun X => decide (e ∈ X)) = 1) ∧
    (∃ lonelyEdges, countLonelyEdges K4 = some (6, lonelyEdges) ∧
      lonelyEdges = Finset.range 6) := by
  refine ⟨by decide, by decide, ?_, ?_⟩
  · have h : (generatePerfectMatchings (K4.numberOfVertices + 1) K4
        (complement EMPTY K4.numberOfVertices) EMPTY initState).map (fun s => s.completions)
        = some [{0, 5}, {1, 4}, {2, 3}] := by decide
    cases hg : generatePerfectMatchings (K4.numberOfVertices + 1) K4
        (complement EMPTY K4.numberOfVertices) EMPTY initState with
    | none => rw [hg] at h; exact absurd h (by simp)
    | some st =>
      rw [hg] at h
      simp only [Option.map_some', Option.some.injEq] at h
      refine ⟨st, rfl, ?_, ?_⟩
      · rw [h]; rfl
      · rw [h]; decide
  · have h1 : (countLonelyEdges K4).map Prod.fst = some 6 := by decide
    have h2 : (countLonelyEdges K4).map
        (fun r => decide (r.2 ⊆ Finset.range 6 ∧ Finset.range 6 ⊆ r.2)) = some true := by
      decide
    cases hc : countLonelyEdges K4 with
    | none => rw [hc] at h1; exact absurd h1 (by simp)
    | some r =>
      obtain ⟨c, lonelyEdges⟩ := r
      rw [hc] at h1 h2
      simp only [Option.map_some', Option.some.injEq, decide_eq_true_eq] at h1 h2
      subst h1
      exact ⟨lonelyEdges, rfl, Finset.Subset.antisymm h2.1 h2.2⟩

/-- C8: for a simple graph with at most `C` edges, `numberEdges` succeeds and leaves the
adjacency untouched; afterwards `getIndex` is symmetric on adjacent pairs, the identifier
map is a bijection from the edges (unordered adjacent pairs, smaller endpoint first) onto
`0..m-1`, identifiers increase in the lexicographic order of (smaller endpoint, larger
endpoint), and `labelToEdge` holds at `2e` and `2e+1` the smaller and the larger endpoint of
the edge with identifier `e`. -/
theorem numberEdges_bijection (C : Nat) (g : graph) (hs : isSimple g)
    (hm : numberOfEdges g ≤ C) :
    (numberEdges C g).1 = 0 ∧
    (numberEdges C g).2.numberOfVertices = g.numberOfVertices ∧
    (numberEdges C g).2.adjacencyList = g.adjacencyList ∧
    (∀ u v, u < g.numberOfVertices → v ∈ g.adjacencyList u →
      getIndex (numberEdges C g).2 u v = getIndex (numberEdges C g).2 v u) ∧
    Set.BijOn (edgeId (numberEdges C g).2) (edgeSet g : Set (Nat × Nat))
      (Finset.range (numberOfEdges g) : Set Nat) ∧
    (∀ e ∈ edgeSet g, ∀ f ∈ edgeSet g, lexLt e f →
      edgeId (numberEdges C g).2 e < edgeId (numberEdges C g).2 f) ∧
    (∀ e ∈ edgeSet g,
      (numberEdges C g).2.labelToEdge (2 * edgeId (numberEdges C g).2 e) = e.1 ∧
      (numberEdges C g).2.labelToEdge (2 * edgeId (numberEdges C g).2 e + 1) = e.2) := by
  have hr := isSimple_inRange g hs
  rw [numberEdges_of_le C g hr hm]
  exact ⟨rfl, numbered_numberOfVertices g, numbered_adjacencyList g,
    fun u v hu hv => numbered_symm g hs u v hu hv, numbered_bijOn g hr,
    fun e he f hf h => numbered_mono g hr e f he hf h,
    fun e he => numbered_labelToEdge g hr e he⟩

/-- Witness for C8: the complete graph on four vertices under capacity 64. -/
theorem numberEdges_bijection_witness :
    isSimple K4raw ∧ numberOfEdges K4raw ≤ 64 ∧
    (numberEdges 64 K4raw).1 = 0 ∧
    Set.BijOn (edgeId (numberEdges 64 K4raw).2) (edgeSet K4raw : Set (Nat × Nat))
      (Finset.range (numberOfEdges K4raw) : Set Nat) :=
  ⟨by decide, by decide,
    (numberEdges_bijection 64 K4raw (by decide) (by decide)).1,
    (numberEdges_bijection 64 K4raw (by decide) (by decide)).2.2.2.2.1⟩

/-- C9: for a decoded simple graph with `n` vertices and `m` edges, `readGraph` fails
exactly when `n > C` or `m > C`; `numberEdges` returns `-1` exactly when `m > C` and `0`
exactly when `m ≤ C`; and a graph with exactly `C` edges is accepted with the identifiers
`0..C-1`. -/
theorem readGraph_fails_iff_capacity (C : Nat) (getNumberOfVertices : String → Int)
    (loadGraph : String → Nat → Option (Nat → bitset)) (graphString : String) (g : graph)
    (hn : getNumberOfVertices graphString = (g.numberOfVertices : Int))
    (hload : loadGraph graphString g.numberOfVertices = some g.adjacencyList)
    (hs : isSimple g) :
    (readGraph C getNumberOfVertices loadGraph graphString = none ↔
      C < g.numberOfVertices ∨ C < numberOfEdges g) ∧
    ((numberEdges C g).1 = -1 ↔ C < numberOfEdges g) ∧
    ((numberEdges C g).1 = 0 ↔ numberOfEdges g ≤ C) ∧
    (numberOfEdges g = C →
      (numberEdges C g).1 = 0 ∧
      edgeIds (numberEdges C g).2 (edgeSet g) = Finset.range C) := by
  have hr := isSimple_inRange g hs
  refine ⟨?_, numberEdges_fst_eq_neg_iff C g hr, numberEdges_fst_eq_zero_iff C g hr, ?_⟩
  · have hcode := numberEdges_fst_eq_neg_iff C
      { numberOfVertices := g.numberOfVertices
        adjacencyList := g.adjacencyList
        edgeIndices := fun _ => 0
        labelToEdge := fun _ => 0 } hr
    change _ ↔ C < numberOfEdges g at hcode
    unfold readGraph
    simp only [hn, Int.toNat_ofNat, hload]
    constructor
    · intro h
      split at h
      · rename_i hc
        rcases hc with hc | hc
        · omega
        · left; omega
      · split at h
        · rename_i hc
          exact Or.inr (hcode.1 hc)
        · exact absurd h (by simp)
    · intro h
      split
      · rfl
      · rename_i hc
        simp only [not_or, not_lt] at hc
        rcases h with h | h
        · omega
        · rw [if_pos (hcode.2 h)]
  · intro h
    have hle : numberOfEdges g ≤ C := by omega
    rw [numberEdges_of_le C g hr hle]
    refine ⟨rfl, ?_⟩
    unfold edgeIds
    rw [← h]
    exact Finset.coe_injective (by
      rw [Finset.coe_image]
      exact (numbered_bijOn g hr).image_eq)

/-- Witness for C9: the complete graph on four vertices, decoded from any line. -/
theorem readGraph_fails_iff_capacity_witness :
    isSimple K4raw ∧
    (readGraph 64 (fun _ => 4) (fun _ _ => some K4raw.adjacencyList) "C~" = none ↔
      64 < K4raw.numberOfVertices ∨ 64 < numberOfEdges K4raw) :=
  ⟨by decide,
    (readGraph_fails_iff_capacity 64 (fun _ => 4) (fun _ _ => some K4raw.adjacencyList) "C~"
      K4raw rfl rfl (by decide)).1⟩

/-- C1: for a simple graph accepted by `readGraph` (so with at most `C` vertices and at most
`C` edges), `countLonelyEdges` returns, and the set it stores is exactly the set of
identifiers of the edges that lie in exactly one perfect matching of the graph, the returned
count being the cardinality of that set and the number of such edges. -/
theorem countLonelyEdges_correct (C : Nat) (getNumberOfVertices : String → Int)
    (loadGraph : String → Nat → Option (Nat → bitset)) (graphString : String) (g : graph)
    (h : readGraph C getNumberOfVertices loadGraph graphString = some g) (hs : isSimple g) :
    g.numberOfVertices ≤ C ∧ numberOfEdges g ≤ C ∧
    ∃ (count : Nat) (lonelyEdges : bitset),
      countLonelyEdges g = some (count, lonelyEdges) ∧
      lonelyEdges = edgeIds g (lonelyEdgeSet g) ∧
      count = lonelyEdges.card ∧ count = (lonelyEdgeSet g).card := by
  obtain ⟨hn, hm, hinj⟩ := readGraph_accepts C _ _ _ g h hs
  refine ⟨hn, hm, ?_⟩
  obtain ⟨K, hnd, hK, _, hrun⟩ :=
    enumeration_completions g (isSimple_noLoops g hs) hinj
      (Finset.range g.numberOfVertices) (Finset.Subset.refl _) (g.numberOfVertices + 1)
      (by rw [Finset.card_range]; omega)
  have hlonely : difference (runCompletions (K.map (edgeIds g)) initState).edgesHit
      (runCompletions (K.map (edgeIds g)) initState).edgesHitTwice
        = edgeIds g (lonelyEdgeSet g) := by
    ext x
    rw [runCompletions_lonely, countP_edgeIds_eq_one_iff g hinj K hnd hK]
  have hrun' : generatePerfectMatchings (g.numberOfVertices + 1) g
      (complement EMPTY g.numberOfVertices) EMPTY initState
        = some (runCompletions (K.map (edgeIds g)) initState) := by
    rw [← hrun]
    congr 1
  refine ⟨(edgeIds g (lonelyEdgeSet g)).card, edgeIds g (lonelyEdgeSet g), ?_, rfl, rfl, ?_⟩
  · unfold countLonelyEdges
    rw [hrun']
    simp only [hlonely]
  · unfold edgeIds
    apply Finset.card_image_of_injOn
    intro e he f hf hef
    have hsub : lonelyEdgeSet g ⊆ edgeSet g := Finset.filter_subset _ _
    exact hinj (Finset.mem_coe.2 (hsub (Finset.mem_coe.1 he)))
      (Finset.mem_coe.2 (hsub (Finset.mem_coe.1 hf))) hef

/-- Witness for C1: the complete graph on four vertices, accepted under capacity 64. -/
theorem countLonelyEdges_correct_witness :
    readGraph 64 (fun _ => 4) (fun _ _ => some K4raw.adjacencyList) "C~" = some K4 ∧
    isSimple K4 ∧
    ∃ (count : Nat) (lonelyEdges : bitset),
      countLonelyEdges K4 = some (count, lonelyEdges) ∧
      lonelyEdges = edgeIds K4 (lonelyEdgeSet K4) ∧
      count = lonelyEdges.card ∧ count = (lonelyEdgeSet K4).card :=
  ⟨rfl, by decide,
    (countLonelyEdges_correct 64 (fun _ => 4) (fun _ _ => some K4raw.adjacencyList) "C~" K4
      rfl (by decide)).2.2⟩

/-- C2: on a simple graph numbered by `numberEdges` and a set `S` of its vertices,
`generatePerfectMatchings` started on `S` with an empty partial matching returns, and its
completion branch has run exactly once for each perfect matching of the subgraph induced on
`S`: the identifier set of every such matching occurs exactly once among the completions,
every completion is the identifier set of such a matching, distinct matchings have distinct
identifier sets, and the number of completions is the number of these matchings. -/
theorem generatePerfectMatchings_each_matching_once (C : Nat) (g0 g : graph)
    (hs : isSimple g0) (hnum : numberEdges C g0 = (0, g)) (S : bitset)
    (hS : S ⊆ Finset.range g.numberOfVertices) (fuel : Nat) (hfuel : S.card < fuel) :
    ∃ st, generatePerfectMatchings fuel g S EMPTY initState = some st ∧
      (∀ P, isPerfectMatchingOn g S P → st.completions.count (edgeIds g P) = 1) ∧
      (∀ X ∈ st.completions, ∃ P, isPerfectMatchingOn g S P ∧ X = edgeIds g P) ∧
      (∀ P Q, isPerfectMatchingOn g S P → isPerfectMatchingOn g S Q →
        edgeIds g P = edgeIds g Q → P = Q) ∧
      st.completions.Nodup ∧
      st.completions.length = (perfectMatchingsOn g S).card := by
  obtain ⟨_, _, _, _, hsg, hinj⟩ := numberEdges_success C g0 g hs hnum
  obtain ⟨K, hnd, hK, hndI, hrun⟩ :=
    enumeration_completions g (isSimple_noLoops g hsg) hinj S hS fuel hfuel
  have hc : (runCompletions (K.map (edgeIds g)) initState).completions
      = K.map (edgeIds g) := by
    rw [runCompletions_completions]
    rfl
  refine ⟨_, hrun, ?_, ?_, ?_, ?_, ?_⟩
  · intro P hP
    rw [hc]
    exact List.count_eq_one_of_mem hndI (List.mem_map_of_mem _ ((hK P).2 hP))
  · intro X hX
    rw [hc] at hX
    obtain ⟨P, hP, rfl⟩ := List.mem_map.1 hX
    exact ⟨P, (hK P).1 hP, rfl⟩
  · intro P Q hP hQ hPQ
    exact edgeIds_injOn g hinj P Q hP.1 hQ.1 hPQ
  · rw [hc]
    exact hndI
  · rw [hc, List.length_map]
    exact (nodup_length_eq_card g S K hnd hK).2

/-- Witness for C2: the complete graph on four vertices and its whole vertex set. -/
theorem generatePerfectMatchings_each_matching_once_witness :
    isSimple K4raw ∧ numberEdges 64 K4raw = (0, K4) ∧
    (Finset.range 4 ⊆ Finset.range K4.numberOfVertices) ∧ (Finset.range 4).card < 5 ∧
    ∃ st, generatePerfectMatchings 5 K4 (Finset.range 4) EMPTY initState = some st ∧
      (∀ P, isPerfectMatchingOn K4 (Finset.range 4) P →
        st.completions.count (edgeIds K4 P) = 1) ∧
      (∀ X ∈ st.completions, ∃ P, isPerfectMatchingOn K4 (Finset.range 4) P ∧
        X = edgeIds K4 P) ∧
      (∀ P Q, isPerfectMatchingOn K4 (Finset.range 4) P →
        isPerfectMatchingOn K4 (Finset.range 4) Q → edgeIds K4 P = edgeIds K4 Q → P = Q) ∧
      st.completions.Nodup ∧
      st.completions.length = (perfectMatchingsOn K4 (Finset.range 4)).card :=
  ⟨by decide, rfl, by decide, by decide,
    generatePerfectMatchings_each_matching_once 64 K4raw K4 (by decide) rfl (Finset.range 4)
      (by decide) 5 (by decide)⟩

/-- C3: on a simple graph numbered by `numberEdges` and a set `S` of its vertices, every set
that `generatePerfectMatchings` (started on `S` with an empty partial matching) has at its
completion branch is the identifier set of a set of edges of the graph that is perfect with
respect to `S`: its edges are pairwise vertex-disjoint, every vertex of `S` is an endpoint
of exactly one of them, and none of them has an endpoint outside `S`. -/
theorem generatePerfectMatchings_completions_perfect (C : Nat) (g0 g : graph)
    (hs : isSimple g0) (hnum : numberEdges C g0 = (0, g)) (S : bitset)
    (hS : S ⊆ Finset.range g.numberOfVertices) (fuel : Nat) (hfuel : S.card < fuel) :
    ∃ st, generatePerfectMatchings fuel g S EMPTY initState = some st ∧
      ∀ X ∈ st.completions,
        X = edgeIds g (edgesOf g X) ∧ edgesOf g X ⊆ edgeSet g ∧
        (∀ e ∈ edgesOf g X, ∀ f ∈ edgesOf g X, e ≠ f → disjointEdges e f) ∧
        (∀ v ∈ S, (coveringEdges (edgesOf g X) v).card = 1) ∧
        (∀ e ∈ edgesOf g X, e.1 ∈ S ∧ e.2 ∈ S) := by
  obtain ⟨_, _, _, _, hsg, hinj⟩ := numberEdges_success C g0 g hs hnum
  obtain ⟨K, _, hK, _, hrun⟩ :=
    enumeration_completions g (isSimple_noLoops g hsg) hinj S hS fuel hfuel
  refine ⟨_, hrun, ?_⟩
  intro X hX
  rw [runCompletions_completions] at hX
  obtain ⟨P, hP, rfl⟩ := List.mem_map.1 (by simpa [initState] using hX)
  have hPM := (hK P).1 hP
  rw [edgesOf_edgeIds g hinj P hPM.1]
  exact ⟨rfl, hPM.1, fun e he f hf hne => isPerfectMatchingOn_disjoint g S P hPM e f he hf hne,
    hPM.2.2, hPM.2.1⟩

/-- Witness for C3: the complete graph on four vertices and its whole vertex set. -/
theorem generatePerfectMatchings_completions_perfect_witness :
    isSimple K4raw ∧ numberEdges 64 K4raw = (0, K4) ∧
    (Finset.range 4 ⊆ Finset.range K4.numberOfVertices) ∧ (Finset.range 4).card < 5 ∧
    ∃ st, generatePerfectMatchings 5 K4 (Finset.range 4) EMPTY initState = some st ∧
      ∀ X ∈ st.completions,
        X = edgeIds K4 (edgesOf K4 X) ∧ edgesOf K4 X ⊆ edgeSet K4 ∧
        (∀ e ∈ edgesOf K4 X, ∀ f ∈ edgesOf K4 X, e ≠ f → disjointEdges e f) ∧
        (∀ v ∈ Finset.range 4, (coveringEdges (edgesOf K4 X) v).card = 1) ∧
        (∀ e ∈ edgesOf K4 X, e.1 ∈ Finset.range 4 ∧ e.2 ∈ Finset.range 4) :=
  ⟨by decide, rfl, by decide, by decide,
    generatePerfectMatchings_completions_perfect 64 K4raw K4 (by decide) rfl (Finset.range 4)
      (by decide) 5 (by decide)⟩

/-- C6: on a graph without loops, `generatePerfectMatchings` started on a set `S` of
vertices of odd cardinality returns without ever running its completion branch, leaving
both accumulators (and the record of completions) as they were; hence for an odd number of
vertices, and more generally whenever the graph has no perfect matching,
`countLonelyEdges` returns 0 and an empty lonely-edge set. -/
theorem odd_target_never_completes (g : graph) (hl : noLoops g) :
    (∀ (fuel : Nat) (S M : bitset) (st : enumState),
      S ⊆ Finset.range g.numberOfVertices → S.card < fuel → Odd S.card →
      generatePerfectMatchings fuel g S M st = some st) ∧
    (Odd g.numberOfVertices → countLonelyEdges g = some (0, EMPTY)) ∧
    (perfectMatchings g = ∅ → countLonelyEdges g = some (0, EMPTY)) := by
  refine ⟨generatePerfectMatchings_odd g hl, ?_, ?_⟩
  · intro hodd
    have := generatePerfectMatchings_odd g hl (g.numberOfVertices + 1)
      (complement EMPTY g.numberOfVertices) EMPTY initState Finset.sdiff_subset
      (by
        have : (complement EMPTY g.numberOfVertices).card = g.numberOfVertices := by
          simp
        omega)
      (by simpa using hodd)
    unfold countLonelyEdges
    rw [this]
    rfl
  · intro hnone
    obtain ⟨K, _, hK, hrun⟩ :=
      generatePerfectMatchings_spec g hl (g.numberOfVertices + 1)
        (complement EMPTY g.numberOfVertices) EMPTY initState Finset.sdiff_subset
        (by
          have : (complement EMPTY g.numberOfVertices).card = g.numberOfVertices := by
            simp
          omega)
    have hKe : K = [] := by
      apply List.eq_nil_iff_forall_not_mem.2
      intro P hP
      have hPM := (hK P).1 hP
      have hc : complement EMPTY g.numberOfVertices = Finset.range g.numberOfVertices :=
        Finset.sdiff_empty
      rw [hc] at hPM
      have : P ∈ perfectMatchings g := (mem_perfectMatchingsOn g _ P).2 hPM
      rw [hnone] at this
      exact absurd this (Finset.not_mem_empty _)
    subst hKe
    unfold countLonelyEdges
    rw [hrun]
    rfl

/-- Witness for C6: the triangle has no loops and an odd number of vertices. -/
theorem odd_target_never_completes_witness :
    noLoops triangleRaw ∧ Odd triangleRaw.numberOfVertices ∧
    countLonelyEdges triangleRaw = some (0, EMPTY) :=
  ⟨by decide, by decide, (odd_target_never_completes triangleRaw (by decide)).2.1 (by decide)⟩

/-- C5: for a simple 3-regular graph with `n` vertices and `m` edges and a vertex `v`, the
graph built by `blowUpToTriangle` is again simple (in particular symmetric), has `n + 2`
vertices and `m + 3` edges, and each of its vertices has degree exactly 3. -/
theorem blowUpToTriangle_cubic (g : graph) (hs : isSimple g) (hc : isCubic g) (v : Nat)
    (hv : v < g.numberOfVertices) :
    isSimple (blowUpToTriangle g v) ∧
    (blowUpToTriangle g v).numberOfVertices = g.numberOfVertices + 2 ∧
    numberOfEdges (blowUpToTriangle g v) = numberOfEdges g + 3 ∧
    isCubic (blowUpToTriangle g v) := by
  have hsimple := blowUpToTriangle_simple g hs v hv (hc v hv)
  have hcubic : isCubic (blowUpToTriangle g v) := by
    intro u hu
    rw [blowUpToTriangle_degree g hs v hv (hc v hv) u hu]
    split
    · rename_i h
      exact hc u h
    · rfl
  refine ⟨hsimple, rfl, ?_, hcubic⟩
  have h1 := sum_degrees g hs
  have h2 := sum_degrees (blowUpToTriangle g v) hsimple
  rw [Finset.sum_congr rfl (fun u hu => hc u (Finset.mem_range.1 hu))] at h1
  rw [Finset.sum_congr rfl (fun u hu => hcubic u (Finset.mem_range.1 hu))] at h2
  simp only [Finset.sum_const, Finset.card_range, smul_eq_mul,
    blowUpToTriangle_numberOfVertices] at h1 h2
  omega

/-- Witness for C5: the complete graph on four vertices, blown up at vertex 0. -/
theorem blowUpToTriangle_cubic_witness :
    isSimple K4raw ∧ isCubic K4raw ∧ 0 < K4raw.numberOfVertices ∧
    isSimple (blowUpToTriangle K4raw 0) ∧
    (blowUpToTriangle K4raw 0).numberOfVertices = K4raw.numberOfVertices + 2 ∧
    numberOfEdges (blowUpToTriangle K4raw 0) = numberOfEdges K4raw + 3 ∧
    isCubic (blowUpToTriangle K4raw 0) :=
  ⟨by decide, by decide, by decide,
    blowUpToTriangle_cubic K4raw (by decide) (by decide) 0 (by decide)⟩

/-- C14: starting from empty accumulators and applying the update of the completion branch
once for each set of a finite sequence, the final `edgesHit` holds what lies in at least one
set, the final `edgesHitTwice` what lies in the sets at two distinct positions,
`edgesHitTwice` is a subset of `edgesHit` after every step, and the difference of the two
holds what lies at exactly one position. -/
theorem coverage_accumulator_fold (Ms : List bitset) :
    (∀ e, e ∈ (runCompletions Ms initState).edgesHit ↔ ∃ (i : Nat) (X : bitset), Ms[i]? = some X ∧ e ∈ X) ∧
    (∀ e, e ∈ (runCompletions Ms initState).edgesHitTwice ↔
      ∃ (i j : Nat) (X Y : bitset), i ≠ j ∧ Ms[i]? = some X ∧ Ms[j]? = some Y ∧ e ∈ X ∧ e ∈ Y) ∧
    (∀ k, (runCompletions (Ms.take k) initState).edgesHitTwice
      ⊆ (runCompletions (Ms.take k) initState).edgesHit) ∧
    (∀ e, e ∈ difference (runCompletions Ms initState).edgesHit
        (runCompletions Ms initState).edgesHitTwice ↔
      ∃! (i : Nat), ∃ (X : bitset), Ms[i]? = some X ∧ e ∈ X) := by
  refine ⟨?_, ?_, ?_, ?_⟩
  · intro e
    rw [runCompletions_edgesHit, countP_pos_iff_getElem?]
    simp [initState]
  · intro e
    rw [runCompletions_edgesHitTwice, two_le_countP_iff]
    simp [initState]
  · intro k e he
    rw [runCompletions_edgesHitTwice] at he
    rw [runCompletions_edgesHit]
    simp only [initState, Finset.not_mem_empty, false_or, false_and] at he
    right
    omega
  · intro e
    rw [runCompletions_lonely, countP_eq_one_iff_unique]
    simp

set_option maxRecDepth 1000000 in
/-- C15 fails on the code when the two new vertices do not fit the capacity: under
capacity 64 the graph on 63 vertices with the edges 0-1, 0-2, 0-3 is simple and accepted by
`readGraph`, vertex 0 has the neighbours `1 < 2 < 3`, and the adjacency of the claim needs
the vertex number `b = 64` (in `N(63)`), which a set of capacity 64 cannot hold:
`blowUpToTriangle` tests nothing and its run is a fault at that number. -/
theorem blowUpToTriangle_star63_out_of_range :
    isSimple star63Raw ∧
    (readGraph 64 (fun _ => 63) (fun _ _ => some star63Raw.adjacencyList) "").map
      (fun g => (g.numberOfVertices, g.adjacencyList 0)) = some (63, {1, 2, 3}) ∧
    (readGraph 64 (fun _ => 63) (fun _ _ => some star63Raw.adjacencyList) "").map
      (fun g => faultOf (blowUpToTriangleWithin 64 g 0))
        = some (some (fault.bitsetIndexOutOfRange 64)) ∧
    64 ∈ (blowUpToTriangle star63Raw 0).adjacencyList 63 ∧ ¬ (64 < 64) := by
  refine ⟨by decide!, by decide!, by decide!, by decide!, by decide⟩

/-- C15 as amended: for a simple graph on `n` vertices with `n + 2 ≤ C` and a vertex `v`
whose neighbours are `x < y < z`, `blowUpToTriangle` under capacity `C` builds a graph on
`n + 2` vertices in which, with `a = n` and `b = n + 1`, `N(v) = {z, a, b}`,
`N(a) = {v, b, x}`, `N(b) = {v, a, y}`, `x` has `v` replaced by `a`, `y` has `v` replaced by
`b`, and every other vertex (`z` among them) keeps its neighbours; every number stored is
below `C`. The C function writes only to the freshly allocated array of `newG`; in the model
the parent is a value that the function cannot change. -/
theorem blowUpToTriangle_exact_adjacency (C : Nat) (g : graph) (hs : isSimple g)
    (v x y z : Nat) (hv : v < g.numberOfVertices) (hxy : x < y) (hyz : y < z)
    (hN : g.adjacencyList v = {x, y, z}) (hcap : g.numberOfVertices + 2 ≤ C) :
    ∃ newG, blowUpToTriangleWithin C g v = Except.ok newG ∧
      newG.numberOfVertices = g.numberOfVertices + 2 ∧
      newG.adjacencyList v = {z, g.numberOfVertices, g.numberOfVertices + 1} ∧
      newG.adjacencyList g.numberOfVertices = {v, g.numberOfVertices + 1, x} ∧
      newG.adjacencyList (g.numberOfVertices + 1) = {v, g.numberOfVertices, y} ∧
      newG.adjacencyList x = insert g.numberOfVertices ((g.adjacencyList x).erase v) ∧
      newG.adjacencyList y
        = insert (g.numberOfVertices + 1) ((g.adjacencyList y).erase v) ∧
      (∀ u, u < g.numberOfVertices → u ≠ v → u ≠ x → u ≠ y →
        newG.adjacencyList u = g.adjacencyList u) ∧
      (∀ u w, w ∈ newG.adjacencyList u → u < C ∧ w < C) := by
  obtain ⟨h1, h2, h3, h4, h5, h6, h7⟩ := blowUpToTriangle_neighbours g hs v x y z hv hxy hyz hN
  exact ⟨blowUpToTriangle g v, blowUpToTriangleWithin_ok C g v hcap, h1, h2, h3, h4, h5, h6,
    h7, blowUpToTriangle_below_capacity C g hs v x y z hv hxy hyz hN hcap⟩

/-- Witness for the amended C15: the complete graph on four vertices, blown up at vertex 0
under capacity 64. -/
theorem blowUpToTriangle_exact_adjacency_witness :
    isSimple K4raw ∧ 0 < K4raw.numberOfVertices ∧ K4raw.adjacencyList 0 = {1, 2, 3} ∧
    K4raw.numberOfVertices + 2 ≤ 64 ∧
    ∃ newG, blowUpToTriangleWithin 64 K4raw 0 = Except.ok newG ∧
      newG.numberOfVertices = K4raw.numberOfVertices + 2 ∧
      newG.adjacencyList 0 = {3, K4raw.numberOfVertices, K4raw.numberOfVertices + 1} ∧
      newG.adjacencyList K4raw.numberOfVertices = {0, K4raw.numberOfVertices + 1, 1} ∧
      newG.adjacencyList (K4raw.numberOfVertices + 1) = {0, K4raw.numberOfVertices, 2} ∧
      newG.adjacencyList 1
        = insert K4raw.numberOfVertices ((K4raw.adjacencyList 1).erase 0) ∧
      newG.adjacencyList 2
        = insert (K4raw.numberOfVertices + 1) ((K4raw.adjacencyList 2).erase 0) ∧
      (∀ u, u < K4raw.numberOfVertices → u ≠ 0 → u ≠ 1 → u ≠ 2 →
        newG.adjacencyList u = K4raw.adjacencyList u) ∧
      (∀ u w, w ∈ newG.adjacencyList u → u < 64 ∧ w < 64) :=
  ⟨by decide, by decide, rfl, by decide,
    blowUpToTriangle_exact_adjacency 64 K4raw (by decide) 0 1 2 3 (by decide) (by decide)
      (by decide) rfl (by decide)⟩

/-- C16: `generatePerfectMatchings` terminates on every graph and every target `S`: each
recursive call is made on a strict subset of the remaining vertices, a recursion depth of
`|S|` is never exceeded (any fuel above `|S|` yields a result), and on a graph without
loops half of that is enough. -/
theorem generatePerfectMatchings_terminates (g : graph) (S M : bitset) (st : enumState) :
    (∀ v w, v ∈ S → difference S (union (singleton v) (singleton w)) ⊂ S) ∧
    (∀ fuel, S.card < fuel → (generatePerfectMatchings fuel g S M st).isSome) ∧
    (noLoops g → S ⊆ Finset.range g.numberOfVertices →
      ∀ fuel, S.card / 2 < fuel → (generatePerfectMatchings fuel g S M st).isSome) :=
  ⟨fun v w hv => newRemainingVertices_ssubset S v w hv,
    fun fuel h => generatePerfectMatchings_isSome g fuel S M st h,
    fun hl hS fuel h => generatePerfectMatchings_isSome_half g hl fuel S M st hS h⟩

/-- Witness for C16: the complete graph on four vertices with fuel 5 and with fuel 3. -/
theorem generatePerfectMatchings_terminates_witness :
    (Finset.range 4).card < 5 ∧ noLoops K4 ∧
    Finset.range 4 ⊆ Finset.range K4.numberOfVertices ∧ (Finset.range 4).card / 2 < 3 ∧
    (generatePerfectMatchings 5 K4 (Finset.range 4) EMPTY initState).isSome ∧
    (generatePerfectMatchings 3 K4 (Finset.range 4) EMPTY initState).isSome :=
  ⟨by decide, by decide, by decide, by decide,
    (generatePerfectMatchings_terminates K4 (Finset.range 4) EMPTY initState).2.1 5
      (by decide),
    (generatePerfectMatchings_terminates K4 (Finset.range 4) EMPTY initState).2.2
      (by decide) (by decide) 3 (by decide)⟩

/-- C17: on a simple graph numbered by `numberEdges`, for every vertex `v` the set
`edgesHitByvJoin` that the loop of `generateChildrenWithSameNumberOfLonelyEdges` computes
is the union of the identifier sets of all perfect matchings of the subgraph induced on the
vertices other than `v` and its neighbours, and it holds no edge incident with `v` and no
edge incident with a neighbour of `v`; a round of the loop blows `v` up exactly when this
union misses `lonelyEdgesOfg`, so the function writes the blow-ups at exactly those `v`. -/
theorem edgesHitByvJoin_is_union (C : Nat) (g0 g : graph) (hs : isSimple g0)
    (hnum : numberEdges C g0 = (0, g)) :
    (∀ v, ∃ st, generatePerfectMatchings (g.numberOfVertices + 1) g
        (difference (complement (singleton v) g.numberOfVertices) (g.adjacencyList v))
        EMPTY initState = some st ∧
      st.edgesHit = vJoinUnion g v ∧
      (∀ x, x ∈ st.edgesHit ↔
        ∃ P, isPerfectMatchingOn g (awayFrom g v) P ∧ x ∈ edgeIds g P) ∧
      (∀ e ∈ edgeSet g,
        (e.1 = v ∨ e.2 = v ∨ e.1 ∈ g.adjacencyList v ∨ e.2 ∈ g.adjacencyList v) →
        edgeId g e ∉ st.edgesHit)) ∧
    (∀ (lonelyEdgesOfg : bitset) (v : Nat) (rest : List Nat) (out : List graph)
        (counter : Nat),
      sameNumberLoop g lonelyEdgesOfg (v :: rest) (out, counter)
        = if size (intersection (vJoinUnion g v) lonelyEdgesOfg) = 0 then
            sameNumberLoop g lonelyEdgesOfg rest
              (out ++ [blowUpToTriangle g v], counter + 1)
          else sameNumberLoop g lonelyEdgesOfg rest (out, counter)) ∧
    (∀ lonelyEdgesOfg : bitset,
      generateChildrenWithSameNumberOfLonelyEdges g lonelyEdgesOfg
        = some (((List.range g.numberOfVertices).filter
              (fun v => decide (size (intersection (vJoinUnion g v) lonelyEdgesOfg) = 0))).map
              (blowUpToTriangle g),
            ((List.range g.numberOfVertices).filter
              (fun v => decide
                (size (intersection (vJoinUnion g v) lonelyEdgesOfg) = 0))).length)) := by
  obtain ⟨_, _, _, _, hsg, hinj⟩ := numberEdges_success C g0 g hs hnum
  have hU := vJoin_edgesHit C g0 g hs hnum
  refine ⟨?_, ?_, ?_⟩
  · intro v
    obtain ⟨st, hrun, hhit⟩ := hU v
    have hmem : ∀ x, x ∈ st.edgesHit ↔
        ∃ P, isPerfectMatchingOn g (awayFrom g v) P ∧ x ∈ edgeIds g P := by
      intro x
      rw [hhit]
      simp only [vJoinUnion, Finset.mem_biUnion, mem_perfectMatchingsOn]
    refine ⟨st, hrun, hhit, hmem, ?_⟩
    intro e he hinc hin
    obtain ⟨P, hP, hx⟩ := (hmem _).1 hin
    have heP := (mem_edgeIds_iff g hinj P hP.1 e he).1 hx
    have hends := hP.2.1 e heP
    simp only [awayFrom, Finset.mem_filter, Finset.mem_range] at hends
    tauto
  · intro lonelyEdgesOfg v rest out counter
    exact sameNumberLoop_cons g lonelyEdgesOfg (vJoinUnion g v) v (hU v) rest out counter
  · intro lonelyEdgesOfg
    unfold generateChildrenWithSameNumberOfLonelyEdges
    rw [sameNumberLoop_filter g lonelyEdgesOfg (vJoinUnion g) hU]
    simp

/-- Witness for C17: the prism and its vertex 0. The target is `{4, 5}`, the enumeration
completes once, on the edge `4 5` with identifier 8, so the union is `{8}`; this edge is
lonely in the prism, and with the lonely edges of the prism no vertex is blown up. -/
theorem edgesHitByvJoin_is_union_witness :
    isSimple prismRaw ∧ numberEdges 64 prismRaw = (0, prism) ∧
    awayFrom prism 0 = {4, 5} ∧
    (generatePerfectMatchings (prism.numberOfVertices + 1) prism
        (difference (complement (singleton 0) prism.numberOfVertices) (prism.adjacencyList 0))
        EMPTY initState).map (fun st => (st.edgesHit, st.completions)) = some ({8}, [{8}]) ∧
    vJoinUnion prism 0 = {8} ∧
    (countLonelyEdges prism).map (fun r => forEach r.2) = some [0, 1, 3, 6, 7, 8] ∧
    generateChildrenWithSameNumberOfLonelyEdges prism {0, 1, 3, 6, 7, 8}
      = some (((List.range prism.numberOfVertices).filter
            (fun v => decide
              (size (intersection (vJoinUnion prism v) {0, 1, 3, 6, 7, 8}) = 0))).map
            (blowUpToTriangle prism),
          ((List.range prism.numberOfVertices).filter
            (fun v => decide
              (size (intersection (vJoinUnion prism v) {0, 1, 3, 6, 7, 8}) = 0))).length) ∧
    (generateChildrenWithSameNumberOfLonelyEdges prism {0, 1, 3, 6, 7, 8}).map Prod.snd
      = some 0 := by
  have hmain := edgesHitByvJoin_is_union 64 prismRaw prism (by decide) rfl
  have hrun : (generatePerfectMatchings (prism.numberOfVertices + 1) prism
        (difference (complement (singleton 0) prism.numberOfVertices) (prism.adjacencyList 0))
        EMPTY initState).map (fun st => (st.edgesHit, st.completions))
          = some ({8}, [{8}]) := by
    decide
  refine ⟨by decide, rfl, by decide, hrun, ?_, by decide, hmain.2.2 _, by decide⟩
  obtain ⟨st, hst, hhit, _⟩ := hmain.1 0
  rw [hst] at hrun
  rw [← hhit]
  simpa using (congrArg (Option.map Prod.fst) hrun)

/-- C19: for a simple 3-regular graph accepted by `readGraph` under a capacity `C ≥ 6`,
`n + 2 ≤ C`: the two vertex numbers `n` and `n + 1` that `blowUpToTriangle` inserts are
below `C`, and so is every vertex number occurring in the adjacency of the blow-up. -/
theorem blowUpToTriangle_within_capacity (C : Nat) (getNumberOfVertices : String → Int)
    (loadGraph : String → Nat → Option (Nat → bitset)) (graphString : String) (g : graph)
    (h : readGraph C getNumberOfVertices loadGraph graphString = some g) (hs : isSimple g)
    (hc : isCubic g) (hC : 6 ≤ C) (v : Nat) (hv : v < g.numberOfVertices) :
    2 * numberOfEdges g = 3 * g.numberOfVertices ∧
    g.numberOfVertices + 2 ≤ C ∧ g.numberOfVertices < C ∧ g.numberOfVertices + 1 < C ∧
    (blowUpToTriangle g v).numberOfVertices ≤ C ∧
    (∀ u w, w ∈ (blowUpToTriangle g v).adjacencyList u → u < C ∧ w < C) := by
  obtain ⟨_, hm, _⟩ := readGraph_accepts C _ _ _ g h hs
  have hsum := sum_degrees g hs
  rw [Finset.sum_congr rfl (fun u hu => hc u (Finset.mem_range.1 hu))] at hsum
  simp only [Finset.sum_const, Finset.card_range, smul_eq_mul] at hsum
  have hn2 : g.numberOfVertices + 2 ≤ C := by omega
  refine ⟨by omega, hn2, by omega, by omega, hn2, ?_⟩
  intro u w hw
  obtain ⟨x, y, z, hxy, _, hf, _, hx, hy, _, hxv, hyv, _⟩ :=
    neighbours_of_cubic_vertex g hs v hv (hc v hv)
  rw [mem_blowUpToTriangle g v x y z hf hv hx hy hxv hyv (Nat.ne_of_lt hxy)] at hw
  have h1 := childAdjacent_simple g hs v x y hv hx hy u w hw
  have h2 := childAdjacent_simple g hs v x y hv hx hy w u h1.2.2
  omega

/-- Witness for C19: the complete graph on four vertices under capacity 64. -/
theorem blowUpToTriangle_within_capacity_witness :
    readGraph 64 (fun _ => 4) (fun _ _ => some K4raw.adjacencyList) "C~" = some K4 ∧
    isSimple K4 ∧ isCubic K4 ∧ 6 ≤ 64 ∧ 0 < K4.numberOfVertices ∧
    K4.numberOfVertices + 2 ≤ 64 ∧
    (∀ u w, w ∈ (blowUpToTriangle K4 0).adjacencyList u → u < 64 ∧ w < 64) :=
  ⟨rfl, by decide, by decide, by decide, by decide,
    (blowUpToTriangle_within_capacity 64 (fun _ => 4) (fun _ _ => some K4raw.adjacencyList)
      "C~" K4 rfl (by decide) (by decide) (by decide) 0 (by decide)).2.1,
    (blowUpToTriangle_within_capacity 64 (fun _ => 4) (fun _ _ => some K4raw.adjacencyList)
      "C~" K4 rfl (by decide) (by decide) (by decide) 0 (by decide)).2.2.2.2.2⟩

/-- C11 fails on the code for `# = 0`: with the single option `-o0`, an accepted graph with
exactly 0 lonely edges (here the triangle) is counted in `frequencies[0]` but nothing is
written to the output, and the program ends with status 0. -/
theorem output_zero_writes_nothing :
    (readGraph 64 (fun _ => 3) (fun _ _ => some triangleRaw.adjacencyList) "Bw").isSome ∧
    ((readGraph 64 (fun _ => 3) (fun _ _ => some triangleRaw.adjacencyList) "Bw").bind
      countLonelyEdges).map Prod.fst = some 0 ∧
    parseOptions [cliOption.o 0]
      { opts := { allChildrenFlag := false, printMatchingsFlag := false,
                  printChildrenWithSameNumber := false, verboseFlag := false },
        output := -1 } ≠ Except.error 1 ∧
    statusAndLines
      (main 64 (fun _ => 3) (fun _ _ => some triangleRaw.adjacencyList) [cliOption.o 0]
        ["Bw"]) = some (0, 0) := by
  refine ⟨by decide, by decide, ?_, by decide⟩
  simp [parseOptions, parseOption]

/-- C12 fails on the code when `-h` is among the options: with `-a -d -h` the two modes `-a`
and `-d` are requested together, yet the program prints the help and ends with status 0. -/
theorem conflict_with_help_exits_zero :
    cliOption.a ∈ [cliOption.a, cliOption.d, cliOption.h] ∧
    cliOption.d ∈ [cliOption.a, cliOption.d, cliOption.h] ∧
    main 64 (fun _ => 4) (fun _ _ => some K4raw.adjacencyList)
      [cliOption.a, cliOption.d, cliOption.h] ["C~"] = Except.ok (0, initRun) :=
  ⟨by decide, by decide, rfl⟩

/-- C12 as amended: whenever two of the modes `-o#`, `-a`, `-d` are requested together, the
program ends before it reads any input and with nothing written to the output; its exit
status is 0 or 1, and it is 1 unless `-h` is among the options. -/
theorem conflict_exits_before_input (C : Nat) (getNumberOfVertices : String → Int)
    (loadGraph : String → Nat → Option (Nat → bitset)) (args : List cliOption)
    (stdin : List String)
    (hconf : ((∃ value, cliOption.o value ∈ args) ∧ cliOption.a ∈ args) ∨
      ((∃ value, cliOption.o value ∈ args) ∧ cliOption.d ∈ args) ∨
      (cliOption.a ∈ args ∧ cliOption.d ∈ args)) :
    ∃ r, main C getNumberOfVertices loadGraph args stdin = Except.ok (r, initRun) ∧
      initRun.stdout = [] ∧ (r = 0 ∨ r = 1) ∧ (cliOption.h ∉ args → r = 1) := by
  have hspec := parseOptions_spec args
    { opts := { allChildrenFlag := false, printMatchingsFlag := false,
                printChildrenWithSameNumber := false, verboseFlag := false },
      output := -1 }
  unfold main
  split at hspec
  · rename_i r hr
    refine ⟨r, rfl, rfl, hspec.1, fun hh => ?_⟩
    rcases hspec.1 with h0 | h1
    · exact absurd (hspec.2 h0) hh
    · exact h1
  · rename_i st1 hst1
    have hcheck : checkOptions st1 = some 1 := by
      apply checkOptions_conflict
      rcases hconf with ⟨ho, ha⟩ | ⟨ho, hd⟩ | ⟨ha, hd⟩
      · exact Or.inl ⟨hspec.2.2 (Or.inr ho), hspec.1 (Or.inr ha)⟩
      · exact Or.inr (Or.inl ⟨hspec.2.2 (Or.inr ho), hspec.2.1 (Or.inr hd)⟩)
      · exact Or.inr (Or.inr ⟨hspec.1 (Or.inr ha), hspec.2.1 (Or.inr hd)⟩)
    simp only [hcheck]
    exact ⟨1, rfl, rfl, Or.inr rfl, fun _ => rfl⟩

/-- Witness for the amended C12: the options `-a -d`. -/
theorem conflict_exits_before_input_witness :
    (cliOption.a ∈ [cliOption.a, cliOption.d] ∧ cliOption.d ∈ [cliOption.a, cliOption.d]) ∧
    ∃ r, main 64 (fun _ => 4) (fun _ _ => some K4raw.adjacencyList)
        [cliOption.a, cliOption.d] ["C~"] = Except.ok (r, initRun) ∧
      initRun.stdout = [] ∧ (r = 0 ∨ r = 1) ∧
      (cliOption.h ∉ [cliOption.a, cliOption.d] → r = 1) :=
  ⟨⟨by decide, by decide⟩,
    conflict_exits_before_input 64 (fun _ => 4) (fun _ _ => some K4raw.adjacencyList)
      [cliOption.a, cliOption.d] ["C~"] (Or.inr (Or.inr ⟨by decide, by decide⟩))⟩

set_option maxRecDepth 1000000 in
/-- C13 fails on the code for 64 vertices: `writeToG6` stores the low byte of the vertex
count without reducing it to six bits, so the fourth byte written is 127, outside the range
63..126 (graph6 has 63 there). A graph on 64 vertices reaches `writeToG6` as the blow-up of
an accepted graph on 62 vertices, here the cycle on 62 vertices under capacity 64. -/
theorem writeToG6_header_64 :
    writeHeader 64 = some [126, 63, 64, 127] ∧
    (∀ adjacencyList : Nat → bitset, ∃ rest,
      writeToG6 adjacencyList 64 = some (126 :: 63 :: 64 :: 127 :: rest)) ∧
    (readGraph 64 (fun _ => 62) (fun _ _ => some (cycleRaw 62).adjacencyList) "").map
      (fun g => (blowUpToTriangle g 0).numberOfVertices) = some 64 := by
  have hh : writeHeader 64 = some [126, 63, 64, 127] := by rfl
  refine ⟨hh, ?_, by decide!⟩
  intro adjacencyList
  unfold writeToG6
  rw [hh]
  exact ⟨_, congrArg some (takeWhile_four _ 126 63 64 127 _ _ (by decide) (by decide)
    (by decide) (by decide))⟩

set_option maxRecDepth 1000000 in
/-- C18 fails on the code: under capacity 64 the cycle on 64 vertices is accepted (64
vertices, 64 edges), it has exactly two perfect matchings and each edge lies in exactly one
of them, so `countLonelyEdges` returns 64 and `frequencies[64]` lies outside the array of
length 64. -/
theorem cycle_count_equals_capacity :
    isSimple (cycleRaw 64) ∧
    (readGraph 64 (fun _ => 64) (fun _ _ => some (cycleRaw 64).adjacencyList) "").isSome ∧
    ((readGraph 64 (fun _ => 64) (fun _ _ => some (cycleRaw 64).adjacencyList) "").bind
      countLonelyEdges).map Prod.fst = some 64 ∧
    faultOf (main 64 (fun _ => 64) (fun _ _ => some (cycleRaw 64).adjacencyList) [] [""])
      = some (fault.frequenciesOutOfBounds 64) := by
  refine ⟨by decide!, by decide!, by decide!, by decide!⟩

/-- C20: for a simple graph and a vertex `v` of degree exactly 3, the number of completions
of `generatePerfectMatchings` on the blow-up at `v` (target: all `n + 2` vertices; the edge
numbers of the child play no role) is the number of completions on the graph itself
(target: all `n` vertices) plus the number of completions on the graph with the vertices
other than `v` and its neighbours as target. -/
theorem child_completions_count (g : graph) (hs : isSimple g) (v : Nat)
    (hv : v < g.numberOfVertices) (hdeg : (g.adjacencyList v).card = 3) (c : graph)
    (hcn : c.numberOfVertices = (blowUpToTriangle g v).numberOfVertices)
    (hca : c.adjacencyList = (blowUpToTriangle g v).adjacencyList) :
    ∃ stChild stParent stJoin,
      generatePerfectMatchings (c.numberOfVertices + 1) c
        (complement EMPTY c.numberOfVertices) EMPTY initState = some stChild ∧
      generatePerfectMatchings (g.numberOfVertices + 1) g
        (complement EMPTY g.numberOfVertices) EMPTY initState = some stParent ∧
      generatePerfectMatchings (g.numberOfVertices + 1) g
        (difference (complement (singleton v) g.numberOfVertices) (g.adjacencyList v))
        EMPTY initState = some stJoin ∧
      stChild.completions.length
        = stParent.completions.length + stJoin.completions.length := by
  have hsc : isSimple c := by
    have := blowUpToTriangle_simple g hs v hv hdeg
    unfold isSimple at this ⊢
    rw [hcn, hca]
    exact this
  obtain ⟨stChild, hChild, hlenC⟩ := completions_count c (isSimple_noLoops c hsc)
    (complement EMPTY c.numberOfVertices) Finset.sdiff_subset (c.numberOfVertices + 1)
    (by
      have hle := Finset.card_le_card
        (Finset.sdiff_subset : complement EMPTY c.numberOfVertices ⊆ Finset.range _)
      rw [Finset.card_range] at hle
      exact Nat.lt_succ_of_le hle)
  obtain ⟨stParent, hParent, hlenP⟩ := completions_count g (isSimple_noLoops g hs)
    (complement EMPTY g.numberOfVertices) Finset.sdiff_subset (g.numberOfVertices + 1)
    (by
      have hle := Finset.card_le_card
        (Finset.sdiff_subset : complement EMPTY g.numberOfVertices ⊆ Finset.range _)
      rw [Finset.card_range] at hle
      exact Nat.lt_succ_of_le hle)
  have hsubJ : difference (complement (singleton v) g.numberOfVertices) (g.adjacencyList v)
      ⊆ Finset.range g.numberOfVertices := by
    intro a ha
    exact (Finset.mem_sdiff.1 (Finset.mem_sdiff.1 ha).1).1
  obtain ⟨stJoin, hJoin, hlenJ⟩ := completions_count g (isSimple_noLoops g hs)
    (difference (complement (singleton v) g.numberOfVertices) (g.adjacencyList v)) hsubJ
    (g.numberOfVertices + 1)
    (by
      have hle := Finset.card_le_card hsubJ
      rw [Finset.card_range] at hle
      exact Nat.lt_succ_of_le hle)
  refine ⟨stChild, stParent, stJoin, hChild, hParent, hJoin, ?_⟩
  rw [hlenC, hlenP, hlenJ]
  have hmain := card_matchings_blowUp g hs v hv hdeg
  have hc1 : (perfectMatchingsOn c (complement EMPTY c.numberOfVertices)).card
      = (perfectMatchingsOn (blowUpToTriangle g v)
          (Finset.range (g.numberOfVertices + 2))).card := by
    apply card_matchings_congr
    · intro a
      rw [hcn]
      simp [blowUpToTriangle_numberOfVertices]
    · exact Finset.sdiff_subset
    · rw [blowUpToTriangle_numberOfVertices]
    · intro a _ b _
      rw [hca]
  have hp1 : (perfectMatchingsOn g (complement EMPTY g.numberOfVertices)).card
      = (perfectMatchingsOn g (Finset.range g.numberOfVertices)).card := by
    apply card_matchings_congr
    · intro a
      simp
    · exact Finset.sdiff_subset
    · exact Finset.Subset.refl _
    · intro a _ b _
      rfl
  rw [hc1, hp1, hmain]

/-- Witness for C20: the complete graph on four vertices, blown up at vertex 0. -/
theorem child_completions_count_witness :
    isSimple K4raw ∧ 0 < K4raw.numberOfVertices ∧ (K4raw.adjacencyList 0).card = 3 ∧
    ∃ stChild stParent stJoin,
      generatePerfectMatchings ((blowUpToTriangle K4raw 0).numberOfVertices + 1)
        (blowUpToTriangle K4raw 0)
        (complement EMPTY (blowUpToTriangle K4raw 0).numberOfVertices) EMPTY initState
          = some stChild ∧
      generatePerfectMatchings (K4raw.numberOfVertices + 1) K4raw
        (complement EMPTY K4raw.numberOfVertices) EMPTY initState = some stParent ∧
      generatePerfectMatchings (K4raw.numberOfVertices + 1) K4raw
        (difference (complement (singleton 0) K4raw.numberOfVertices)
          (K4raw.adjacencyList 0))
        EMPTY initState = some stJoin ∧
      stChild.completions.length
        = stParent.completions.length + stJoin.completions.length :=
  ⟨by decide, by decide, by decide,
    child_completions_count K4raw (by decide) 0 (by decide) (by decide)
      (blowUpToTriangle K4raw 0) rfl rfl⟩

end LonelyEdges
